import Mathlib

/-!
# Scientific calculator: tokenizer, shunting-yard converter and postfix evaluator

A shallow embedding of `src/model/model.cc`, `src/model/model.h` and
`src/model/lib/functions.h`.

Conventions of the embedding.

* A `std::vector` used as a stack is a `List` whose head is the back of the
  vector, so `push_back` is `List.cons` and `pop_back` drops the head.
  The expression buffer and the result vector are lists in vector order.
* Everything a member function may raise is a value of `Thrown`: a thrown
  `std::string`, the `std::out_of_range` of `std::map::at`, or an operation
  whose behaviour is undefined (`pop_back` on an empty vector, `operands[i]`
  past the end).
* The type `double`, the `<cmath>` functions and `std::stod` do not belong to
  the repository; they are the fields of the parameter `Libm D`.
-/

namespace scn

/-! ## lib/functions.h -/

/-- The seventeen classes derived from `Function` in lib/functions.h. -/
inductive Function
  | unary_plus | unary_minus | sin | cos | tan | asin | acos | atan | ln | log | sqrt
  | pow | mult | div | mod | plus | minus
  deriving DecidableEq, Repr

namespace Function

/-- The member `arity()` of each class. -/
def arity : Function → Nat
  | unary_plus => 1 | unary_minus => 1 | sin => 1 | cos => 1 | tan => 1 | asin => 1
  | acos => 1 | atan => 1 | ln => 1 | log => 1 | sqrt => 1
  | pow => 2 | mult => 2 | div => 2 | mod => 2 | plus => 2 | minus => 2

/-- The member `left_associative()` of each class. -/
def left_associative : Function → Bool
  | unary_plus => false | unary_minus => false | sin => false | cos => false | tan => false
  | asin => false | acos => false | atan => false | ln => false | log => false | sqrt => false
  | pow => false | mult => true | div => true | mod => true | plus => true | minus => true

end Function

/-- What a member function can raise instead of returning. -/
inductive Thrown
  | message (text : String)
  | out_of_range
  | undefined
  deriving DecidableEq, Repr

/-- Result of `std::stod(str, &read)`: one of its two exceptions, or the value
together with the number of characters it consumed. -/
inductive Stod (D : Type)
  | invalid_argument
  | out_of_range
  | converted (value : D) (read : Nat)

/-- The arithmetic on `double` and the library functions the code calls. -/
structure Libm (D : Type) where
  neg : D → D
  add : D → D → D
  sub : D → D → D
  mul : D → D → D
  div : D → D → D
  fmod : D → D → D
  pow : D → D → D
  sin : D → D
  cos : D → D
  tan : D → D
  asin : D → D
  acos : D → D
  atan : D → D
  log : D → D
  log10 : D → D
  sqrt : D → D
  zero : D
  stod : String → Stod D

/-- The element `operands[i]` of a `std::vector<double>`; reading past the end
is undefined. -/
def operand {D : Type} (operands : List D) (i : Nat) : Except Thrown D :=
  match operands[i]? with
  | some x => .ok x
  | none => .error .undefined

/-- The member `operator()(operands)` of each class. -/
def Function.call {D : Type} (L : Libm D) (f : Function) (operands : List D) :
    Except Thrown D :=
  match f with
  | .unary_plus => operand operands 0
  | .unary_minus => (operand operands 0).map L.neg
  | .sin => (operand operands 0).map L.sin
  | .cos => (operand operands 0).map L.cos
  | .tan => (operand operands 0).map L.tan
  | .asin => (operand operands 0).map L.asin
  | .acos => (operand operands 0).map L.acos
  | .atan => (operand operands 0).map L.atan
  | .ln => (operand operands 0).map L.log
  | .log => (operand operands 0).map L.log10
  | .sqrt => (operand operands 0).map L.sqrt
  | .pow =>
    match operand operands 1, operand operands 0 with
    | .ok a, .ok b => .ok (L.pow a b)
    | _, _ => .error .undefined
  | .mult =>
    match operand operands 1, operand operands 0 with
    | .ok a, .ok b => .ok (L.mul a b)
    | _, _ => .error .undefined
  | .div =>
    match operand operands 1, operand operands 0 with
    | .ok a, .ok b => .ok (L.div a b)
    | _, _ => .error .undefined
  | .mod =>
    match operand operands 1, operand operands 0 with
    | .ok a, .ok b => .ok (L.fmod a b)
    | _, _ => .error .undefined
  | .plus =>
    match operand operands 1, operand operands 0 with
    | .ok a, .ok b => .ok (L.add a b)
    | _, _ => .error .undefined
  | .minus =>
    match operand operands 1, operand operands 0 with
    | .ok a, .ok b => .ok (L.sub a b)
    | _, _ => .error .undefined

/-! ## model.h: the two initialisation tables -/

/-- The macro `FUNCTION_MAP`. -/
def FUNCTION_MAP : List (String × Function) :=
  [("unary +", .unary_plus), ("unary -", .unary_minus), ("sin", .sin), ("cos", .cos),
   ("tan", .tan), ("asin", .asin), ("acos", .acos), ("atan", .atan), ("ln", .ln),
   ("log", .log), ("sqrt", .sqrt), ("^", .pow), ("*", .mult), ("/", .div),
   ("mod", .mod), ("+", .plus), ("-", .minus)]

/-- The macro `PRECEDENCE_MAP`. -/
def PRECEDENCE_MAP : List (String × Int) :=
  [("unary +", 3), ("unary -", 3), ("sin", 3), ("cos", 3), ("tan", 3), ("asin", 3),
   ("acos", 3), ("atan", 3), ("ln", 3), ("log", 3), ("sqrt", 3), ("^", 2), ("*", 2),
   ("/", 2), ("mod", 2), ("+", 1), ("-", 1)]

/-- The call `functions.contains(token)` on a map built from `FUNCTION_MAP`. -/
def contains (token : String) : Bool :=
  (FUNCTION_MAP.lookup token).isSome

/-- The call `m.at(key)` of `std::map`. -/
def map_at {V : Type} (m : List (String × V)) (key : String) : Except Thrown V :=
  match m.lookup key with
  | some v => .ok v
  | none => .error .out_of_range

/-! ## PostfixStringExpression: the lexeme buffer and the tokenizer -/

namespace PostfixStringExpression

/-- The test of `tokenized()` that makes an atom a token of its own. -/
def standalone (atom : String) : Bool :=
  contains atom || atom == "(" || atom == ")"

mutual

/-- The member `tokenized()`, as a function of the atoms of the expression
buffer from index `i` on: one pass of its `for`. -/
def tokenized : List String → List String
  | [] => []
  | atom :: rest =>
    if standalone atom then atom :: tokenized rest
    else number_loop ("" ++ atom) rest

/-- The inner `while` of `tokenized()`, on `string_number` and the atoms from
index `i` on. When it ends, `string_number` is pushed and the `for` goes on:
at an atom that ends the `while`, the next pass of the `for` pushes that atom. -/
def number_loop : String → List String → List String
  | string_number, [] => [string_number]
  | string_number, atom :: rest =>
    if standalone atom then string_number :: atom :: tokenized rest
    else number_loop (string_number ++ atom) rest

end

/-- The member `edit(button)`. -/
def edit (button : String) (expression : List String) : List String :=
  if button = "<-" then expression.dropLast else expression ++ [button]

/-- The member `clear()`. -/
def clear (_expression : List String) : List String :=
  []

/-- The member `string()`. -/
def string (expression : List String) : String :=
  expression.foldl
    (fun result lexeme =>
      if lexeme = "unary +" then result ++ "+"
      else if lexeme = "unary -" then result ++ "-"
      else result ++ lexeme)
    ""

end PostfixStringExpression

/-! ## ShuntingYardStringStack: the operator stack -/

namespace ShuntingYardStringStack

/-- The member `push(token)`. -/
def push (token : String) (stack : List String) : List String :=
  token :: stack

/-- The member `pop_multiple(tokens)`: one `pop_back` for each element of
`tokens`; returns the stack that is left. -/
def pop_multiple : List String → List String → Except Thrown (List String)
  | [], stack => .ok stack
  | _ :: _, [] => .error .undefined
  | _ :: tokens, _ :: stack => pop_multiple tokens stack

/-- The member `left_bracket()`. -/
def left_bracket : List String → List String
  | [] => []
  | top :: _ => if top = "(" then [top] else []

/-- The member `unary_operators()`. -/
def unary_operators : List String → Except Thrown (List String)
  | [] => .ok []
  | top :: below =>
    if top = "(" then .ok []
    else
      match map_at FUNCTION_MAP top with
      | .error e => .error e
      | .ok f =>
        if f.arity = 1 then
          match unary_operators below with
          | .error e => .error e
          | .ok result => .ok (top :: result)
        else .ok []

/-- The member `not_unary_operators()`. -/
def not_unary_operators : List String → Except Thrown (List String)
  | [] => .ok []
  | top :: below =>
    if top = "(" then .ok []
    else
      match map_at FUNCTION_MAP top with
      | .error e => .error e
      | .ok f =>
        if f.arity > 1 then
          match not_unary_operators below with
          | .error e => .error e
          | .ok result => .ok (top :: result)
        else .ok []

/-- The `while` of `hi_preced_operators(token)`, with `token_preced` already
looked up. -/
def hi_preced_loop (token : String) (token_preced : Int) :
    List String → Except Thrown (List String)
  | [] => .ok []
  | top :: below =>
    if top = "(" then .ok []
    else
      match map_at FUNCTION_MAP top with
      | .error e => .error e
      | .ok f =>
        if f.arity > 1 then
          match map_at PRECEDENCE_MAP top with
          | .error e => .error e
          | .ok top_preced =>
            if top_preced > token_preced then
              match hi_preced_loop token token_preced below with
              | .error e => .error e
              | .ok result => .ok (top :: result)
            else if top_preced = token_preced then
              match map_at FUNCTION_MAP token with
              | .error e => .error e
              | .ok g =>
                if g.left_associative then
                  match hi_preced_loop token token_preced below with
                  | .error e => .error e
                  | .ok result => .ok (top :: result)
                else .ok []
            else .ok []
        else .ok []

/-- The member `hi_preced_operators(token)`. -/
def hi_preced_operators (token : String) (stack : List String) :
    Except Thrown (List String) :=
  match map_at PRECEDENCE_MAP token with
  | .error e => .error e
  | .ok token_preced => hi_preced_loop token token_preced stack

/-- The member `empty()`. -/
def empty (stack : List String) : Bool :=
  stack.isEmpty

end ShuntingYardStringStack

/-! ## PostfixStringExpression::postfixed -/

namespace PostfixStringExpression

open ShuntingYardStringStack

/-- The member `append_tokens(src, dest)`. -/
def append_tokens (src dest : List String) : List String :=
  dest ++ src

/-- A statement that may throw, run on the operator stack `stack`: what it
throws is paired with the stack at that moment. -/
def on_stack {A : Type} (stack : List String) (r : Except Thrown A) :
    Except (Thrown × List String) A :=
  match r with
  | .ok a => .ok a
  | .error e => .error (e, stack)

/-- Appends what `collect` reads off the stack to `result` and pops as many
elements as a second call of `collect` returns: the statement pair
`append_tokens(stack->f(), &result); stack->pop_multiple(stack->f());`. -/
def flush (collect : List String → Except Thrown (List String))
    (stack result : List String) :
    Except (Thrown × List String) (List String × List String) :=
  match on_stack stack (collect stack) with
  | .error e => .error e
  | .ok moved =>
    match on_stack stack (collect stack) with
    | .error e => .error e
    | .ok counted =>
      match on_stack stack (pop_multiple counted stack) with
      | .error e => .error e
      | .ok stack => .ok (stack, append_tokens moved result)

/-- The body of the `for` of `postfixed()` for one token, on the operator
stack and the result so far. -/
def postfixed_token (token : String) (stack result : List String) :
    Except (Thrown × List String) (List String × List String) :=
  if contains token then
    match flush (hi_preced_operators token) stack result with
    | .error e => .error e
    | .ok (stack, result) => .ok (push token stack, result)
  else if token = "(" then .ok (push token stack, result)
  else if token = ")" then
    match flush not_unary_operators stack result with
    | .error e => .error e
    | .ok (stack, result) =>
      if empty stack then .error (.message "missing left parenthesis", stack)
      else
        match on_stack stack (pop_multiple (left_bracket stack) stack) with
        | .error e => .error e
        | .ok stack => flush unary_operators stack result
  else flush unary_operators stack (append_tokens [token] result)

/-- The `for` of `postfixed()` over the tokens. -/
def postfixed_loop : List String → List String → List String →
    Except (Thrown × List String) (List String × List String)
  | [], stack, result => .ok (stack, result)
  | token :: tokens, stack, result =>
    match postfixed_token token stack result with
    | .error e => .error e
    | .ok (stack, result) => postfixed_loop tokens stack result

/-- The statements of `postfixed()` after the `for`. -/
def postfixed_end (stack result : List String) :
    Except (Thrown × List String) (List String × List String) :=
  match flush not_unary_operators stack result with
  | .error e => .error e
  | .ok (stack, result) =>
    if !empty stack then .error (.message "missing right parenthesis", stack)
    else .ok (stack, result)

/-- The member `postfixed()` with its effect on the operator stack: from the
expression buffer and the stack an earlier call left, the operator stack
afterwards paired with the returned vector, or what is thrown paired with the
stack at that moment. -/
def postfixed_run (expression : List String) (_stack : List String) :
    Except (Thrown × List String) (List String × List String) :=
  match postfixed_loop (tokenized expression) [] [] with
  | .error e => .error e
  | .ok (stack, result) => postfixed_end stack result

/-- The member `postfixed()`: the returned vector, or what is thrown. -/
def postfixed (expression : List String) (stack : List String) :
    Except Thrown (List String) :=
  match postfixed_run expression stack with
  | .error e => .error e.1
  | .ok r => .ok r.2

end PostfixStringExpression

/-! ## CalculatingDblStack: the value stack -/

namespace CalculatingDblStack

variable {D : Type}

/-- The member `strToDbl(str)`. -/
def strToDbl (L : Libm D) (str : String) : Except Thrown D :=
  match L.stod str with
  | .invalid_argument =>
    .error (.message ("std::stod error: string <" ++ str ++ "> is unconvertable to number"))
  | .out_of_range =>
    .error (.message ("std::stod error: string <" ++ str ++
      "> is to big for current number type (double)"))
  | .converted result read =>
    if str.utf8ByteSize ≠ read then
      .error (.message ("string <" ++ str ++ "> is unconvertable to number"))
    else .ok result

/-- The `for` of `push(token)` that moves `arity` values from the stack to
`operands`; returns `operands` and the stack that is left. -/
def pop_operands : Nat → List D → List D →
    Except (Thrown × List D) (List D × List D)
  | 0, stack, operands => .ok (operands, stack)
  | _ + 1, [], _ => .error (.message "not enough arguments", [])
  | arity + 1, back :: stack, operands => pop_operands arity stack (operands ++ [back])

/-- The member `push(token)`: the value stack afterwards, or what is thrown
paired with the value stack at that moment. -/
def push (L : Libm D) (token : String) (stack : List D) :
    Except (Thrown × List D) (List D) :=
  if contains token then
    match map_at FUNCTION_MAP token with
    | .error e => .error (e, stack)
    | .ok f =>
      match pop_operands f.arity stack [] with
      | .error e => .error e
      | .ok (operands, stack) =>
        match f.call L operands with
        | .error e => .error (e, stack)
        | .ok value => .ok (value :: stack)
  else
    match strToDbl L token with
    | .error e => .error (e, stack)
    | .ok value => .ok (value :: stack)

/-- The member `top()`. -/
def top (stack : List D) : Except Thrown D :=
  match stack with
  | [] => .error .undefined
  | back :: _ => .ok back

end CalculatingDblStack

/-! ## ComputableStringExpression::solution -/

namespace ComputableStringExpression

variable {D : Type}

/-- The `for` of `solution()` over the postfix tokens, for a calculating stack
whose `push` is `push`: the value stack and `result` afterwards. -/
def solution_loop (push : String → List D → Except (Thrown × List D) (List D)) :
    List String → List D → D → Except (Thrown × List D) (List D × D)
  | [], stack, result => .ok (stack, result)
  | token :: tokens, stack, _ =>
    match push token stack with
    | .error e => .error e
    | .ok stack =>
      match CalculatingDblStack.top stack with
      | .error e => .error (e, stack)
      | .ok result => solution_loop push tokens stack result

/-- What a call of `solution()` leaves behind: the value returned or what is
thrown, and the operator stack and the value stack afterwards. -/
structure Solved (D : Type) where
  outcome : Except Thrown D
  oper_stack : List String
  calc_stack : List D

/-- The member `solution()`, for a calculating stack whose `push` is `push`, on
the expression buffer and the two stacks as an earlier call left them; `zero`
is the `double` 0 that initialises `result`. The value stack is cleared before
`postfixed()` is called. -/
def solution (push : String → List D → Except (Thrown × List D) (List D)) (zero : D)
    (expression oper_stack : List String) (_calc_stack : List D) : Solved D :=
  match PostfixStringExpression.postfixed_run expression oper_stack with
  | .error (e, oper_stack) => ⟨.error e, oper_stack, []⟩
  | .ok (oper_stack, tokens) =>
    match solution_loop push tokens [] zero with
    | .error (e, calc_stack) => ⟨.error e, oper_stack, calc_stack⟩
    | .ok (calc_stack, result) => ⟨.ok result, oper_stack, calc_stack⟩

end ComputableStringExpression

/-! ## CalculatingStack_with_variable -/

namespace CalculatingStack_with_variable

variable {D : Type}

/-- The member `push(token)`, where `X_str_var` is the string the pointer of
that name refers to and `stack` is the value stack of the wrapped
`CalculatingDblStack`. -/
def push (L : Libm D) (X_str_var : String) (token : String) (stack : List D) :
    Except (Thrown × List D) (List D) :=
  if token = "X" then CalculatingDblStack.push L X_str_var stack
  else CalculatingDblStack.push L token stack

end CalculatingStack_with_variable

/-! ## The objects wired together in `main()` -/

/-- The storage of the objects `main()` and the tests of `CalculatorModel`
create: the expression buffer of the `PostfixStringExpression`, the stack of
the `ShuntingYardStringStack`, the stack of the `CalculatingDblStack`, the
string that `X_str_var` of the two wrappers points to, and the string `result`
of the `CalculatorModel`. -/
structure Session (D : Type) where
  expression : List String
  oper_stack : List String
  stack_simple : List D
  X_str_var : String
  result : String

/-- The comparisons and conversions on `double` and the formatting function
the model and the plotter call, besides the functions of `Libm`.
`snprintf size format args num` stands for
`std::snprintf(buffer, size, format, args..., num)` and gives the returned
count and the contents of the buffer; `DBL_DIG` is the macro of `<cfloat>`. -/
structure Fpu (D : Type) extends Libm D where
  lt : D → D → Bool
  le : D → D → Bool
  eq : D → D → Bool
  abs : D → D
  of_int : Int → D
  DBL_DIG : Nat
  snprintf : Nat → String → List Int → D → Int × String

namespace ComputStrExpressionWithVariable

variable {D : Type}

/-- The member `edit(button)`. -/
def edit (button : String) (s : Session D) : Session D :=
  { s with expression := PostfixStringExpression.edit button s.expression }

/-- The member `clear()`. -/
def clear (s : Session D) : Session D :=
  { s with expression := PostfixStringExpression.clear s.expression }

/-- The member `string()`. -/
def string (s : Session D) : String :=
  PostfixStringExpression.string s.expression

/-- The member `solution()`: the `solution()` of the `ComputableStringExpression`
whose calculating stack is the `CalculatingStack_with_variable`. Returns the
value or what is thrown, and the session with the two stacks as the call left
them. -/
def solution (L : Libm D) (s : Session D) : Except Thrown D × Session D :=
  let r := ComputableStringExpression.solution
    (CalculatingStack_with_variable.push L s.X_str_var) L.zero s.expression s.oper_stack
    s.stack_simple
  (r.outcome, { s with oper_stack := r.oper_stack, stack_simple := r.calc_stack })

/-- The member `edit_variable(var_value)`. -/
def edit_variable (var_value : String) (s : Session D) : Session D :=
  { s with X_str_var := var_value }

end ComputStrExpressionWithVariable

/-! ## PlotableExpression -/

/-- The macro `BUF_SIZE`. -/
def BUF_SIZE : Nat := 64

/-- A `std::map<double, double>`: its elements in the order of the keys. -/
abbrev Graph (D : Type) : Type := List (D × D)

/-- The outcome of a call that loops or recurses without a bound of its own,
run for a bounded number of steps: the bound ran out, or the call throws `e`,
or it returns `a`, in the last two cases with the session as it then is. -/
inductive Outcome (A S : Type)
  | unfinished
  | throws (e : Thrown) (s : S)
  | returns (a : A) (s : S)

namespace PlotableExpression

variable {D : Type}

/-- The statement `m[key] = value` on a `std::map<double, double>`. -/
def map_assign (P : Fpu D) (key value : D) : Graph D → Graph D
  | [] => [(key, value)]
  | (k, v) :: rest =>
    if P.lt key k then (key, value) :: (k, v) :: rest
    else if P.lt k key then (k, v) :: map_assign P key value rest
    else (k, value) :: rest

/-- The insertion of one element by `std::map::merge`: nothing is done when an
equivalent key is present. -/
def map_insert (P : Fpu D) (key value : D) : Graph D → Graph D
  | [] => [(key, value)]
  | (k, v) :: rest =>
    if P.lt key k then (key, value) :: (k, v) :: rest
    else if P.lt k key then (k, v) :: map_insert P key value rest
    else (k, v) :: rest

/-- The call `target.merge(source)`: the map `target` afterwards. -/
def map_merge (P : Fpu D) (target source : Graph D) : Graph D :=
  source.foldl (fun m element => map_insert P element.1 element.2 m) target

/-- The member `precise_dblToStr(num)`. -/
def precise_dblToStr (P : Fpu D) (num : D) : Except Thrown String :=
  match P.snprintf BUF_SIZE "%a" [] num with
  | (written, buffer) =>
    if written < 0 then
      .error (.message "Error during convertion double to char buffer")
    else if written ≥ (BUF_SIZE : Int) then
      .error (.message "Char buffer is too small for converted double")
    else .ok buffer

/-- The statements `edit_variable(precise_dblToStr(x)); y = solution();` that
`graphs` and `recursive_plot` share: the value `y`. -/
def sample (P : Fpu D) (x : D) (s : Session D) : Outcome D (Session D) :=
  match precise_dblToStr P x with
  | .error e => .throws e s
  | .ok text =>
    match ComputStrExpressionWithVariable.solution P.toLibm
      (ComputStrExpressionWithVariable.edit_variable text s) with
    | (.error e, s) => .throws e s
    | (.ok y, s) => .returns y s

/-- The condition under which `recursive_plot` returns without recursing. -/
def stops (P : Fpu D) (delta_y y_min y_max y_mid y_lo y_hi : D) : Bool :=
  P.lt (P.abs (P.sub y_mid y_min)) delta_y || (P.lt y_min y_mid && P.lt y_hi y_min) ||
    (P.lt y_max y_mid && P.lt y_hi y_max) || (P.lt y_mid y_max && P.lt y_max y_lo) ||
    (P.lt y_mid y_min && P.lt y_min y_lo)

/-- The member `recursive_plot`, run to the recursion depth `fuel`. -/
def recursive_plot (P : Fpu D) :
    Nat → D → D → D → D → D → D → D → Session D → Outcome (Graph D) (Session D)
  | 0, _, _, _, _, _, _, _, _ => .unfinished
  | fuel + 1, x_min, x_max, delta_y, y_min, y_max, y_lo, y_hi, s =>
    match sample P (P.div (P.add x_min x_max) (P.of_int 2)) s with
    | .unfinished => .unfinished
    | .throws e s => .throws e s
    | .returns y_mid s =>
      if stops P delta_y y_min y_max y_mid y_lo y_hi then
        .returns (map_assign P (P.div (P.add x_min x_max) (P.of_int 2)) y_mid []) s
      else
        match recursive_plot P fuel x_min (P.div (P.add x_min x_max) (P.of_int 2)) delta_y
            y_min y_mid y_lo y_hi s with
        | .unfinished => .unfinished
        | .throws e s => .throws e s
        | .returns lower s =>
          match recursive_plot P fuel (P.div (P.add x_min x_max) (P.of_int 2)) x_max delta_y
              y_mid y_max y_lo y_hi s with
          | .unfinished => .unfinished
          | .throws e s => .throws e s
          | .returns upper s =>
            .returns
              (map_merge P
                (map_merge P
                  (map_assign P (P.div (P.add x_min x_max) (P.of_int 2)) y_mid []) lower)
                upper) s

/-- The `for` of `graphs`, run for at most `fuel` passes, each recursion of
`recursive_plot` to the depth `fuel`: `x` is the loop variable, `previous` the
pair `prev_x`, `prev_y`, which has no value before the first pass ends, and
`graph` the map so far. Reading `prev_y` without a value is undefined. -/
def graphs_loop (P : Fpu D) :
    Nat → D → D → D → D → D → D → D → Option (D × D) → Graph D → Session D →
      Outcome (Graph D) (Session D)
  | 0, _, _, _, _, _, _, _, _, _, _ => .unfinished
  | fuel + 1, x, x_lo, x_hi, delta_x, delta_y, y_lo, y_hi, previous, graph, s =>
    if P.le x x_hi then
      match sample P x s with
      | .unfinished => .unfinished
      | .throws e s => .throws e s
      | .returns y s =>
        if !P.eq x x_lo then
          match previous with
          | none => .throws .undefined s
          | some (prev_x, prev_y) =>
            if P.lt delta_y (P.abs (P.sub y prev_y)) then
              match recursive_plot P fuel prev_x x delta_y prev_y y y_lo y_hi s with
              | .unfinished => .unfinished
              | .throws e s => .throws e s
              | .returns refined s =>
                graphs_loop P fuel (P.add x delta_x) x_lo x_hi delta_x delta_y y_lo y_hi
                  (some (x, y)) (map_merge P (map_assign P x y graph) refined) s
            else
              graphs_loop P fuel (P.add x delta_x) x_lo x_hi delta_x delta_y y_lo y_hi
                (some (x, y)) (map_assign P x y graph) s
        else
          graphs_loop P fuel (P.add x delta_x) x_lo x_hi delta_x delta_y y_lo y_hi
            (some (x, y)) (map_assign P x y graph) s
    else .returns graph s

/-- The `for` of `cut_subgraphs` over the elements of `source_graph`, with
`temp_graph` and `graphs` so far, and the statement after it. -/
def cut_loop (P : Fpu D) (y_lo y_hi : D) : Graph D → Graph D → List (Graph D) → List (Graph D)
  | [], temp_graph, graphs =>
    if !temp_graph.isEmpty then graphs ++ [temp_graph] else graphs
  | (key, value) :: rest, temp_graph, graphs =>
    if P.le y_lo value && P.le value y_hi then
      cut_loop P y_lo y_hi rest (map_assign P key value temp_graph) graphs
    else if !temp_graph.isEmpty then cut_loop P y_lo y_hi rest [] (graphs ++ [temp_graph])
    else cut_loop P y_lo y_hi rest temp_graph graphs

/-- The member `cut_subgraphs(source_graph, y_lo, y_hi)`. -/
def cut_subgraphs (P : Fpu D) (source_graph : Graph D) (y_lo y_hi : D) : List (Graph D) :=
  cut_loop P y_lo y_hi source_graph [] []

/-- The member `graphs(x_lo, x_hi, x_pix, y_lo, y_hi, y_pix)`, its loop and its
recursion bounded by `fuel`. -/
def graphs (P : Fpu D) (fuel : Nat) (x_lo x_hi : D) (x_pix : Int) (y_lo y_hi : D)
    (y_pix : Int) (s : Session D) : Outcome (List (Graph D)) (Session D) :=
  match graphs_loop P fuel x_lo x_lo x_hi (P.div (P.of_int 1) (P.of_int x_pix))
      (P.div (P.of_int 1) (P.of_int y_pix)) y_lo y_hi none [] s with
  | .unfinished => .unfinished
  | .throws e s => .throws e s
  | .returns graph s => .returns (cut_subgraphs P graph y_lo y_hi) s

end PlotableExpression

/-! ## CalculatorModel -/

namespace CalculatorModel

variable {D : Type}

/-- The member `readble_dblToStr(num)`; the buffer has `DBL_DIG * 2` bytes. -/
def readble_dblToStr (P : Fpu D) (num : D) : Except Thrown String :=
  match P.snprintf (P.DBL_DIG * 2) "%.*G" [P.DBL_DIG] num with
  | (written, buffer) =>
    if written < 0 then
      .error (.message "Error during convertion double to char buffer")
    else if written ≥ ((P.DBL_DIG * 2 : Nat) : Int) then
      .error (.message "Char buffer is too small for converted double")
    else .ok buffer

/-- The member `modify(button)`: the session afterwards, or, for a throw that
is not a `std::string` and so is not caught, what is thrown and the session at
that moment. -/
def modify (P : Fpu D) (button : String) (s : Session D) :
    Except (Thrown × Session D) (Session D) :=
  if button = "AC" then
    .ok { ComputStrExpressionWithVariable.clear s with result := "" }
  else if button = "=" then
    match ComputStrExpressionWithVariable.solution P.toLibm s with
    | (.ok value, s) =>
      match readble_dblToStr P value with
      | .ok text => .ok { s with result := text }
      | .error (.message message) => .ok { s with result := message }
      | .error e => .error (e, s)
    | (.error (.message message), s) => .ok { s with result := message }
    | (.error e, s) => .error (e, s)
  else .ok (ComputStrExpressionWithVariable.edit button s)

/-- The member `expression()`. -/
def expression (s : Session D) : String :=
  ComputStrExpressionWithVariable.string s

/-- The member `some_result()`. -/
def some_result (s : Session D) : String :=
  s.result

/-- The member `edit_variable(var_value)`. -/
def edit_variable (var_value : String) (s : Session D) : Session D :=
  ComputStrExpressionWithVariable.edit_variable var_value s

/-- The member `graphs(x_lo, x_hi, x_pix, y_lo, y_hi, y_pix)`, bounded by
`fuel` as `PlotableExpression.graphs` is. A throw that is not a `std::string`
is not caught. -/
def graphs (P : Fpu D) (fuel : Nat) (x_lo x_hi : D) (x_pix : Int) (y_lo y_hi : D)
    (y_pix : Int) (s : Session D) : Outcome (List (Graph D)) (Session D) :=
  if !(expression s).isEmpty then
    match PlotableExpression.graphs P fuel x_lo x_hi x_pix y_lo y_hi y_pix s with
    | .unfinished => .unfinished
    | .throws (.message message) s => .returns [] { s with result := message }
    | .throws e s => .throws e s
    | .returns graph_vector s => .returns graph_vector s
  else .returns [] s

end CalculatorModel

/-! ## Notions used in the statements and proofs -/

open PostfixStringExpression ShuntingYardStringStack

/-- A non-empty group of atoms none of which is a catalogue name or a bracket. -/
def Run (g : List String) : Prop :=
  g ≠ [] ∧ ∀ a ∈ g, standalone a = false

/-- A group made of one atom that is a catalogue name, `(` or `)`. -/
def Single (g : List String) : Prop :=
  ∃ a, g = [a] ∧ standalone a = true

/-- The names of the catalogue. -/
def names : List String := FUNCTION_MAP.map Prod.fst

/-- The stack entry `s` is a catalogue name of arity 1. -/
def unary (s : String) : Bool :=
  match FUNCTION_MAP.lookup s with
  | some f => decide (f.arity = 1)
  | none => false

/-- The stack entry `s` is a catalogue name of arity above 1. -/
def binary (s : String) : Bool :=
  match FUNCTION_MAP.lookup s with
  | some f => decide (f.arity > 1)
  | none => false

/-- The entry of `PRECEDENCE_MAP` for `s`. -/
def precedence (s : String) : Int :=
  (PRECEDENCE_MAP.lookup s).getD 0

/-- The associativity `FUNCTION_MAP` gives `s`. -/
def left_assoc (s : String) : Bool :=
  match FUNCTION_MAP.lookup s with
  | some f => f.left_associative
  | none => false

/-- The condition under which `hi_preced_operators(token)` takes the stack
entry `s`. -/
def outranks (token s : String) : Bool :=
  binary s &&
    (decide (precedence s > precedence token) ||
      (decide (precedence s = precedence token) && left_assoc token))

/-- Every entry of the operator stack is `(` or a catalogue name. -/
def Valid (stack : List String) : Prop :=
  ∀ s ∈ stack, s = "(" ∨ contains s = true

/-- What `pop_multiple(left_bracket())` leaves of the stack. -/
def unbracket : List String → List String
  | [] => []
  | top :: below => if top = "(" then below else top :: below

/-- No element of the list is a bracket. -/
def Bracketless (l : List String) : Prop :=
  ∀ t ∈ l, t ≠ "(" ∧ t ≠ ")"

/-- The elements of `l` other than the two brackets. -/
def unbracketed (l : List String) : List String :=
  l.filter (fun t => t != "(" && t != ")")

/-- Scanning `tokens` with `depth` brackets open, some `)` comes when none is
open. -/
def closes_early : List String → Nat → Bool
  | [], _ => false
  | token :: tokens, depth =>
    if token = ")" then
      match depth with
      | 0 => true
      | d + 1 => closes_early tokens d
    else if token = "(" then closes_early tokens (depth + 1)
    else closes_early tokens depth

/-- The token is one of the two brackets. -/
def is_bracket (t : String) : Bool :=
  t == "(" || t == ")"

/-- No binary operator lies directly on a unary operator in the stack. -/
def Settled (stack : List String) : Prop :=
  stack.Chain' (fun x y => binary x = true → unary y = false)

/-- The top of the stack, if any, is not a unary operator. -/
def TopNotUnary (stack : List String) : Prop :=
  ∀ s ∈ stack.head?, unary s = false

/-- In the token sequence a unary operator is directly followed by neither a
binary operator nor `)`. -/
def UnaryApplied (tokens : List String) : Prop :=
  tokens.Chain' (fun a b => unary a = true → binary b = false ∧ b ≠ ")")

/-- Decides `UnaryApplied`: no unary operator of `tokens` is directly followed
by a binary operator or by `)`. -/
def unary_applied : List String → Bool
  | [] => true
  | a :: rest =>
    (match rest with
      | [] => true
      | b :: _ => !unary a || (!binary b && b != ")")) && unary_applied rest

/-- An instance of `Libm` on the integers, for running the model on examples
with integer literals: exact integer arithmetic, a `stod` that reads a leading
run of decimal digits, and transcendental functions that are not exercised. -/
def integer_libm : Libm Int where
  neg := fun a => -a
  add := fun a b => a + b
  sub := fun a b => a - b
  mul := fun a b => a * b
  div := fun a b => Int.tdiv a b
  fmod := fun a b => Int.tmod a b
  pow := fun a b => a ^ b.toNat
  sin := fun a => a
  cos := fun a => a
  tan := fun a => a
  asin := fun a => a
  acos := fun a => a
  atan := fun a => a
  log := fun a => a
  log10 := fun a => a
  sqrt := fun a => a
  zero := 0
  stod := fun str =>
    match str.toList.takeWhile Char.isDigit with
    | [] => .invalid_argument
    | digits => .converted (digits.foldl (fun n c => 10 * n + (c.toNat - 48)) 0) digits.length

/-- The number of values the token takes off the value stack: the arity of a
catalogue name, and none for any other token. -/
def token_arity (token : String) : Nat :=
  match FUNCTION_MAP.lookup token with
  | some f => f.arity
  | none => 0

/-- The sum of the arities of the operators among `tokens`. -/
def arity_sum (tokens : List String) : Nat :=
  (tokens.map token_arity).sum

variable {D : Type}

/-- The token is a catalogue name or is converted by `strToDbl`. -/
def evaluable (L : Libm D) (token : String) : Bool :=
  contains token ||
    match CalculatingDblStack.strToDbl L token with
    | .ok _ => true
    | .error _ => false

/-- An expression tree: a literal token, a unary operator on a subtree, or a
binary operator on a left and a right subtree. -/
inductive Tree
  | leaf (token : String)
  | unary (name : String) (operand : Tree)
  | binary (name : String) (left right : Tree)

/-- The post-order token sequence of a tree: operands left to right, then the
operator. -/
def Tree.postorder : Tree → List String
  | .leaf token => [token]
  | .unary name operand => operand.postorder ++ [name]
  | .binary name left right => left.postorder ++ right.postorder ++ [name]

/-- The leaves are tokens `strToDbl` converts, and the inner nodes carry
catalogue names of the matching arity. -/
def Tree.well_formed (L : Libm D) : Tree → Bool
  | .leaf token =>
    !contains token &&
      match CalculatingDblStack.strToDbl L token with
      | .ok _ => true
      | .error _ => false
  | .unary name operand => scn.unary name && operand.well_formed L
  | .binary name left right => scn.binary name && left.well_formed L && right.well_formed L

/-- The value of a unary operator as the catalogue table of the spec gives
it. -/
def unary_value (L : Libm D) (name : String) (a : D) : D :=
  if name = "unary +" then a
  else if name = "unary -" then L.neg a
  else if name = "sin" then L.sin a
  else if name = "cos" then L.cos a
  else if name = "tan" then L.tan a
  else if name = "asin" then L.asin a
  else if name = "acos" then L.acos a
  else if name = "atan" then L.atan a
  else if name = "ln" then L.log a
  else if name = "log" then L.log10 a
  else L.sqrt a

/-- The value `left op right` of a binary operator. -/
def binary_value (L : Libm D) (name : String) (left right : D) : D :=
  if name = "^" then L.pow left right
  else if name = "*" then L.mul left right
  else if name = "/" then L.div left right
  else if name = "mod" then L.fmod left right
  else if name = "+" then L.add left right
  else L.sub left right

/-- The recursive evaluation of a tree: a binary node computes
(value of the left subtree) op (value of the right subtree). -/
def Tree.value (L : Libm D) : Tree → D
  | .leaf token =>
    match CalculatingDblStack.strToDbl L token with
    | .ok value => value
    | .error _ => L.zero
  | .unary name operand => unary_value L name (operand.value L)
  | .binary name left right => binary_value L name (left.value L) (right.value L)

/-- The four nonterminals of the infix grammar
`E ::= T | E (+|-) T`, `T ::= P | T (*|/|mod) P`, `P ::= U | U ^ P`,
`U ::= operand | u U | ( E )`. -/
inductive Level
  | E | T | P | U
  deriving DecidableEq, Repr

/-- The derivations of the infix grammar, by nonterminal. An operand is one
atom that is neither a catalogue name nor a bracket; `u` is a catalogue name
of arity 1. -/
inductive Phrase : Level → Type
  | operand (token : String) (h : standalone token = false) : Phrase .U
  | applied (u : String) (h : unary u = true) (x : Phrase .U) : Phrase .U
  | bracketed (e : Phrase .E) : Phrase .U
  | unit (x : Phrase .U) : Phrase .P
  | power (x : Phrase .U) (p : Phrase .P) : Phrase .P
  | factor (p : Phrase .P) : Phrase .T
  | product (op : String) (h : op = "*" ∨ op = "/" ∨ op = "mod") (t : Phrase .T)
      (p : Phrase .P) : Phrase .T
  | term (t : Phrase .T) : Phrase .E
  | sum (op : String) (h : op = "+" ∨ op = "-") (e : Phrase .E) (t : Phrase .T) : Phrase .E

/-- The atom sequence a derivation generates. -/
def Phrase.atoms : {l : Level} → Phrase l → List String
  | _, .operand token _ => [token]
  | _, .applied u _ x => u :: x.atoms
  | _, .bracketed e => "(" :: e.atoms ++ [")"]
  | _, .unit x => x.atoms
  | _, .power x p => x.atoms ++ "^" :: p.atoms
  | _, .factor p => p.atoms
  | _, .product op _ t p => t.atoms ++ op :: p.atoms
  | _, .term t => t.atoms
  | _, .sum op _ e t => e.atoms ++ op :: t.atoms

/-- The parse tree of a derivation. -/
def Phrase.tree : {l : Level} → Phrase l → Tree
  | _, .operand token _ => .leaf token
  | _, .applied u _ x => .unary u x.tree
  | _, .bracketed e => e.tree
  | _, .unit x => x.tree
  | _, .power x p => .binary "^" x.tree p.tree
  | _, .factor p => p.tree
  | _, .product op _ t p => .binary op t.tree p.tree
  | _, .term t => t.tree
  | _, .sum op _ e t => .binary op e.tree t.tree

/-- The least precedence of an operator a phrase of the level leaves pending
on the stack. -/
def Level.floor : Level → Int
  | .E => 1 | .T => 2 | .P => 2 | .U => 3

/-- The precedence a binary operator on top of the stack stays below when a
phrase of the level starts. -/
def Level.ceiling : Level → Int
  | .E => 1 | .T => 2 | .P => 3 | .U => 3

/-- The operators a phrase of level `l` leaves on the stack. -/
def Pending (l : Level) (ops : List String) : Prop :=
  ∀ s ∈ ops, binary s = true ∧ l.floor ≤ precedence s

/-- The operator stacks on which a phrase of level `l` starts. -/
def Admissible (l : Level) (stack : List String) : Prop :=
  (l ≠ .U → TopNotUnary stack) ∧
    ∀ s ∈ stack.head?, binary s = true → precedence s < l.ceiling

/-- The derivation of `3 + 4 * 2 / ( 1 - 5 ) ^ 2 ^ 3`, the expression of the
test `PostfixStringExpression.test_14`. -/
def test_14 : Phrase .E :=
  .sum "+" (Or.inl rfl) (.term (.factor (.unit (.operand "3" (by decide)))))
    (.product "/" (by decide)
      (.product "*" (by decide) (.factor (.unit (.operand "4" (by decide))))
        (.unit (.operand "2" (by decide))))
      (.power
        (.bracketed (.sum "-" (by decide)
          (.term (.factor (.unit (.operand "1" (by decide)))))
          (.factor (.unit (.operand "5" (by decide))))))
        (.power (.operand "2" (by decide)) (.unit (.operand "3" (by decide))))))

/-- The loop of `postfixed()` turns the atoms of a phrase of level `l` into the
sequence `post`: started on an admissible stack it throws nothing, flushes
the unary operators on top of the stack after `post`, and leaves `ops`
pending, so that the output followed by `ops` is `post`. -/
def Converts (l : Level) (atoms post : List String) : Prop :=
  ∀ stack result : List String, Valid stack → Admissible l stack →
    ∃ ops out, postfixed_loop atoms stack result = .ok (ops ++ stack.dropWhile unary, out) ∧
      out ++ ops = result ++ post ++ stack.takeWhile unary ∧ Pending l ops

/-- The three messages `strToDbl` can throw for the string `str`. -/
def parse_messages (str : String) : List String :=
  ["std::stod error: string <" ++ str ++ "> is unconvertable to number",
   "std::stod error: string <" ++ str ++ "> is to big for current number type (double)",
   "string <" ++ str ++ "> is unconvertable to number"]

/-- The token the wrapped stack receives for `token` when the variable string
is `v`. -/
def substitute (v token : String) : String :=
  if token = "X" then v else token

/-- What an atom contributes to the displayed expression: `+` for `unary +`,
the hyphen-minus `-` for `unary -`, and itself otherwise. -/
def display (atom : String) : String :=
  if atom = "unary +" then "+" else if atom = "unary -" then "-" else atom

/-- An instance of `Fpu` on the integers, for running the model on examples:
the order of the integers, and a `snprintf` that writes the decimal digits,
cut to the size of the buffer, whatever the format. -/
def integer_fpu : Fpu Int where
  toLibm := integer_libm
  lt := fun a b => decide (a < b)
  le := fun a b => decide (a ≤ b)
  eq := fun a b => decide (a = b)
  abs := fun a => Int.natAbs a
  of_int := fun n => n
  DBL_DIG := 15
  snprintf := fun size _ _ num => ((toString num).length, (toString num).take (size - 1))

/-- The calls `modify(button)` for the buttons of the list, in order. -/
def presses (P : Fpu D) : List String → Session D → Except (Thrown × Session D) (Session D)
  | [], s => .ok s
  | button :: buttons, s =>
    match CalculatorModel.modify P button s with
    | .error e => .error e
    | .ok s => presses P buttons s

/-- The string `modify("=")` stores for the outcome of `solution()`: the
rendering of the value, or the message thrown. -/
def stored (P : Fpu D) (outcome : Except Thrown D) : String :=
  match outcome with
  | .ok value =>
    match CalculatorModel.readble_dblToStr P value with
    | .ok text => text
    | .error (.message message) => message
    | .error _ => ""
  | .error (.message message) => message
  | .error _ => ""

/-- The session at the end of a call, when the call ends. -/
def Outcome.final {A S : Type} : Outcome A S → Option S
  | .unfinished => none
  | .throws _ s => some s
  | .returns _ s => some s

/-- The session `s'` is the session `s` but for the two stacks, and its variable
string is that of `s` or a string `precise_dblToStr` returned. -/
def Sampled (P : Fpu D) (s s' : Session D) : Prop :=
  s'.expression = s.expression ∧ s'.result = s.result ∧
    (s'.X_str_var = s.X_str_var ∨ ∃ x, PlotableExpression.precise_dblToStr P x = .ok s'.X_str_var)

/-- The value of a hexadecimal digit. -/
def hex_digit (c : Char) : Option Nat :=
  if c.isDigit then some (c.toNat - 48)
  else if 'a'.toNat ≤ c.toNat ∧ c.toNat ≤ 'f'.toNat then some (c.toNat - 87)
  else if 'A'.toNat ≤ c.toNat ∧ c.toNat ≤ 'F'.toNat then some (c.toNat - 55)
  else none

/-- An instance of `Libm` on the integers whose `stod` also reads, as
`std::stod` does, a hexadecimal literal: after the prefix `0x` or `0X`, a
non-empty run of hexadecimal digits. Any other string is read as by
`integer_libm`. -/
def hex_libm : Libm Int :=
  { integer_libm with
    stod := fun str =>
      match str.toList with
      | '0' :: x :: rest =>
        if (x = 'x' ∨ x = 'X') ∧ (rest.takeWhile (fun c => (hex_digit c).isSome)) ≠ [] then
          .converted
            (((rest.takeWhile (fun c => (hex_digit c).isSome)).foldl
              (fun n c => 16 * n + (hex_digit c).getD 0) 0 : Nat) : Int)
            (2 + (rest.takeWhile (fun c => (hex_digit c).isSome)).length)
        else integer_libm.stod str
      | _ => integer_libm.stod str }

/-- The stopping condition of the refinement as the specification words it:
the midpoint value differs from the left endpoint value by less than
`delta_y`, or the two endpoint values and the midpoint value all lie above
`y_hi` with the midpoint value between the endpoint values, or all three lie
below `y_lo` with the midpoint value between the endpoint values. -/
def stops_as_worded (P : Fpu D) (delta_y y_min y_max y_mid y_lo y_hi : D) : Bool :=
  P.lt (P.abs (P.sub y_mid y_min)) delta_y ||
    (P.lt y_hi y_min && P.lt y_hi y_max && P.lt y_hi y_mid &&
      ((P.le y_min y_mid && P.le y_mid y_max) || (P.le y_max y_mid && P.le y_mid y_min))) ||
    (P.lt y_min y_lo && P.lt y_max y_lo && P.lt y_mid y_lo &&
      ((P.le y_min y_mid && P.le y_mid y_max) || (P.le y_max y_mid && P.le y_mid y_min)))

/-- The atoms `1 + 5 * X - 4 * X ^ 2`. -/
def parabola : List String :=
  ["1", "+", "5", "*", "X", "-", "4", "*", "X", "^", "2"]

/-- The test of `cut_subgraphs` on a point: its value lies in the range from
`y_lo` to `y_hi`. -/
def inside (P : Fpu D) (y_lo y_hi : D) (point : D × D) : Bool :=
  P.le y_lo point.2 && P.le point.2 y_hi

/-- The elements of a `std::map<double, double>` stand in the strict order of
their keys. -/
def Ordered (P : Fpu D) (graph : Graph D) : Prop :=
  graph.Pairwise (fun a b => P.lt a.1 b.1 = true ∧ P.lt b.1 a.1 = false)

/-- The scan of `cut_subgraphs` over a list of points, where adding a point
to `temp_graph` puts it at the end. -/
def runs_loop {α : Type} (p : α → Bool) : List α → List α → List (List α) → List (List α)
  | [], temp, graphs => if !temp.isEmpty then graphs ++ [temp] else graphs
  | a :: rest, temp, graphs =>
    if p a then runs_loop p rest (temp ++ [a]) graphs
    else if !temp.isEmpty then runs_loop p rest [] (graphs ++ [temp])
    else runs_loop p rest temp graphs

/-- The list that holds `temp` when it is not empty. -/
def closed {α : Type} (temp : List α) : List (List α) :=
  if !temp.isEmpty then [temp] else []

/-- The number a run of decimal digits stands for. -/
def digits_value (digits : List Char) : Nat :=
  digits.foldl (fun n c => 10 * n + (c.toNat - 48)) 0

/-- Reads an unsigned fraction at the head of the characters: a run of digits,
which may be followed by `/` and a second run of digits. Gives the value and
the number of characters read. -/
def read_fraction (cs : List Char) : Option (Rat × Nat) :=
  match cs.takeWhile Char.isDigit, cs.dropWhile Char.isDigit with
  | [], _ => none
  | num, '/' :: rest =>
    match rest.takeWhile Char.isDigit with
    | [] => some ((digits_value num : Nat), num.length)
    | den =>
      some ((digits_value num : Rat) / (digits_value den : Rat), num.length + 1 + den.length)
  | num, _ => some ((digits_value num : Nat), num.length)

/-- An instance of `Libm` on the rationals, for running the plotter on
examples: exact rational arithmetic, a `stod` that reads a fraction with an
optional minus sign, a power with a natural exponent, and the other functions
not exercised. -/
def rational_libm : Libm Rat where
  neg := fun a => -a
  add := fun a b => a + b
  sub := fun a b => a - b
  mul := fun a b => a * b
  div := fun a b => a / b
  fmod := fun a _ => a
  pow := fun a b => a ^ b.num.toNat
  sin := fun a => a
  cos := fun a => a
  tan := fun a => a
  asin := fun a => a
  acos := fun a => a
  atan := fun a => a
  log := fun a => a
  log10 := fun a => a
  sqrt := fun a => a
  zero := 0
  stod := fun str =>
    match str.toList with
    | '-' :: cs =>
      match read_fraction cs with
      | none => .invalid_argument
      | some (q, n) => .converted (-q) (n + 1)
    | cs =>
      match read_fraction cs with
      | none => .invalid_argument
      | some (q, n) => .converted q n

/-- An instance of `Fpu` on the rationals: the order of the rationals, and a
`snprintf` that writes the fraction `stod` reads back, whatever the format. -/
def rational_fpu : Fpu Rat where
  toLibm := rational_libm
  lt := fun a b => decide (a < b)
  le := fun a b => decide (a ≤ b)
  eq := fun a b => decide (a = b)
  abs := fun a => |a|
  of_int := fun n => n
  DBL_DIG := 15
  snprintf := fun size _ _ num => ((toString num).length, (toString num).take (size - 1))

/-- The value of the expression at the abscissa `x`: what `solution()` returns
when the variable string is the encoding of `x`, if the encoding and the
evaluation throw nothing. -/
def value_at (P : Fpu D) (expression : List String) (x : D) : Option D :=
  match PlotableExpression.sample P x ⟨expression, [], [], "", ""⟩ with
  | .returns y _ => some y
  | _ => none

/-- Every point of the graph is a sample of the expression: its value is the
value of the expression at its key. -/
def Exact (P : Fpu D) (expression : List String) (graph : Graph D) : Prop :=
  ∀ e ∈ graph, value_at P expression e.1 = some e.2

/-- The loop variable of `graphs` in pass `k`: `x_lo` after `k` statements
`x += delta_x`. -/
def abscissa (P : Fpu D) (x_lo delta_x : D) : Nat → D
  | 0 => x_lo
  | k + 1 => P.add (abscissa P x_lo delta_x k) delta_x

/-- The polylines of `X ^ 2` on the viewport from -2 to 2 and from -2 to 4 with
two pixels to the unit along x and one along y: the nine uniform samples and
the four midpoints of the refinement, in one polyline. -/
def square_plot : List (Graph Rat) :=
  [[(-2, 4), (-7 / 4, 49 / 16), (-3 / 2, 9 / 4), (-5 / 4, 25 / 16), (-1, 1), (-1 / 2, 1 / 4),
    (0, 0), (1 / 2, 1 / 4), (1, 1), (5 / 4, 25 / 16), (3 / 2, 9 / 4), (7 / 4, 49 / 16), (2, 4)]]

/-- The token is an operand: neither a catalogue name nor a bracket. -/
def is_operand (token : String) : Bool :=
  !standalone token

/-- The digits without the zeros at their end. -/
def strip_zeros (digits : List Char) : List Char :=
  (digits.reverse.dropWhile (fun c => c == '0')).reverse

/-- The conversion `%.*G` of a whole number with the precision `precision`: a
number of at most `precision` digits is written in full; a longer one is
rounded to `precision` significant digits, to even on a tie, and written as a
mantissa without the zeros at its end, `E+` and an exponent of at least two
digits. -/
def render_G (precision : Nat) (num : Int) : String :=
  let p := if precision = 0 then 1 else precision
  let n := num.natAbs
  let sign := if num < 0 then "-" else ""
  let len := (Nat.toDigits 10 n).length
  if len ≤ p then sign ++ toString n
  else
    let unit := 10 ^ (len - p)
    let q := n / unit
    let r := n % unit
    let m := if unit < 2 * r ∨ (unit = 2 * r ∧ q % 2 = 1) then q + 1 else q
    let exponent := if m = 10 ^ p then len else len - 1
    let mantissa := if m = 10 ^ p then 10 ^ (p - 1) else m
    match Nat.toDigits 10 mantissa with
    | [] => ""
    | d :: rest =>
      sign ++ String.mk (d :: (match strip_zeros rest with | [] => [] | ds => '.' :: ds)) ++
        "E+" ++ (if exponent < 10 then "0" else "") ++ toString exponent

/-- The instance `integer_fpu` with a `snprintf` that converts by `render_G`
for the format `%.*G`, the precision being the argument that stands for the
asterisk. -/
def decimal_fpu : Fpu Int :=
  { integer_fpu with
    snprintf := fun size format args num =>
      if format = "%.*G" then
        match args with
        | [precision] =>
          ((render_G precision.toNat num).length, (render_G precision.toNat num).take (size - 1))
        | _ => (-1, "")
      else integer_fpu.snprintf size format args num }

/-- The text of a number after its sign, read as a count of eighths with the
number of characters read: a hexadecimal literal `0x` with the exponent `p-3`
or with no exponent, or a run of decimal digits. -/
def eighths_magnitude (chars : List Char) : Option (Nat × Nat) :=
  match chars with
  | '0' :: 'x' :: rest =>
    match rest.takeWhile (fun c => (hex_digit c).isSome) with
    | [] => some (0, 1)
    | digits =>
      match rest.drop digits.length with
      | 'p' :: '-' :: '3' :: _ =>
        some (digits.foldl (fun n c => 16 * n + (hex_digit c).getD 0) 0, digits.length + 5)
      | _ =>
        some (8 * digits.foldl (fun n c => 16 * n + (hex_digit c).getD 0) 0,
          digits.length + 2)
  | _ =>
    match chars.takeWhile Char.isDigit with
    | [] => none
    | digits => some (8 * digits.foldl (fun n c => 10 * n + (c.toNat - 48)) 0, digits.length)

/-- The hexadecimal-float text of a count of eighths, `nan` for no number. -/
def eighths_text (num : Option Int) : String :=
  match num with
  | none => "nan"
  | some n =>
    (if n < 0 then "-" else "") ++ "0x" ++ String.mk (Nat.toDigits 16 n.natAbs) ++ "p-3"

/-- An instance of `Libm` on a binary fixed-point format with three fraction
bits: a number is a whole count of eighths, and `none` is the NaN that a
quotient by zero gives and that every operation passes on. Sums and
differences are exact, products and quotients are cut towards zero, and `stod`
reads what `eighths_text` writes and decimal digits. The other functions are not
exercised. -/
def eighths_libm : Libm (Option Int) where
  neg := fun a => a.map (fun n => -n)
  add := fun a b => a.bind (fun m => b.map (fun n => m + n))
  sub := fun a b => a.bind (fun m => b.map (fun n => m - n))
  mul := fun a b => a.bind (fun m => b.map (fun n => Int.tdiv (m * n) 8))
  div := fun a b => a.bind (fun m => b.bind (fun n =>
    if n = 0 then none else some (Int.tdiv (8 * m) n)))
  fmod := fun a b => a.bind (fun m => b.bind (fun n =>
    if n = 0 then none else some (Int.tmod m n)))
  pow := fun a b => a.bind (fun m => b.bind (fun n =>
    if 0 ≤ n ∧ n % 8 = 0 then some (Int.tdiv (8 * m ^ (n / 8).toNat) (8 ^ (n / 8).toNat))
    else none))
  sin := fun a => a
  cos := fun a => a
  tan := fun a => a
  asin := fun a => a
  acos := fun a => a
  atan := fun a => a
  log := fun a => a
  log10 := fun a => a
  sqrt := fun a => a
  zero := some 0
  stod := fun str =>
    match str.toList with
    | 'n' :: 'a' :: 'n' :: _ => .converted none 3
    | '-' :: rest =>
      match eighths_magnitude rest with
      | none => .invalid_argument
      | some (n, read) => .converted (some (-(n : Int))) (read + 1)
    | chars =>
      match eighths_magnitude chars with
      | none => .invalid_argument
      | some (n, read) => .converted (some (n : Int)) read

/-- An instance of `Fpu` on the counts of eighths: a comparison with the NaN
is false, and `snprintf` writes the hexadecimal-float text whatever the
format. -/
def eighths_fpu : Fpu (Option Int) where
  toLibm := eighths_libm
  lt := fun a b =>
    match a, b with
    | some m, some n => decide (m < n)
    | _, _ => false
  le := fun a b =>
    match a, b with
    | some m, some n => decide (m ≤ n)
    | _, _ => false
  eq := fun a b =>
    match a, b with
    | some m, some n => decide (m = n)
    | _, _ => false
  abs := fun a => a.map (fun n => (Int.natAbs n : Int))
  of_int := fun n => some (8 * n)
  DBL_DIG := 15
  snprintf := fun size _ _ num =>
    ((eighths_text num).length, (eighths_text num).take (size - 1))

/-- The atoms `( X - 1 ) / ( X - 1 ) * X`: the value is `X` but at 1, where it
is the NaN of `0 / 0`. -/
def punctured : List String :=
  ["(", "X", "-", "1", ")", "/", "(", "X", "-", "1", ")", "*", "X"]

/-- The session with the atoms `punctured` after an evaluation at the count
`x` of eighths that gave `y`. -/
def punctured_at (x : Int) (y : Option Int) : Session (Option Int) :=
  ⟨punctured, [], [y], eighths_text (some x), ""⟩

/-- The number of `)` the operator stack takes before one of them finds it
empty of brackets and unary operators: each `)` removes the binary operators
on top and then either a `(` with the unary operators directly under it or a
run of unary operators. `covered` tells that the entries above are a `(` or a
unary operator of the same group. -/
def segments : List String → Bool → Nat
  | [], _ => 0
  | s :: rest, covered =>
    if s = "(" then 1 + segments rest true
    else if unary s then (if covered then 0 else 1) + segments rest true
    else segments rest false

/-- The top of the stack is a unary operator. -/
def top_unary (stack : List String) : Bool :=
  match stack with
  | [] => false
  | s :: _ => unary s

/-- The number of tokens of the sequence that are a binary operator or `)` and
stand directly behind a unary operator: as many unary operators are directly
followed by a binary operator or by `)`. `pending` tells whether a unary
operator stands directly before the sequence. -/
def absorbed : Bool → List String → Nat
  | _, [] => 0
  | pending, token :: tokens =>
    (if pending && (binary token || token == ")") then 1 else 0) +
      absorbed (unary token) tokens

/-- The abscissas at which the statements
`edit_variable(precise_dblToStr(x)); y = solution();` call `solution()`: `x`
itself, or none when `precise_dblToStr` throws. -/
def sample_trace (P : Fpu D) (x : D) : List D :=
  match PlotableExpression.precise_dblToStr P x with
  | .error _ => []
  | .ok _ => [x]

/-- The abscissas at which a call of `recursive_plot` calls `solution()`, in
the order of the calls: the midpoint, then, when the call recurses, those of
the call on the lower half and, when that one returns, those of the call on
the upper half. -/
def recursive_plot_trace (P : Fpu D) :
    Nat → D → D → D → D → D → D → D → Session D → List D
  | 0, _, _, _, _, _, _, _, _ => []
  | fuel + 1, x_min, x_max, delta_y, y_min, y_max, y_lo, y_hi, s =>
    sample_trace P (P.div (P.add x_min x_max) (P.of_int 2)) ++
      match PlotableExpression.sample P (P.div (P.add x_min x_max) (P.of_int 2)) s with
      | .unfinished => []
      | .throws _ _ => []
      | .returns y_mid s =>
        if PlotableExpression.stops P delta_y y_min y_max y_mid y_lo y_hi then []
        else
          recursive_plot_trace P fuel x_min (P.div (P.add x_min x_max) (P.of_int 2)) delta_y
              y_min y_mid y_lo y_hi s ++
            match PlotableExpression.recursive_plot P fuel x_min
                (P.div (P.add x_min x_max) (P.of_int 2)) delta_y y_min y_mid y_lo y_hi s with
            | .unfinished => []
            | .throws _ _ => []
            | .returns _ s =>
              recursive_plot_trace P fuel (P.div (P.add x_min x_max) (P.of_int 2)) x_max
                delta_y y_mid y_max y_lo y_hi s

/-- The abscissas at which the `for` of `graphs` calls `solution()`, in the
order of the calls: in each pass the loop variable `x`, then those of the call
of `recursive_plot`, if the pass makes one, then those of the passes that
follow. -/
def graphs_loop_trace (P : Fpu D) :
    Nat → D → D → D → D → D → D → D → Option (D × D) → Session D → List D
  | 0, _, _, _, _, _, _, _, _, _ => []
  | fuel + 1, x, x_lo, x_hi, delta_x, delta_y, y_lo, y_hi, previous, s =>
    if P.le x x_hi then
      sample_trace P x ++
        match PlotableExpression.sample P x s with
        | .unfinished => []
        | .throws _ _ => []
        | .returns y s =>
          if !P.eq x x_lo then
            match previous with
            | none => []
            | some (prev_x, prev_y) =>
              if P.lt delta_y (P.abs (P.sub y prev_y)) then
                recursive_plot_trace P fuel prev_x x delta_y prev_y y y_lo y_hi s ++
                  match PlotableExpression.recursive_plot P fuel prev_x x delta_y prev_y y
                      y_lo y_hi s with
                  | .unfinished => []
                  | .throws _ _ => []
                  | .returns _ s =>
                    graphs_loop_trace P fuel (P.add x delta_x) x_lo x_hi delta_x delta_y y_lo
                      y_hi (some (x, y)) s
              else
                graphs_loop_trace P fuel (P.add x delta_x) x_lo x_hi delta_x delta_y y_lo y_hi
                  (some (x, y)) s
          else
            graphs_loop_trace P fuel (P.add x delta_x) x_lo x_hi delta_x delta_y y_lo y_hi
              (some (x, y)) s
    else []

/-- The abscissas at which a call of `graphs` evaluates the expression, in the
order of the evaluations. -/
def graphs_trace (P : Fpu D) (fuel : Nat) (x_lo x_hi : D) (x_pix : Int) (y_lo y_hi : D)
    (y_pix : Int) (s : Session D) : List D :=
  graphs_loop_trace P fuel x_lo x_lo x_hi (P.div (P.of_int 1) (P.of_int x_pix))
    (P.div (P.of_int 1) (P.of_int y_pix)) y_lo y_hi none s

/-- The session `s'` is the one the evaluation at the abscissa `x` leaves: the
session after `edit_variable(precise_dblToStr(x))` and `solution()` on a
session with the expression buffer `expression`. -/
def EvaluatedAt (P : Fpu D) (expression : List String) (x : D) (s' : Session D) : Prop :=
  ∃ (text : String) (s0 : Session D),
    PlotableExpression.precise_dblToStr P x = .ok text ∧ s0.expression = expression ∧
    s' = (ComputStrExpressionWithVariable.solution P.toLibm
      (ComputStrExpressionWithVariable.edit_variable text s0)).2

/-- The session `s'` a call leaves that started in the session `s` and
evaluated the expression at the abscissas `trace`: `s` itself when there was no
evaluation, and else the session the evaluation at the last of them leaves. -/
def Leaves (P : Fpu D) (trace : List D) (s s' : Session D) : Prop :=
  (trace = [] ∧ s' = s) ∨ ∃ x, trace.getLast? = some x ∧ EvaluatedAt P s.expression x s'

/-! # Properties

## The tokenizer -/

theorem foldl_append_eq (acc : String) (l : List String) :
    l.foldl (fun r s => r ++ s) acc = acc ++ l.foldl (fun r s => r ++ s) "" := by
  induction l generalizing acc with
  | nil => simp
  | cons a rest ih =>
    simp only [List.foldl_cons]
    rw [ih (acc ++ a), ih ("" ++ a)]
    simp [String.append_assoc]

theorem join_cons (a : String) (l : List String) :
    String.join (a :: l) = a ++ String.join l := by
  unfold String.join
  rw [List.foldl_cons, foldl_append_eq]
  simp

theorem standalone_iff (a : String) :
    standalone a = true ↔ contains a = true ∨ a = "(" ∨ a = ")" := by
  simp [standalone, or_assoc]

theorem tokenized_groups (S : List String) :
    ∃ groups : List (List String),
      groups.flatten = S ∧
      (∀ g ∈ groups, Single g ∨ Run g) ∧
      groups.Chain' (fun g h =>
        ¬ ((∀ a ∈ g, standalone a = false) ∧ (∀ a ∈ h, standalone a = false))) ∧
      tokenized S = groups.map String.join ∧
      ∀ acc : String, number_loop acc S =
        match groups with
        | [] => [acc]
        | g :: gs => if ∀ a ∈ g, standalone a = false then (acc ++ String.join g) :: gs.map String.join
                     else acc :: (g :: gs).map String.join := by
  induction S with
  | nil => exact ⟨[], by simp [tokenized, number_loop]⟩
  | cons a rest ih =>
    obtain ⟨groups, hflat, hgood, hchain, htok, hnum⟩ := ih
    by_cases ha : standalone a = true
    · refine ⟨[a] :: groups, by simp [hflat], ?_, ?_, ?_, ?_⟩
      · intro g hg
        rcases List.mem_cons.1 hg with rfl | hg
        · exact Or.inl ⟨a, rfl, ha⟩
        · exact hgood g hg
      · cases groups with
        | nil => simp
        | cons g gs =>
          refine List.Chain'.cons ?_ hchain
          rintro ⟨h, _⟩
          have := h a (by simp)
          simp [ha] at this
      · simp [tokenized, ha, htok, join_cons, String.join]
      · intro acc
        simp [number_loop, ha, htok, join_cons, String.join]
    · have ha' : standalone a = false := by simpa using ha
      cases groups with
      | nil =>
        refine ⟨[[a]], by simpa using hflat, ?_, by simp, ?_, ?_⟩
        · intro g hg
          simp at hg
          subst hg
          exact Or.inr ⟨by simp, by simp [ha']⟩
        · have := hnum ("" ++ a)
          simp at this
          simp [tokenized, ha', this, join_cons, String.join]
        · intro acc
          have := hnum (acc ++ a)
          simp at this
          simp [number_loop, ha', this, join_cons, String.join]
      | cons g gs =>
        by_cases hg : ∀ b ∈ g, standalone b = false
        · refine ⟨(a :: g) :: gs, by simpa using congrArg (a :: ·) hflat, ?_, ?_, ?_, ?_⟩
          · intro k hk
            rcases List.mem_cons.1 hk with rfl | hk
            · refine Or.inr ⟨by simp, ?_⟩
              intro b hb
              rcases List.mem_cons.1 hb with rfl | hb
              · exact ha'
              · exact hg b hb
            · exact hgood k (List.mem_cons_of_mem _ hk)
          · cases gs with
            | nil => simp
            | cons k ks =>
              rw [List.chain'_cons] at hchain ⊢
              refine ⟨?_, hchain.2⟩
              rintro ⟨_, hk⟩
              exact hchain.1 ⟨hg, hk⟩
          · have := (hnum ("" ++ a)).trans (if_pos hg)
            simp [tokenized, ha', this, join_cons, String.append_assoc]
            simpa [String.append_assoc] using this
          · intro acc
            have := (hnum (acc ++ a)).trans (if_pos hg)
            have hag : ∀ b ∈ a :: g, standalone b = false := by
              intro b hb
              rcases List.mem_cons.1 hb with rfl | hb
              · exact ha'
              · exact hg b hb
            refine Eq.trans ?_ (if_pos hag).symm
            simp [number_loop, ha', this, join_cons, String.append_assoc]
        · refine ⟨[a] :: g :: gs, by simpa using congrArg (a :: ·) hflat, ?_, ?_, ?_, ?_⟩
          · intro k hk
            rcases List.mem_cons.1 hk with rfl | hk
            · exact Or.inr ⟨by simp, by simp [ha']⟩
            · exact hgood k hk
          · refine List.Chain'.cons ?_ hchain
            rintro ⟨_, h⟩
            exact hg h
          · have := (hnum ("" ++ a)).trans (if_neg hg)
            simp [tokenized, ha', join_cons, String.join]
            simpa [join_cons, String.join] using this
          · intro acc
            have := (hnum (acc ++ a)).trans (if_neg hg)
            simp [number_loop, ha', this, join_cons, String.join]

/-- C1: `tokenized()` is a total function of the atom sequence `S`, and its
output is obtained by cutting `S` into groups, each either one atom that is a
catalogue name, `(` or `)`, or a non-empty run of other atoms, with no two
runs adjacent (so every run is maximal), and replacing each group by the
concatenation of its atoms, in order. -/
theorem tokenized_maximal_runs (S : List String) :
    ∃ groups : List (List String),
      groups.flatten = S ∧
      (∀ g ∈ groups,
        (∃ a, g = [a] ∧ (contains a = true ∨ a = "(" ∨ a = ")")) ∨
        (g ≠ [] ∧ ∀ a ∈ g, ¬ (contains a = true ∨ a = "(" ∨ a = ")"))) ∧
      groups.Chain' (fun g h =>
        ¬ ((∀ a ∈ g, ¬ (contains a = true ∨ a = "(" ∨ a = ")")) ∧
           (∀ a ∈ h, ¬ (contains a = true ∨ a = "(" ∨ a = ")")))) ∧
      tokenized S = groups.map String.join := by
  obtain ⟨groups, hflat, hgood, hchain, htok, -⟩ := tokenized_groups S
  have hno : ∀ g : List String, (∀ a ∈ g, standalone a = false) ↔
      ∀ a ∈ g, ¬ (contains a = true ∨ a = "(" ∨ a = ")") := by
    intro g
    constructor
    · intro h a ha hc
      have := h a ha
      rw [(standalone_iff a).2 hc] at this
      cases this
    · intro h a ha
      cases hs : standalone a
      · rfl
      · exact absurd ((standalone_iff a).1 hs) (h a ha)
  refine ⟨groups, hflat, ?_, ?_, htok⟩
  · intro g hg
    rcases hgood g hg with ⟨a, rfl, ha⟩ | ⟨hne, hrun⟩
    · exact Or.inl ⟨a, rfl, (standalone_iff a).1 ha⟩
    · exact Or.inr ⟨hne, (hno g).1 hrun⟩
  · refine List.Chain'.imp ?_ hchain
    intro g h hgh ⟨h1, h2⟩
    exact hgh ⟨(hno g).2 h1, (hno h).2 h2⟩

/-- The atoms of the test `PostfixStringExpression.test_0_0`. -/
theorem tokenized_test_0_0 :
    tokenized ["acos", "unary +", "^", "1", "2", "E-", "3", "E+"] =
      ["acos", "unary +", "^", "12E-3E+"] := by
  decide

/-! ## The catalogue and the operator stack -/

theorem lookup_isSome_iff {V : Type} (m : List (String × V)) (k : String) :
    (m.lookup k).isSome = true ↔ k ∈ m.map Prod.fst := by
  induction m with
  | nil => simp
  | cons e m ih =>
    obtain ⟨k', v⟩ := e
    by_cases h : k = k'
    · subst h; simp [List.lookup]
    · have h' : (k == k') = false := by simpa using h
      simp [List.lookup, h', ih, h]

theorem contains_iff (t : String) : contains t = true ↔ t ∈ names :=
  lookup_isSome_iff FUNCTION_MAP t

theorem precedence_keys : PRECEDENCE_MAP.map Prod.fst = names := by decide

theorem map_at_function (t : String) (h : contains t = true) :
    ∃ f, FUNCTION_MAP.lookup t = some f := by
  unfold contains at h
  exact Option.isSome_iff_exists.1 h

theorem map_at_precedence (t : String) (h : contains t = true) :
    ∃ p, PRECEDENCE_MAP.lookup t = some p := by
  have : (PRECEDENCE_MAP.lookup t).isSome = true := by
    rw [lookup_isSome_iff, precedence_keys]
    exact (contains_iff t).1 h
  exact Option.isSome_iff_exists.1 this

theorem contains_cases (t : String) (h : contains t = true) :
    t = "unary +" ∨ t = "unary -" ∨ t = "sin" ∨ t = "cos" ∨ t = "tan" ∨ t = "asin" ∨
    t = "acos" ∨ t = "atan" ∨ t = "ln" ∨ t = "log" ∨ t = "sqrt" ∨ t = "^" ∨ t = "*" ∨
    t = "/" ∨ t = "mod" ∨ t = "+" ∨ t = "-" := by
  have := (contains_iff t).1 h
  simpa [names, FUNCTION_MAP] using this

theorem Valid.tail_valid {s : String} {stack : List String} (h : Valid (s :: stack)) :
    Valid stack :=
  fun x hx => h x (List.mem_cons_of_mem _ hx)

theorem Valid.cons_valid {s : String} {stack : List String} (hs : s = "(" ∨ contains s = true)
    (h : Valid stack) : Valid (s :: stack) := by
  intro x hx
  rcases List.mem_cons.1 hx with rfl | hx
  · exact hs
  · exact h x hx

theorem Valid.dropWhile_valid (p : String → Bool) {stack : List String} (h : Valid stack) :
    Valid (stack.dropWhile p) :=
  fun x hx => h x ((List.dropWhile_sublist p).subset hx)

theorem Valid.unbracket_valid {stack : List String} (h : Valid stack) : Valid (unbracket stack) := by
  cases stack with
  | nil => exact h
  | cons top below =>
    by_cases ht : top = "("
    · rw [show scn.unbracket (top :: below) = below by simp [scn.unbracket, ht]]
      exact h.tail_valid
    · rw [show scn.unbracket (top :: below) = top :: below by simp [scn.unbracket, ht]]
      exact h

theorem unary_operators_eq {stack : List String} (h : Valid stack) :
    unary_operators stack = .ok (stack.takeWhile unary) := by
  induction stack with
  | nil => rfl
  | cons top below ih =>
    unfold unary_operators
    by_cases ht : top = "("
    · subst ht
      simp [List.takeWhile, show unary "(" = false from rfl]
    · rw [if_neg ht]
      rcases h top (List.mem_cons_self _ _) with h1 | h1
      · exact absurd h1 ht
      · obtain ⟨f, hf⟩ := map_at_function top h1
        simp only [map_at, hf, ih h.tail_valid]
        by_cases ha : f.arity = 1
        · simp [List.takeWhile, unary, hf, ha]
        · simp [List.takeWhile, unary, hf, ha]

theorem not_unary_operators_eq {stack : List String} (h : Valid stack) :
    not_unary_operators stack = .ok (stack.takeWhile binary) := by
  induction stack with
  | nil => rfl
  | cons top below ih =>
    unfold not_unary_operators
    by_cases ht : top = "("
    · subst ht
      simp [List.takeWhile, show binary "(" = false from rfl]
    · rw [if_neg ht]
      rcases h top (List.mem_cons_self _ _) with h1 | h1
      · exact absurd h1 ht
      · obtain ⟨f, hf⟩ := map_at_function top h1
        simp only [map_at, hf, ih h.tail_valid]
        by_cases ha : f.arity > 1
        · simp [List.takeWhile, binary, hf, ha]
        · simp [List.takeWhile, binary, hf, ha]

theorem hi_preced_loop_eq {token : String} (hc : contains token = true) {stack : List String}
    (h : Valid stack) :
    hi_preced_loop token (precedence token) stack = .ok (stack.takeWhile (outranks token)) := by
  obtain ⟨g, hg⟩ := map_at_function token hc
  induction stack with
  | nil => rfl
  | cons top below ih =>
    unfold hi_preced_loop
    by_cases ht : top = "("
    · subst ht
      simp [List.takeWhile, outranks, show binary "(" = false from rfl]
    · rw [if_neg ht]
      rcases h top (List.mem_cons_self _ _) with h1 | h1
      · exact absurd h1 ht
      · obtain ⟨f, hf⟩ := map_at_function top h1
        obtain ⟨q, hq⟩ := map_at_precedence top h1
        have hprec : precedence top = q := by simp [precedence, hq]
        simp only [map_at, hf, hq, hg, ih h.tail_valid]
        by_cases ha : f.arity > 1
        · rw [if_pos ha]
          by_cases h1 : q > precedence token
          · simp [List.takeWhile, outranks, binary, hf, ha, hprec, h1]
          · rw [if_neg h1]
            by_cases h2 : q = precedence token
            · rw [if_pos h2]
              by_cases h3 : g.left_associative = true
              · simp [List.takeWhile, outranks, binary, hf, ha, hprec, h2, left_assoc, hg, h3]
              · simp [List.takeWhile, outranks, binary, hf, ha, hprec, h2, left_assoc, hg, h3]
            · simp [List.takeWhile, outranks, binary, hf, ha, hprec, h1, h2]
        · simp [List.takeWhile, outranks, binary, hf, ha]

theorem hi_preced_operators_eq {token : String} (hc : contains token = true)
    {stack : List String} (h : Valid stack) :
    hi_preced_operators token stack = .ok (stack.takeWhile (outranks token)) := by
  obtain ⟨q, hq⟩ := map_at_precedence token hc
  have hprec : precedence token = q := by simp [precedence, hq]
  unfold hi_preced_operators
  simp only [map_at, hq]
  rw [← hprec]
  exact hi_preced_loop_eq hc h

theorem pop_multiple_takeWhile (p : String → Bool) (stack : List String) :
    pop_multiple (stack.takeWhile p) stack = .ok (stack.dropWhile p) := by
  induction stack with
  | nil => rfl
  | cons top below ih =>
    by_cases h : p top = true
    · simp [List.takeWhile, List.dropWhile, h, pop_multiple, ih]
    · simp [List.takeWhile, List.dropWhile, h, pop_multiple]

theorem pop_multiple_left_bracket (stack : List String) :
    pop_multiple (left_bracket stack) stack = .ok (unbracket stack) := by
  cases stack with
  | nil => rfl
  | cons top below =>
    by_cases h : top = "("
    · simp [left_bracket, unbracket, h, pop_multiple]
    · simp [left_bracket, unbracket, h, pop_multiple]

theorem flush_eq {collect : List String → Except Thrown (List String)} {p : String → Bool}
    {stack : List String} (h : collect stack = .ok (stack.takeWhile p)) (result : List String) :
    flush collect stack result = .ok (stack.dropWhile p, result ++ stack.takeWhile p) := by
  simp [flush, h, on_stack, pop_multiple_takeWhile, append_tokens]

theorem contains_open : contains "(" = false := by decide

theorem contains_close : contains ")" = false := by decide

theorem unary_contains {s : String} (h : unary s = true) : contains s = true := by
  unfold unary at h
  unfold contains
  cases hl : FUNCTION_MAP.lookup s with
  | none => simp [hl] at h
  | some f => rfl

theorem binary_contains {s : String} (h : binary s = true) : contains s = true := by
  unfold binary at h
  unfold contains
  cases hl : FUNCTION_MAP.lookup s with
  | none => simp [hl] at h
  | some f => rfl

theorem outranks_binary {token s : String} (h : outranks token s = true) : binary s = true := by
  unfold outranks at h
  exact (Bool.and_eq_true _ _ ▸ h).1

theorem postfixed_token_catalogue {token : String} (hc : contains token = true)
    {stack : List String} (hv : Valid stack) (result : List String) :
    postfixed_token token stack result =
      .ok (token :: stack.dropWhile (outranks token),
           result ++ stack.takeWhile (outranks token)) := by
  simp [postfixed_token, hc, flush_eq (hi_preced_operators_eq hc hv), push]

theorem postfixed_token_open (stack result : List String) :
    postfixed_token "(" stack result = .ok ("(" :: stack, result) := by
  simp [postfixed_token, contains_open, push]

theorem postfixed_token_close_error {stack : List String} (hv : Valid stack)
    (result : List String) (he : stack.dropWhile binary = []) :
    postfixed_token ")" stack result = .error (.message "missing left parenthesis", []) := by
  simp [postfixed_token, contains_close, flush_eq (not_unary_operators_eq hv), he, empty]

theorem postfixed_token_close {stack : List String} (hv : Valid stack)
    (result : List String) (he : stack.dropWhile binary ≠ []) :
    postfixed_token ")" stack result =
      .ok ((unbracket (stack.dropWhile binary)).dropWhile unary,
           result ++ stack.takeWhile binary ++
             (unbracket (stack.dropWhile binary)).takeWhile unary) := by
  have hv2 : Valid (unbracket (stack.dropWhile binary)) := (hv.dropWhile_valid binary).unbracket_valid
  simp [postfixed_token, contains_close, flush_eq (not_unary_operators_eq hv), he, empty,
    on_stack, pop_multiple_left_bracket, flush_eq (unary_operators_eq hv2)]

theorem postfixed_token_operand {token : String} (hc : contains token = false)
    (ho : token ≠ "(") (hcl : token ≠ ")") {stack : List String} (hv : Valid stack)
    (result : List String) :
    postfixed_token token stack result =
      .ok (stack.dropWhile unary, result ++ [token] ++ stack.takeWhile unary) := by
  simp [postfixed_token, hc, ho, hcl, flush_eq (unary_operators_eq hv), append_tokens]

/-! ## The loop of `postfixed()` -/

/-- The five ways one pass of the loop of `postfixed()` can go on a stack of
brackets and catalogue names. -/
theorem postfixed_token_cases (token : String) {stack : List String} (hv : Valid stack)
    (result : List String) :
    (contains token = true ∧
      postfixed_token token stack result =
        .ok (token :: stack.dropWhile (outranks token),
             result ++ stack.takeWhile (outranks token))) ∨
    (token = "(" ∧ postfixed_token token stack result = .ok ("(" :: stack, result)) ∨
    (token = ")" ∧ stack.dropWhile binary = [] ∧
      postfixed_token token stack result =
        .error (.message "missing left parenthesis", [])) ∨
    (token = ")" ∧ stack.dropWhile binary ≠ [] ∧
      postfixed_token token stack result =
        .ok ((unbracket (stack.dropWhile binary)).dropWhile unary,
             result ++ stack.takeWhile binary ++
               (unbracket (stack.dropWhile binary)).takeWhile unary)) ∨
    (contains token = false ∧ token ≠ "(" ∧ token ≠ ")" ∧
      postfixed_token token stack result =
        .ok (stack.dropWhile unary, result ++ [token] ++ stack.takeWhile unary)) := by
  by_cases hc : contains token = true
  · exact Or.inl ⟨hc, postfixed_token_catalogue hc hv result⟩
  · have hc' : contains token = false := by simpa using hc
    by_cases ho : token = "("
    · subst ho
      exact Or.inr (Or.inl ⟨rfl, postfixed_token_open stack result⟩)
    · by_cases hcl : token = ")"
      · subst hcl
        by_cases he : stack.dropWhile binary = []
        · exact Or.inr (Or.inr (Or.inl ⟨rfl, he, postfixed_token_close_error hv result he⟩))
        · exact Or.inr (Or.inr (Or.inr (Or.inl ⟨rfl, he, postfixed_token_close hv result he⟩)))
      · exact Or.inr (Or.inr (Or.inr (Or.inr
          ⟨hc', ho, hcl, postfixed_token_operand hc' ho hcl hv result⟩)))

theorem postfixed_token_valid {token : String} {stack result stack' result' : List String}
    (hv : Valid stack) (h : postfixed_token token stack result = .ok (stack', result')) :
    Valid stack' := by
  rcases postfixed_token_cases token hv result with
    ⟨hc, e⟩ | ⟨rfl, e⟩ | ⟨rfl, _, e⟩ | ⟨rfl, _, e⟩ | ⟨_, _, _, e⟩ <;>
  rw [e] at h <;> simp at h <;> obtain ⟨rfl, rfl⟩ := h
  · exact Valid.cons_valid (Or.inr hc) (hv.dropWhile_valid _)
  · exact Valid.cons_valid (Or.inl rfl) hv
  · exact ((hv.dropWhile_valid _).unbracket_valid).dropWhile_valid _
  · exact hv.dropWhile_valid _

theorem bracketless_of_contains {l : List String} (h : ∀ t ∈ l, contains t = true) :
    Bracketless l := by
  intro t ht
  have := h t ht
  constructor
  · rintro rfl
    simp [contains_open] at this
  · rintro rfl
    simp [contains_close] at this

theorem Bracketless.append_bracketless {a b : List String} (ha : Bracketless a) (hb : Bracketless b) :
    Bracketless (a ++ b) := by
  intro t ht
  rcases List.mem_append.1 ht with h | h
  · exact ha t h
  · exact hb t h

theorem bracketless_takeWhile_unary (l : List String) : Bracketless (l.takeWhile unary) :=
  bracketless_of_contains fun _ ht => unary_contains (List.mem_takeWhile_imp ht)

theorem bracketless_takeWhile_binary (l : List String) : Bracketless (l.takeWhile binary) :=
  bracketless_of_contains fun _ ht => binary_contains (List.mem_takeWhile_imp ht)

theorem bracketless_takeWhile_outranks (token : String) (l : List String) :
    Bracketless (l.takeWhile (outranks token)) :=
  bracketless_of_contains fun _ ht =>
    binary_contains (outranks_binary (List.mem_takeWhile_imp ht))

theorem postfixed_token_bracketless {token : String} {stack result stack' result' : List String}
    (hv : Valid stack) (hr : Bracketless result)
    (h : postfixed_token token stack result = .ok (stack', result')) :
    Bracketless result' := by
  rcases postfixed_token_cases token hv result with
    ⟨hc, e⟩ | ⟨rfl, e⟩ | ⟨rfl, _, e⟩ | ⟨rfl, _, e⟩ | ⟨_, ho, hcl, e⟩ <;>
  rw [e] at h <;> simp at h <;> obtain ⟨rfl, rfl⟩ := h
  · exact hr.append_bracketless (bracketless_takeWhile_outranks _ _)
  · exact hr
  · have := (hr.append_bracketless (bracketless_takeWhile_binary stack)).append_bracketless
      (bracketless_takeWhile_unary (unbracket (stack.dropWhile binary)))
    simpa using this
  · have h1 : Bracketless [token] := by
      intro t ht
      simp at ht
      subst ht
      exact ⟨ho, hcl⟩
    have := (hr.append_bracketless h1).append_bracketless (bracketless_takeWhile_unary stack)
    simpa using this

theorem postfixed_loop_bracketless (tokens : List String) :
    ∀ {stack result stack' result' : List String}, Valid stack → Bracketless result →
      postfixed_loop tokens stack result = .ok (stack', result') →
      Valid stack' ∧ Bracketless result' := by
  induction tokens with
  | nil =>
    intro stack result stack' result' hv hr h
    simp [postfixed_loop] at h
    obtain ⟨rfl, rfl⟩ := h
    exact ⟨hv, hr⟩
  | cons token tokens ih =>
    intro stack result stack' result' hv hr h
    unfold postfixed_loop at h
    cases hs : postfixed_token token stack result with
    | error e => simp [hs] at h
    | ok sr =>
      obtain ⟨s1, r1⟩ := sr
      simp only [hs] at h
      exact ih (postfixed_token_valid hv hs) (postfixed_token_bracketless hv hr hs) h

theorem postfixed_end_ok {stack result stack' result' : List String} (hv : Valid stack)
    (h : postfixed_end stack result = .ok (stack', result')) :
    stack' = [] ∧ stack.dropWhile binary = [] ∧ result' = result ++ stack.takeWhile binary := by
  unfold postfixed_end at h
  rw [flush_eq (not_unary_operators_eq hv)] at h
  simp only at h
  by_cases he : stack.dropWhile binary = []
  · simp [he, empty] at h
    obtain ⟨rfl, rfl⟩ := h
    exact ⟨rfl, he, rfl⟩
  · have : (List.dropWhile binary stack).isEmpty = false := by
      cases hd : List.dropWhile binary stack with
      | nil => exact absurd hd he
      | cons _ _ => rfl
    simp [empty, this] at h

/-- C4: when `postfixed()` returns, the returned sequence holds neither `(`
nor `)`. -/
theorem postfixed_no_brackets (S stack out : List String)
    (h : postfixed S stack = .ok out) : "(" ∉ out ∧ ")" ∉ out := by
  unfold postfixed postfixed_run at h
  cases hl : postfixed_loop (tokenized S) [] [] with
  | error e => simp [hl] at h
  | ok sr =>
    obtain ⟨s1, r1⟩ := sr
    simp only [hl] at h
    obtain ⟨hv, hr⟩ := postfixed_loop_bracketless (tokenized S)
      (fun _ hx => by simp at hx) (fun _ hx => by simp at hx) hl
    cases he : postfixed_end s1 r1 with
    | error e => simp [he] at h
    | ok sr2 =>
      obtain ⟨s2, r2⟩ := sr2
      simp [he] at h
      subst h
      obtain ⟨-, -, rfl⟩ := postfixed_end_ok hv he
      have := hr.append_bracketless (bracketless_takeWhile_binary s1)
      exact ⟨fun hm => (this _ hm).1 rfl, fun hm => (this _ hm).2 rfl⟩

/-- The atom sequence of the test `PostfixStringExpression.test_4`. -/
theorem postfixed_no_brackets_witness :
    postfixed ["(", "1", ")"] [] = .ok ["1"] ∧ "(" ∉ ["1"] ∧ ")" ∉ ["1"] :=
  ⟨rfl, postfixed_no_brackets ["(", "1", ")"] [] ["1"] rfl⟩

theorem unbracketed_append (a b : List String) :
    unbracketed (a ++ b) = unbracketed a ++ unbracketed b := by
  simp [unbracketed]

theorem unbracketed_of_bracketless {l : List String} (h : Bracketless l) :
    unbracketed l = l := by
  unfold unbracketed
  rw [List.filter_eq_self]
  intro t ht
  have := h t ht
  simp [this.1, this.2]

theorem unbracketed_split (p : String → Bool) (l : List String)
    (h : Bracketless (l.takeWhile p)) :
    unbracketed l = l.takeWhile p ++ unbracketed (l.dropWhile p) := by
  conv_lhs => rw [← List.takeWhile_append_dropWhile p l]
  rw [unbracketed_append, unbracketed_of_bracketless h]

theorem unbracketed_unbracket (l : List String) : unbracketed (unbracket l) = unbracketed l := by
  cases l with
  | nil => rfl
  | cons top below =>
    by_cases h : top = "("
    · subst h
      simp [unbracket, unbracketed]
    · simp [unbracket, h]

theorem postfixed_token_count {token : String} {stack result stack' result' : List String}
    (hv : Valid stack) (h : postfixed_token token stack result = .ok (stack', result')) :
    (↑result' + ↑(unbracketed stack') : Multiset String) =
      ↑result + ↑(unbracketed stack) + ↑(unbracketed [token]) := by
  rcases postfixed_token_cases token hv result with
    ⟨hc, e⟩ | ⟨rfl, e⟩ | ⟨rfl, _, e⟩ | ⟨rfl, _, e⟩ | ⟨_, ho, hcl, e⟩ <;>
  rw [e] at h <;> simp at h <;> obtain ⟨rfl, rfl⟩ := h
  · have h1 : unbracketed [token] = [token] :=
      unbracketed_of_bracketless (bracketless_of_contains (by simpa using hc))
    have h2 : unbracketed (token :: stack.dropWhile (outranks token)) =
        token :: unbracketed (stack.dropWhile (outranks token)) := by
      have := unbracketed_append [token] (stack.dropWhile (outranks token))
      rw [h1] at this
      simpa using this
    rw [h1, h2, unbracketed_split (outranks token) stack (bracketless_takeWhile_outranks _ _)]
    simp only [Multiset.coe_add, Multiset.coe_eq_coe]
    simp only [List.append_assoc]
    refine List.Perm.append_left _ (List.Perm.append_left _ ?_)
    simpa using (List.perm_append_comm : ([token] ++ _).Perm _)
  · simp [unbracketed]
  · rw [unbracketed_split binary stack (bracketless_takeWhile_binary _),
      ← unbracketed_unbracket (stack.dropWhile binary),
      unbracketed_split unary (unbracket (stack.dropWhile binary))
        (bracketless_takeWhile_unary _)]
    simp [unbracketed]
  · have h1 : unbracketed [token] = [token] := by
      simp [unbracketed, ho, hcl]
    rw [h1, unbracketed_split unary stack (bracketless_takeWhile_unary _)]
    simp only [Multiset.coe_add, Multiset.coe_eq_coe]
    simp only [List.append_assoc]
    refine List.Perm.append_left _ ?_
    have : ([token] ++ (stack.takeWhile unary ++ unbracketed (stack.dropWhile unary))).Perm
        ((stack.takeWhile unary ++ unbracketed (stack.dropWhile unary)) ++ [token]) :=
      List.perm_append_comm
    simpa using this

theorem postfixed_loop_count (tokens : List String) :
    ∀ {stack result stack' result' : List String}, Valid stack →
      postfixed_loop tokens stack result = .ok (stack', result') →
      Valid stack' ∧
      (↑result' + ↑(unbracketed stack') : Multiset String) =
        ↑result + ↑(unbracketed stack) + ↑(unbracketed tokens) := by
  induction tokens with
  | nil =>
    intro stack result stack' result' hv h
    simp [postfixed_loop] at h
    obtain ⟨rfl, rfl⟩ := h
    exact ⟨hv, by simp [unbracketed]⟩
  | cons token tokens ih =>
    intro stack result stack' result' hv h
    unfold postfixed_loop at h
    cases hs : postfixed_token token stack result with
    | error e => simp [hs] at h
    | ok sr =>
      obtain ⟨s1, r1⟩ := sr
      simp only [hs] at h
      obtain ⟨hv', hcount⟩ := ih (postfixed_token_valid hv hs) h
      refine ⟨hv', ?_⟩
      rw [hcount, postfixed_token_count hv hs]
      have : unbracketed (token :: tokens) = unbracketed [token] ++ unbracketed tokens :=
        unbracketed_append [token] tokens
      rw [this, ← Multiset.coe_add (unbracketed [token])]
      abel

theorem postfixed_perm {S stack out : List String} (h : postfixed S stack = .ok out) :
    out.Perm (unbracketed (tokenized S)) := by
  unfold postfixed postfixed_run at h
  cases hl : postfixed_loop (tokenized S) [] [] with
  | error e => simp [hl] at h
  | ok sr =>
    obtain ⟨s1, r1⟩ := sr
    simp only [hl] at h
    obtain ⟨hv, hcount⟩ := postfixed_loop_count (tokenized S) (fun _ hx => by simp at hx) hl
    cases he : postfixed_end s1 r1 with
    | error e => simp [he] at h
    | ok sr2 =>
      obtain ⟨s2, r2⟩ := sr2
      simp [he] at h
      subst h
      obtain ⟨-, hd, rfl⟩ := postfixed_end_ok hv he
      rw [unbracketed_split binary s1 (bracketless_takeWhile_binary _), hd] at hcount
      simp [unbracketed] at hcount
      exact hcount

/-- C5: when `postfixed()` returns, its output is a permutation of the tokens of
`tokenized()` other than `(` and `)`: every such token occurs in the output as
often as in the token sequence, and the number of catalogue operators is the
same. -/
theorem postfixed_permutation (S stack out : List String)
    (h : postfixed S stack = .ok out) :
    out.Perm ((tokenized S).filter (fun t => t != "(" && t != ")")) ∧
    (∀ t, t ≠ "(" → t ≠ ")" → out.count t = (tokenized S).count t) ∧
    (out.filter contains).length = ((tokenized S).filter contains).length := by
  have hp := postfixed_perm h
  refine ⟨hp, ?_, ?_⟩
  · intro t ho hc
    rw [hp.count_eq, unbracketed, List.count_filter]
    simp [ho, hc]
  · rw [(hp.filter contains).length_eq, unbracketed, List.filter_filter]
    congr 1
    apply List.filter_congr
    intro t _
    by_cases hc : contains t = true
    · have := bracketless_of_contains (l := [t]) (by simpa using hc) t (by simp)
      simp [hc, this.1, this.2]
    · simp [hc]

/-- The atom sequence of the test `PostfixStringExpression.test_25`. -/
theorem postfixed_permutation_witness :
    postfixed ["unary -", "(", "2", "/", "3", ")"] [] = .ok ["2", "3", "/", "unary -"] ∧
    (["2", "3", "/", "unary -"].Perm
      ((tokenized ["unary -", "(", "2", "/", "3", ")"]).filter
        (fun t => t != "(" && t != ")")) ∧
    (∀ t, t ≠ "(" → t ≠ ")" → ["2", "3", "/", "unary -"].count t =
      (tokenized ["unary -", "(", "2", "/", "3", ")"]).count t) ∧
    (["2", "3", "/", "unary -"].filter contains).length =
      ((tokenized ["unary -", "(", "2", "/", "3", ")"]).filter contains).length) :=
  ⟨rfl, postfixed_permutation ["unary -", "(", "2", "/", "3", ")"] []
    ["2", "3", "/", "unary -"] rfl⟩

/-! ## Unmatched brackets -/

theorem closes_early_iff (tokens : List String) (depth : Nat) :
    closes_early tokens depth = true ↔
      ∃ p, p <+: tokens ∧ p.count ")" > p.count "(" + depth := by
  induction tokens generalizing depth with
  | nil =>
    simp [closes_early]
  | cons token tokens ih =>
    unfold closes_early
    by_cases hc : token = ")"
    · subst hc
      rw [if_pos rfl]
      cases depth with
      | zero =>
        simp only [true_iff]
        exact ⟨[")"], by simp, by decide⟩
      | succ d =>
        simp only [ih]
        constructor
        · rintro ⟨p, hp, hgt⟩
          refine ⟨")" :: p, by simpa using hp, ?_⟩
          simp only [List.count_cons_self]
          rw [List.count_cons_of_ne (by decide)]
          omega
        · rintro ⟨p, hp, hgt⟩
          cases p with
          | nil => simp at hgt
          | cons x p =>
            obtain ⟨rfl, hp'⟩ := List.cons_prefix_cons.1 hp
            refine ⟨p, hp', ?_⟩
            simp only [List.count_cons_self] at hgt
            rw [List.count_cons_of_ne (by decide)] at hgt
            omega
    · rw [if_neg hc]
      by_cases ho : token = "("
      · subst ho
        rw [if_pos rfl, ih]
        constructor
        · rintro ⟨p, hp, hgt⟩
          refine ⟨"(" :: p, by simpa using hp, ?_⟩
          simp only [List.count_cons_self]
          rw [List.count_cons_of_ne (by decide)]
          omega
        · rintro ⟨p, hp, hgt⟩
          cases p with
          | nil => simp at hgt
          | cons x p =>
            obtain ⟨rfl, hp'⟩ := List.cons_prefix_cons.1 hp
            refine ⟨p, hp', ?_⟩
            simp only [List.count_cons_self] at hgt
            rw [List.count_cons_of_ne (by decide)] at hgt
            omega
      · rw [if_neg ho, ih]
        constructor
        · rintro ⟨p, hp, hgt⟩
          refine ⟨token :: p, by simpa using hp, ?_⟩
          rw [List.count_cons_of_ne (Ne.symm hc), List.count_cons_of_ne (Ne.symm ho)]
          exact hgt
        · rintro ⟨p, hp, hgt⟩
          cases p with
          | nil => simp at hgt
          | cons x p =>
            obtain ⟨rfl, hp'⟩ := List.cons_prefix_cons.1 hp
            refine ⟨p, hp', ?_⟩
            rw [List.count_cons_of_ne (Ne.symm hc), List.count_cons_of_ne (Ne.symm ho)] at hgt
            exact hgt

theorem count_open_dropWhile {p : String → Bool} (hp : ∀ s, p s = true → s ≠ "(")
    (l : List String) : (l.dropWhile p).count "(" = l.count "(" := by
  induction l with
  | nil => rfl
  | cons a l ih =>
    by_cases h : p a = true
    · rw [List.dropWhile_cons_of_pos h, ih, List.count_cons_of_ne (hp a h).symm]
    · rw [List.dropWhile_cons_of_neg h]

theorem unary_ne_open {s : String} (h : unary s = true) : s ≠ "(" := by
  rintro rfl
  exact absurd h (by decide)

theorem binary_ne_open {s : String} (h : binary s = true) : s ≠ "(" := by
  rintro rfl
  exact absurd h (by decide)

theorem outranks_ne_open {token s : String} (h : outranks token s = true) : s ≠ "(" :=
  binary_ne_open (outranks_binary h)

theorem count_open_unbracket (l : List String) :
    l.count "(" ≤ (unbracket l).count "(" + 1 := by
  cases l with
  | nil => simp [unbracket]
  | cons top below =>
    by_cases h : top = "("
    · subst h
      simp [unbracket]
    · simp [unbracket, h]

theorem postfixed_end_eq {stack : List String} (hv : Valid stack) (result : List String) :
    postfixed_end stack result =
      if stack.dropWhile binary = [] then .ok ([], result ++ stack.takeWhile binary)
      else .error (.message "missing right parenthesis", stack.dropWhile binary) := by
  unfold postfixed_end
  rw [flush_eq (not_unary_operators_eq hv)]
  cases hd : List.dropWhile binary stack with
  | nil => simp [empty]
  | cons a l => simp [empty]

theorem postfixed_loop_error (tokens : List String) :
    ∀ {stack result : List String} {e : Thrown × List String}, Valid stack →
      postfixed_loop tokens stack result = .error e →
      e = (.message "missing left parenthesis", []) := by
  induction tokens with
  | nil =>
    intro stack result e hv h
    simp [postfixed_loop] at h
  | cons token tokens ih =>
    intro stack result e hv h
    unfold postfixed_loop at h
    cases hs : postfixed_token token stack result with
    | error e1 =>
      simp only [hs] at h
      rcases postfixed_token_cases token hv result with
        ⟨_, e2⟩ | ⟨_, e2⟩ | ⟨_, _, e2⟩ | ⟨_, _, e2⟩ | ⟨_, _, _, e2⟩ <;>
      rw [e2] at hs <;> simp at hs
      subst hs
      simpa using h.symm
    | ok sr =>
      obtain ⟨s1, r1⟩ := sr
      simp only [hs] at h
      exact ih (postfixed_token_valid hv hs) h

theorem postfixed_token_open_count {token : String} {stack result stack' result' : List String}
    (hv : Valid stack) (h : postfixed_token token stack result = .ok (stack', result')) :
    stack.count "(" + [token].count "(" ≤ stack'.count "(" + [token].count ")" := by
  rcases postfixed_token_cases token hv result with
    ⟨hc, e⟩ | ⟨rfl, e⟩ | ⟨rfl, _, e⟩ | ⟨rfl, _, e⟩ | ⟨hc, ho, hcl, e⟩ <;>
  rw [e] at h <;> simp at h <;> obtain ⟨rfl, rfl⟩ := h
  · have h1 : token ≠ "(" := by
      rintro rfl
      simp [contains_open] at hc
    have h2 : token ≠ ")" := by
      rintro rfl
      simp [contains_close] at hc
    have hd := count_open_dropWhile (p := outranks token) (fun _ => outranks_ne_open) stack
    simp [List.count_cons, h1, h2, hd]
  · simp
  · rw [count_open_dropWhile (fun s => unary_ne_open)]
    have := count_open_unbracket (stack.dropWhile binary)
    rw [count_open_dropWhile (fun s => binary_ne_open)] at this
    simp [List.count_cons]
    omega
  · rw [count_open_dropWhile (fun s => unary_ne_open)]
    simp [List.count_cons, ho, hcl]

theorem postfixed_loop_open_count (tokens : List String) :
    ∀ {stack result stack' result' : List String}, Valid stack →
      postfixed_loop tokens stack result = .ok (stack', result') →
      Valid stack' ∧
      stack.count "(" + tokens.count "(" ≤ stack'.count "(" + tokens.count ")" := by
  induction tokens with
  | nil =>
    intro stack result stack' result' hv h
    simp [postfixed_loop] at h
    obtain ⟨rfl, rfl⟩ := h
    exact ⟨hv, by simp⟩
  | cons token tokens ih =>
    intro stack result stack' result' hv h
    unfold postfixed_loop at h
    cases hs : postfixed_token token stack result with
    | error e => simp [hs] at h
    | ok sr =>
      obtain ⟨s1, r1⟩ := sr
      simp only [hs] at h
      obtain ⟨hv', hcount⟩ := ih (postfixed_token_valid hv hs) h
      refine ⟨hv', ?_⟩
      have h1 := postfixed_token_open_count hv hs
      have h2 : ∀ x : String, (token :: tokens).count x = [token].count x + tokens.count x := by
        intro x
        rw [← List.count_append]
        rfl
      rw [h2, h2]
      omega

theorem dropWhile_binary_ne_nil {stack : List String} (h : 0 < stack.count "(") :
    stack.dropWhile binary ≠ [] := by
  intro he
  have := count_open_dropWhile (fun s => binary_ne_open) stack
  rw [he] at this
  simp at this
  omega

theorem postfixed_loop_ok (tokens : List String) :
    ∀ {stack result : List String} (depth : Nat), Valid stack → depth ≤ stack.count "(" →
      closes_early tokens depth = false →
      ∃ stack' result', postfixed_loop tokens stack result = .ok (stack', result') := by
  induction tokens with
  | nil =>
    intro stack result depth hv hd hc
    exact ⟨stack, result, rfl⟩
  | cons token tokens ih =>
    intro stack result depth hv hd hc
    unfold postfixed_loop
    unfold closes_early at hc
    rcases postfixed_token_cases token hv result with
      ⟨hct, e⟩ | ⟨rfl, e⟩ | ⟨rfl, he, e⟩ | ⟨rfl, he, e⟩ | ⟨hct, ho, hcl, e⟩
    · have h1 : token ≠ "(" := by
        rintro rfl
        simp [contains_open] at hct
      have h2 : token ≠ ")" := by
        rintro rfl
        simp [contains_close] at hct
      rw [if_neg h2, if_neg h1] at hc
      rw [e]
      refine ih depth (postfixed_token_valid hv e) ?_ hc
      rw [List.count_cons_of_ne h1.symm,
        count_open_dropWhile (p := outranks token) (fun _ => outranks_ne_open)]
      exact hd
    · rw [if_neg (by decide), if_pos rfl] at hc
      rw [e]
      refine ih (depth + 1) (postfixed_token_valid hv e) ?_ hc
      simp
      exact hd
    · rw [if_pos rfl] at hc
      cases depth with
      | zero => simp at hc
      | succ d => exact absurd he (dropWhile_binary_ne_nil (by omega))
    · rw [if_pos rfl] at hc
      cases depth with
      | zero => simp at hc
      | succ d =>
        simp only at hc
        rw [e]
        refine ih d (postfixed_token_valid hv e) ?_ hc
        rw [count_open_dropWhile (fun s => unary_ne_open)]
        have := count_open_unbracket (stack.dropWhile binary)
        rw [count_open_dropWhile (fun s => binary_ne_open)] at this
        omega
    · rw [if_neg hcl, if_neg ho] at hc
      rw [e]
      refine ih depth (postfixed_token_valid hv e) ?_ hc
      rw [count_open_dropWhile (fun s => unary_ne_open)]
      exact hd

theorem append_eq_single {a b : String} {c : Char} (h : a ++ b = String.singleton c) :
    a = String.singleton c ∨ (a = "" ∧ b = String.singleton c) := by
  have hd : a.data ++ b.data = [c] := by
    have := congrArg String.data h
    simpa using this
  cases ha : a.data with
  | nil =>
    right
    rw [ha] at hd
    exact ⟨String.ext ha, String.ext (by simpa using hd)⟩
  | cons x xs =>
    left
    rw [ha] at hd
    simp at hd
    apply String.ext
    rw [ha]
    simp [hd.1, hd.2.1]

theorem join_ne_bracket {g : List String} (h : ∀ a ∈ g, standalone a = false) :
    is_bracket (String.join g) = false := by
  induction g with
  | nil => decide
  | cons a g ih =>
    have ha : standalone a = false := h a (List.mem_cons_self _ _)
    have ih' := ih (fun b hb => h b (List.mem_cons_of_mem _ hb))
    rw [join_cons]
    by_contra hb
    have hb' : is_bracket (a ++ String.join g) = true := by simpa using hb
    unfold is_bracket at hb'
    rw [Bool.or_eq_true, beq_iff_eq, beq_iff_eq] at hb'
    have key : ∀ c : Char, a ++ String.join g = String.singleton c →
        standalone (String.singleton c) = true →
        is_bracket (String.singleton c) = true → False := by
      intro c hc hs hbr
      rcases append_eq_single hc with h1 | ⟨_, h2⟩
      · rw [h1, hs] at ha
        cases ha
      · rw [h2, hbr] at ih'
        cases ih'
    rcases hb' with h1 | h1
    · exact key '(' h1 (by decide) (by decide)
    · exact key ')' h1 (by decide) (by decide)

theorem filter_bracket_run {g : List String} (h : ∀ a ∈ g, standalone a = false) :
    g.filter is_bracket = [] := by
  rw [List.filter_eq_nil_iff]
  intro a ha hb
  have hs := h a ha
  unfold is_bracket at hb
  unfold standalone at hs
  rw [Bool.or_eq_true] at hb
  rcases hb with hb | hb
  · simp [hb] at hs
  · simp [hb] at hs

theorem tokenized_brackets (S : List String) :
    (tokenized S).filter is_bracket = S.filter is_bracket := by
  obtain ⟨groups, hflat, hgood, -, htok, -⟩ := tokenized_groups S
  rw [htok, ← hflat]
  clear htok hflat
  induction groups with
  | nil => rfl
  | cons g gs ih =>
    have ih' := ih (fun k hk => hgood k (List.mem_cons_of_mem _ hk))
    rw [List.map_cons, List.flatten_cons, List.filter_append, List.filter_cons, ih']
    rcases hgood g (List.mem_cons_self _ _) with ⟨a, rfl, _⟩ | ⟨_, hrun⟩
    · have : String.join [a] = a := by simp [String.join]
      rw [this]
      by_cases hb : is_bracket a = true
      · simp [hb]
      · simp [hb]
    · rw [join_ne_bracket hrun, filter_bracket_run hrun]
      simp

theorem count_filter_bracket (x : String) (hx : is_bracket x = true) (l : List String) :
    (l.filter is_bracket).count x = l.count x := by
  rw [List.count_filter hx]

theorem closes_early_filter (l : List String) (depth : Nat) :
    closes_early (l.filter is_bracket) depth = closes_early l depth := by
  induction l generalizing depth with
  | nil => rfl
  | cons a l ih =>
    by_cases hc : a = ")"
    · subst hc
      rw [List.filter_cons_of_pos (by decide)]
      unfold closes_early
      simp only [if_true]
      cases depth with
      | zero => rfl
      | succ d => exact ih d
    · by_cases ho : a = "("
      · subst ho
        rw [List.filter_cons_of_pos (by decide)]
        unfold closes_early
        simp only [if_neg (show ¬ "(" = ")" by decide), if_true]
        exact ih _
      · have hb : is_bracket a = false := by simp [is_bracket, hc, ho]
        rw [List.filter_cons_of_neg (by simp [hb])]
        conv_rhs => unfold closes_early
        rw [if_neg hc, if_neg ho]
        exact ih _

theorem tokenized_count (x : String) (hx : is_bracket x = true) (S : List String) :
    (tokenized S).count x = S.count x := by
  rw [← count_filter_bracket x hx, tokenized_brackets, count_filter_bracket x hx]

theorem tokenized_closes_early (S : List String) (depth : Nat) :
    closes_early (tokenized S) depth = closes_early S depth := by
  rw [← closes_early_filter, tokenized_brackets, closes_early_filter]

theorem valid_nil : Valid [] :=
  fun _ hx => absurd hx (List.not_mem_nil _)

theorem more_open_fails {S : List String} (h : S.count ")" < S.count "(")
    (stack : List String) :
    postfixed S stack = .error (.message "missing left parenthesis") ∨
    postfixed S stack = .error (.message "missing right parenthesis") := by
  unfold postfixed postfixed_run
  cases hl : postfixed_loop (tokenized S) [] [] with
  | error e =>
    rw [postfixed_loop_error (tokenized S) valid_nil hl]
    exact Or.inl rfl
  | ok sr =>
    obtain ⟨s1, r1⟩ := sr
    obtain ⟨hv, hcount⟩ := postfixed_loop_open_count (tokenized S) valid_nil hl
    rw [tokenized_count "(" (by decide), tokenized_count ")" (by decide)] at hcount
    simp only
    rw [postfixed_end_eq hv, if_neg (dropWhile_binary_ne_nil (by simp at hcount; omega))]
    exact Or.inr rfl

theorem postfixed_open_left {S : List String} (h : S.count ")" < S.count "(")
    (hp : closes_early S 0 = false) (stack : List String) :
    postfixed S stack = .error (.message "missing right parenthesis") := by
  obtain ⟨s1, r1, hl⟩ := @postfixed_loop_ok (tokenized S) [] [] 0 valid_nil (Nat.zero_le _)
    (by rw [tokenized_closes_early]; exact hp)
  obtain ⟨hv, hcount⟩ := postfixed_loop_open_count (tokenized S) valid_nil hl
  rw [tokenized_count "(" (by decide), tokenized_count ")" (by decide)] at hcount
  unfold postfixed postfixed_run
  rw [hl]
  simp only
  rw [postfixed_end_eq hv, if_neg (dropWhile_binary_ne_nil (by simp at hcount; omega))]

/-- C7: for an atom sequence with more `(` than `)`, `postfixed()` returns no
postfix sequence: it throws one of the two parenthesis messages, and the
message is "missing right parenthesis" when no prefix of the sequence holds
more `)` than `(`. -/
theorem postfixed_more_open (S stack : List String) (h : S.count ")" < S.count "(") :
    (∀ out, postfixed S stack ≠ .ok out) ∧
    (postfixed S stack = .error (.message "missing left parenthesis") ∨
      postfixed S stack = .error (.message "missing right parenthesis")) ∧
    ((∀ p, p <+: S → p.count ")" ≤ p.count "(") →
      postfixed S stack = .error (.message "missing right parenthesis")) := by
  have hf := more_open_fails h stack
  refine ⟨?_, hf, ?_⟩
  · intro out ho
    rcases hf with hf | hf <;> rw [hf] at ho <;> cases ho
  · intro hp
    apply postfixed_open_left h
    cases hce : closes_early S 0 with
    | false => rfl
    | true =>
      obtain ⟨p, hpre, hgt⟩ := (closes_early_iff S 0).1 hce
      have := hp p hpre
      omega

/-- The atom sequence of the test `PostfixStringExpression.test_0`. -/
theorem postfixed_more_open_witness :
    ["("].count ")" < ["("].count "(" ∧
    (∀ out, postfixed ["("] [] ≠ .ok out) ∧
    (postfixed ["("] [] = .error (.message "missing left parenthesis") ∨
      postfixed ["("] [] = .error (.message "missing right parenthesis")) ∧
    ((∀ p, p <+: ["("] → p.count ")" ≤ p.count "(") →
      postfixed ["("] [] = .error (.message "missing right parenthesis")) :=
  ⟨by decide, postfixed_more_open ["("] [] (by decide)⟩

theorem postfixed_loop_append (a b : List String) :
    ∀ stack result : List String,
      postfixed_loop (a ++ b) stack result =
        match postfixed_loop a stack result with
        | .error e => .error e
        | .ok (stack', result') => postfixed_loop b stack' result' := by
  induction a with
  | nil =>
    intro stack result
    rfl
  | cons t a ih =>
    intro stack result
    simp only [List.cons_append, postfixed_loop]
    cases postfixed_token t stack result with
    | error e => rfl
    | ok sr =>
      obtain ⟨s1, r1⟩ := sr
      exact ih s1 r1

theorem tokenized_append_standalone {u : String} (hu : standalone u = true) (S : List String) :
    tokenized (S ++ [u]) = tokenized S ++ [u] ∧
    ∀ acc, number_loop acc (S ++ [u]) = number_loop acc S ++ [u] := by
  induction S with
  | nil => simp [tokenized, number_loop, hu]
  | cons a S ih =>
    by_cases ha : standalone a = true
    · simp [tokenized, number_loop, ha, ih.1]
    · simp [tokenized, number_loop, ha, ih.2]

theorem unary_not_binary {s : String} (h : unary s = true) : binary s = false := by
  unfold unary at h
  unfold binary
  cases hl : FUNCTION_MAP.lookup s with
  | none => rfl
  | some f =>
    rw [hl] at h
    simp only [decide_eq_true_eq] at h
    simp [h]

theorem unary_names {u : String}
    (hu : u ∈ ["unary +", "unary -", "sin", "cos", "tan", "asin", "acos", "atan", "ln",
      "log", "sqrt"]) : unary u = true := by
  simp only [List.mem_cons, List.mem_singleton, List.not_mem_nil, or_false] at hu
  rcases hu with h | h | h | h | h | h | h | h | h | h | h <;> subst h <;> decide

/-- C8: when the last atom is a unary catalogue operator, `postfixed()` throws:
"missing right parenthesis", unless the loop over the earlier tokens has
already thrown "missing left parenthesis" at a `)`. -/
theorem postfixed_trailing_unary (S stack : List String) (u : String)
    (hu : u ∈ ["unary +", "unary -", "sin", "cos", "tan", "asin", "acos", "atan", "ln",
      "log", "sqrt"]) :
    postfixed (S ++ [u]) stack = .error (.message "missing right parenthesis") ∨
    (postfixed (S ++ [u]) stack = .error (.message "missing left parenthesis") ∧
      postfixed_loop (tokenized S) [] [] = .error (.message "missing left parenthesis", [])) := by
  have hun := unary_names hu
  have hc := unary_contains hun
  have hst : standalone u = true := by simp [standalone, hc]
  unfold postfixed postfixed_run
  rw [(tokenized_append_standalone hst S).1, postfixed_loop_append]
  cases hl : postfixed_loop (tokenized S) [] [] with
  | error e =>
    have := postfixed_loop_error (tokenized S) valid_nil hl
    subst this
    exact Or.inr ⟨rfl, rfl⟩
  | ok sr =>
    obtain ⟨s1, r1⟩ := sr
    left
    obtain ⟨hv, -⟩ := postfixed_loop_open_count (tokenized S) valid_nil hl
    simp only [postfixed_loop, postfixed_token_catalogue hc hv]
    rw [postfixed_end_eq (Valid.cons_valid (Or.inr hc) (hv.dropWhile_valid _))]
    rw [List.dropWhile_cons_of_neg (by simp [unary_not_binary hun])]
    simp

/-- The atom sequence of the test `PostfixStringExpression.test_53`. -/
theorem postfixed_trailing_unary_witness :
    "unary -" ∈ ["unary +", "unary -", "sin", "cos", "tan", "asin", "acos", "atan", "ln",
      "log", "sqrt"] ∧
    (postfixed (["2"] ++ ["unary -"]) [] = .error (.message "missing right parenthesis") ∨
    (postfixed (["2"] ++ ["unary -"]) [] = .error (.message "missing left parenthesis") ∧
      postfixed_loop (tokenized ["2"]) [] [] =
        .error (.message "missing left parenthesis", []))) :=
  ⟨by decide, postfixed_trailing_unary ["2"] [] "unary -" (by decide)⟩

theorem unaryApplied_of_check (tokens : List String) (h : unary_applied tokens = true) :
    UnaryApplied tokens := by
  induction tokens with
  | nil => exact List.chain'_nil
  | cons a rest ih =>
    cases rest with
    | nil => exact List.chain'_singleton _
    | cons b rest =>
      simp only [unary_applied, Bool.and_eq_true] at h
      refine List.Chain'.cons ?_ (ih (by simpa [unary_applied] using h.2))
      intro ha
      have h1 := h.1
      simp [ha] at h1
      exact ⟨h1.1, h1.2⟩

theorem contains_unary_or_binary {t : String} (h : contains t = true) :
    unary t = true ∨ binary t = true := by
  rcases contains_cases t h with h | h | h | h | h | h | h | h | h | h | h | h | h | h | h | h | h
    <;> subst h <;> decide

theorem precedence_unary {t : String} (h : unary t = true) :
    precedence t = 3 ∧ left_assoc t = false := by
  rcases contains_cases t (unary_contains h) with
    h1 | h1 | h1 | h1 | h1 | h1 | h1 | h1 | h1 | h1 | h1 | h1 | h1 | h1 | h1 | h1 | h1
    <;> subst h1 <;> first | exact ⟨by decide, by decide⟩ | exact absurd h (by decide)

theorem precedence_binary {s : String} (h : binary s = true) : precedence s ≤ 2 := by
  rcases contains_cases s (binary_contains h) with
    h1 | h1 | h1 | h1 | h1 | h1 | h1 | h1 | h1 | h1 | h1 | h1 | h1 | h1 | h1 | h1 | h1
    <;> subst h1 <;> first | decide | exact absurd h (by decide)

theorem outranks_unary {t : String} (h : unary t = true) (s : String) :
    outranks t s = false := by
  unfold outranks
  cases hb : binary s with
  | false => rfl
  | true =>
    have h1 := precedence_unary h
    have h2 := precedence_binary hb
    rw [h1.1, h1.2]
    simp
    omega

theorem dropWhile_outranks_unary {t : String} (h : unary t = true) (stack : List String) :
    stack.dropWhile (outranks t) = stack := by
  cases stack with
  | nil => rfl
  | cons s stack => rw [List.dropWhile_cons_of_neg (by simp [outranks_unary h s])]

theorem Settled.tail_settled {s : String} {stack : List String} (h : Settled (s :: stack)) :
    Settled stack :=
  List.Chain'.tail h

theorem Settled.dropWhile_settled (p : String → Bool) {stack : List String} (h : Settled stack) :
    Settled (stack.dropWhile p) :=
  List.Chain'.suffix h (List.dropWhile_suffix p)

theorem topNotUnary_dropWhile {p : String → Bool} (hp : ∀ s, p s = true → binary s = true)
    {stack : List String} (hs : Settled stack) (ht : TopNotUnary stack) :
    TopNotUnary (stack.dropWhile p) := by
  induction stack with
  | nil => exact ht
  | cons x rest ih =>
    by_cases hx : p x = true
    · rw [List.dropWhile_cons_of_pos hx]
      apply ih hs.tail_settled
      intro s hs'
      cases rest with
      | nil => simp at hs'
      | cons y rest =>
        simp at hs'
        subst hs'
        exact (List.chain'_cons.1 hs).1 (hp x hx)
    · rw [List.dropWhile_cons_of_neg hx]
      exact ht

theorem topNotUnary_dropWhile_unary (stack : List String) :
    TopNotUnary (stack.dropWhile unary) := by
  intro s hs
  have := List.head?_dropWhile_not unary stack
  rw [Option.mem_def] at hs
  rw [hs] at this
  simpa using this

theorem head_dropWhile_binary {stack : List String} (hv : Valid stack) (hs : Settled stack)
    (ht : TopNotUnary stack) :
    stack.dropWhile binary = [] ∨
      ∃ rest, stack.dropWhile binary = "(" :: rest := by
  have h1 := topNotUnary_dropWhile (p := binary) (fun _ h => h) hs ht
  have h2 := List.head?_dropWhile_not binary stack
  have h3 := hv.dropWhile_valid binary
  cases hd : stack.dropWhile binary with
  | nil => exact Or.inl rfl
  | cons x rest =>
    right
    rw [hd] at h1 h2 h3
    refine ⟨rest, ?_⟩
    rcases h3 x (List.mem_cons_self _ _) with hx | hx
    · rw [hx]
    · have hu : unary x = false := h1 x (by simp)
      have hb : binary x = false := by simpa using h2
      rcases contains_unary_or_binary hx with h | h
      · rw [hu] at h; cases h
      · rw [hb] at h; cases h

theorem postfixed_loop_unmatched (tokens : List String) :
    ∀ {stack result : List String}, Valid stack → Settled stack → UnaryApplied tokens →
      (∀ t ∈ tokens.head?, binary t = true ∨ t = ")" → TopNotUnary stack) →
      closes_early tokens (stack.count "(") = true →
      postfixed_loop tokens stack result = .error (.message "missing left parenthesis", []) := by
  induction tokens with
  | nil =>
    intro stack result hv hs hu ht hc
    simp [closes_early] at hc
  | cons token tokens ih =>
    intro stack result hv hs hu ht hc
    have hu' : UnaryApplied tokens := List.Chain'.tail hu
    have hnext : ∀ {stack' : List String}, (unary token = true ∨ TopNotUnary stack') →
        ∀ t ∈ tokens.head?, binary t = true ∨ t = ")" → TopNotUnary stack' := by
      intro stack' h t htm hbt
      rcases h with h | h
      · cases tokens with
        | nil => simp at htm
        | cons t2 tokens =>
          simp at htm
          subst htm
          have := (List.chain'_cons.1 hu).1 h
          rcases hbt with hbt | hbt
          · rw [this.1] at hbt; cases hbt
          · exact absurd hbt this.2
      · exact h
    unfold postfixed_loop
    unfold closes_early at hc
    rcases postfixed_token_cases token hv result with
      ⟨hct, e⟩ | ⟨rfl, e⟩ | ⟨rfl, he, e⟩ | ⟨rfl, he, e⟩ | ⟨hct, ho, hcl, e⟩
    · have h1 : token ≠ "(" := by
        rintro rfl
        simp [contains_open] at hct
      have h2 : token ≠ ")" := by
        rintro rfl
        simp [contains_close] at hct
      rw [if_neg h2, if_neg h1] at hc
      have hcount : (token :: stack.dropWhile (outranks token)).count "(" = stack.count "(" := by
        rw [List.count_cons_of_ne h1.symm,
          count_open_dropWhile (p := outranks token) (fun _ => outranks_ne_open)]
      rw [e]
      simp only
      rcases contains_unary_or_binary hct with hun | hbin
      · refine ih (postfixed_token_valid hv e) ?_ hu' (hnext (Or.inl hun)) (by rw [hcount]; exact hc)
        rw [dropWhile_outranks_unary hun]
        cases stack with
        | nil => exact List.chain'_singleton _
        | cons x rest =>
          refine List.Chain'.cons ?_ hs
          intro hb
          rw [unary_not_binary hun] at hb
          cases hb
      · have htop : TopNotUnary stack := ht token (by simp) (Or.inl hbin)
        have hdw := topNotUnary_dropWhile (p := outranks token) (fun _ => outranks_binary) hs htop
        have hnu : unary token = false := by
          cases hx : unary token with
          | false => rfl
          | true => rw [unary_not_binary hx] at hbin; cases hbin
        refine ih (postfixed_token_valid hv e) ?_ hu' (hnext (Or.inr ?_)) (by rw [hcount]; exact hc)
        · cases hd : stack.dropWhile (outranks token) with
          | nil => exact List.chain'_singleton _
          | cons x rest =>
            rw [hd] at hdw
            refine List.Chain'.cons ?_ (hd ▸ hs.dropWhile_settled _)
            intro _
            exact hdw x (by simp)
        · intro s hsm
          simp at hsm
          subst hsm
          exact hnu
    · rw [if_neg (by decide), if_pos rfl] at hc
      rw [e]
      simp only
      refine ih (postfixed_token_valid hv e) ?_ hu' (hnext (Or.inr ?_)) (by simpa using hc)
      · cases stack with
        | nil => exact List.chain'_singleton _
        | cons x rest =>
          refine List.Chain'.cons ?_ hs
          intro hb
          exact absurd hb (by decide)
      · intro s hsm
        simp at hsm
        subst hsm
        decide
    · rw [e]
    · rw [if_pos rfl] at hc
      have htop : TopNotUnary stack := ht ")" (by simp) (Or.inr rfl)
      rcases head_dropWhile_binary hv hs htop with hnil | ⟨rest, hrest⟩
      · exact absurd hnil he
      · have hcnt : stack.count "(" = rest.count "(" + 1 := by
          have := count_open_dropWhile (p := binary) (fun _ => binary_ne_open) stack
          rw [hrest] at this
          simp at this
          omega
        rw [hcnt] at hc
        simp only at hc
        have hub : unbracket (stack.dropWhile binary) = rest := by
          rw [hrest]
          simp [unbracket]
        have hvr : Valid rest := by
          have := hv.dropWhile_valid binary
          rw [hrest] at this
          exact this.tail_valid
        have hsr : Settled rest := by
          have := hs.dropWhile_settled binary
          rw [hrest] at this
          exact this.tail_settled
        rw [e]
        simp only
        rw [hub]
        refine ih (hvr.dropWhile_valid _) (hsr.dropWhile_settled _) hu'
          (hnext (Or.inr (topNotUnary_dropWhile_unary rest))) ?_
        rw [count_open_dropWhile (p := unary) (fun _ => unary_ne_open)]
        exact hc
    · rw [if_neg hcl, if_neg ho] at hc
      rw [e]
      simp only
      refine ih (hv.dropWhile_valid _) (hs.dropWhile_settled _) hu'
        (hnext (Or.inr (topNotUnary_dropWhile_unary stack))) ?_
      rw [count_open_dropWhile (p := unary) (fun _ => unary_ne_open)]
      exact hc

/-- C6, the claim as stated, fails: in `sin )` the `)` has no `(` before it,
yet `postfixed()` returns the sequence `sin` and throws nothing. -/
theorem unmatched_close_absorbed :
    (∃ p, p <+: tokenized ["sin", ")"] ∧ p.count ")" > p.count "(") ∧
    postfixed ["sin", ")"] [] = .ok ["sin"] ∧
    postfixed ["sin", ")"] [] ≠ .error (.message "missing left parenthesis") :=
  ⟨⟨["sin", ")"], by decide, by decide⟩, rfl, by rw [show postfixed ["sin", ")"] [] = .ok ["sin"] from rfl]; exact fun h => nomatch h⟩

/-- The sequences `)`, `2 + 3 )` and `2 3 )` of the tests
`PostfixStringExpression.test_2`, `test_51` and `test_52`. -/
theorem postfixed_tests_missing_left :
    postfixed [")"] [] = .error (.message "missing left parenthesis") ∧
    postfixed ["2", "+", "3", ")"] [] = .error (.message "missing left parenthesis") ∧
    postfixed ["2", "3", ")"] [] = .error (.message "missing left parenthesis") :=
  ⟨rfl, rfl, rfl⟩

/-! ## The value stack -/

theorem pop_operands_ok (n : Nat) :
    ∀ (stack operands : List D), n ≤ stack.length →
      CalculatingDblStack.pop_operands n stack operands =
        .ok (operands ++ stack.take n, stack.drop n) := by
  induction n with
  | zero =>
    intro stack operands _
    simp [CalculatingDblStack.pop_operands]
  | succ n ih =>
    intro stack operands h
    cases stack with
    | nil => simp at h
    | cons x stack =>
      simp only [CalculatingDblStack.pop_operands]
      rw [ih stack (operands ++ [x]) (by simpa using h)]
      simp

theorem pop_operands_short (n : Nat) :
    ∀ (stack operands : List D), stack.length < n →
      CalculatingDblStack.pop_operands n stack operands =
        .error (.message "not enough arguments", []) := by
  induction n with
  | zero =>
    intro stack operands h
    simp at h
  | succ n ih =>
    intro stack operands h
    cases stack with
    | nil => rfl
    | cons x stack =>
      simp only [CalculatingDblStack.pop_operands]
      exact ih stack (operands ++ [x]) (by simpa using h)

theorem call_ok (L : Libm D) (f : Function) (operands : List D)
    (h : operands.length = f.arity) : ∃ v, f.call L operands = .ok v := by
  cases f <;> simp only [Function.arity] at h
  all_goals
    first
    | (obtain ⟨a, rfl⟩ := List.length_eq_one.1 h
       exact ⟨_, rfl⟩)
    | (obtain ⟨a, b, rfl⟩ := List.length_eq_two.1 h
       exact ⟨_, rfl⟩)

theorem push_catalogue (L : Libm D) {token : String} {f : Function}
    (hf : FUNCTION_MAP.lookup token = some f) (stack : List D) :
    CalculatingDblStack.push L token stack =
      if f.arity ≤ stack.length then
        match f.call L (stack.take f.arity) with
        | .ok value => .ok (value :: stack.drop f.arity)
        | .error e => .error (e, stack.drop f.arity)
      else .error (.message "not enough arguments", []) := by
  have hc : contains token = true := by simp [contains, hf]
  unfold CalculatingDblStack.push
  simp only [hc, if_true, map_at, hf]
  by_cases h : f.arity ≤ stack.length
  · rw [if_pos h, pop_operands_ok _ _ _ h]
    simp only [List.nil_append]
    cases f.call L (stack.take f.arity) <;> rfl
  · rw [if_neg h, pop_operands_short _ _ _ (by omega)]

theorem push_number (L : Libm D) {token : String} (hc : contains token = false)
    (stack : List D) :
    CalculatingDblStack.push L token stack =
      match CalculatingDblStack.strToDbl L token with
      | .ok value => .ok (value :: stack)
      | .error e => .error (e, stack) := by
  unfold CalculatingDblStack.push
  simp only [hc]
  cases CalculatingDblStack.strToDbl L token <;> rfl

/-- C10: for a token `t` that is not a catalogue name, `push(t)` goes by the
outcome of `std::stod`: on `invalid_argument` and on `out_of_range` it throws
the message of that case, on a conversion that read the whole string it pushes
the value, and on a conversion that stopped early it throws the third message;
each message holds `t` between `<` and `>`, and on a throw the value stack is
as before. -/
theorem push_literal (L : Libm D) (t : String) (stack : List D)
    (ht : contains t = false) :
    (L.stod t = .invalid_argument →
      CalculatingDblStack.push L t stack =
        .error (.message ("std::stod error: string <" ++ t ++
          "> is unconvertable to number"), stack)) ∧
    (L.stod t = .out_of_range →
      CalculatingDblStack.push L t stack =
        .error (.message ("std::stod error: string <" ++ t ++
          "> is to big for current number type (double)"), stack)) ∧
    (∀ value read, L.stod t = .converted value read →
      (read = t.utf8ByteSize →
        CalculatingDblStack.push L t stack = .ok (value :: stack)) ∧
      (read ≠ t.utf8ByteSize →
        CalculatingDblStack.push L t stack =
          .error (.message ("string <" ++ t ++ "> is unconvertable to number"), stack))) := by
  rw [push_number L ht]
  refine ⟨?_, ?_, ?_⟩
  · intro h
    simp [CalculatingDblStack.strToDbl, h]
  · intro h
    simp [CalculatingDblStack.strToDbl, h]
  · intro value read h
    constructor
    · intro hr
      simp [CalculatingDblStack.strToDbl, h, hr]
    · intro hr
      simp [CalculatingDblStack.strToDbl, h, Ne.symm hr]

/-- The token `12` pushed on the stack holding 7, on the integer instance. -/
theorem push_literal_witness :
    contains "12" = false ∧
    ((integer_libm.stod "12" = .invalid_argument →
      CalculatingDblStack.push integer_libm "12" [7] =
        .error (.message ("std::stod error: string <" ++ "12" ++
          "> is unconvertable to number"), [7])) ∧
    (integer_libm.stod "12" = .out_of_range →
      CalculatingDblStack.push integer_libm "12" [7] =
        .error (.message ("std::stod error: string <" ++ "12" ++
          "> is to big for current number type (double)"), [7])) ∧
    (∀ value read, integer_libm.stod "12" = .converted value read →
      (read = "12".utf8ByteSize →
        CalculatingDblStack.push integer_libm "12" [7] = .ok (value :: [7])) ∧
      (read ≠ "12".utf8ByteSize →
        CalculatingDblStack.push integer_libm "12" [7] =
          .error (.message ("string <" ++ "12" ++ "> is unconvertable to number"), [7])))) :=
  ⟨by decide, push_literal integer_libm "12" [7] (by decide)⟩

theorem token_arity_of_lookup {token : String} {f : Function}
    (hf : FUNCTION_MAP.lookup token = some f) : token_arity token = f.arity := by
  simp [token_arity, hf]

theorem token_arity_number {token : String} (hc : contains token = false) :
    token_arity token = 0 := by
  unfold contains at hc
  unfold token_arity
  cases hl : FUNCTION_MAP.lookup token with
  | none => rfl
  | some f => simp [hl] at hc

/-- One `push` on evaluable tokens: it throws "not enough arguments", leaving
the stack empty, when the stack holds fewer values than the arity, and
otherwise leaves `length + 1 - arity` values. -/
theorem push_evaluable (L : Libm D) {token : String} (he : evaluable L token = true)
    (stack : List D) :
    (stack.length < token_arity token ∧
      CalculatingDblStack.push L token stack = .error (.message "not enough arguments", [])) ∨
    (token_arity token ≤ stack.length ∧
      ∃ stack', CalculatingDblStack.push L token stack = .ok stack' ∧
        stack'.length + token_arity token = stack.length + 1) := by
  by_cases hc : contains token = true
  · obtain ⟨f, hf⟩ := map_at_function token hc
    rw [push_catalogue L hf, token_arity_of_lookup hf]
    by_cases h : f.arity ≤ stack.length
    · right
      refine ⟨h, ?_⟩
      rw [if_pos h]
      obtain ⟨v, hv⟩ := call_ok L f (stack.take f.arity) (by simp [h])
      rw [hv]
      exact ⟨_, rfl, by simp; omega⟩
    · left
      rw [if_neg h]
      exact ⟨by omega, rfl⟩
  · have hc' : contains token = false := by simpa using hc
    right
    rw [token_arity_number hc', push_number L hc']
    refine ⟨Nat.zero_le _, ?_⟩
    unfold evaluable at he
    rw [hc'] at he
    cases hs : CalculatingDblStack.strToDbl L token with
    | error e => simp [hs] at he
    | ok v => exact ⟨_, rfl, by simp⟩

theorem arity_sum_cons (t : String) (ts : List String) :
    arity_sum (t :: ts) = token_arity t + arity_sum ts := by
  simp [arity_sum]

theorem solution_loop_evaluable (L : Libm D) (tokens : List String) :
    ∀ (stack : List D) (result : D), (∀ t ∈ tokens, evaluable L t = true) →
      ((∃ p, p ≠ [] ∧ p <+: tokens ∧
          ((stack.length : Int) + p.length - arity_sum p < 1)) ∧
        ComputableStringExpression.solution_loop (CalculatingDblStack.push L) tokens stack
          result = .error (.message "not enough arguments", [])) ∨
      ((¬ ∃ p, p ≠ [] ∧ p <+: tokens ∧
          ((stack.length : Int) + p.length - arity_sum p < 1)) ∧
        ∃ stack' result',
          ComputableStringExpression.solution_loop (CalculatingDblStack.push L) tokens stack
            result = .ok (stack', result') ∧
          (stack'.length : Int) = stack.length + tokens.length - arity_sum tokens ∧
          (tokens ≠ [] → 1 ≤ stack'.length)) := by
  induction tokens with
  | nil =>
    intro stack result _
    right
    refine ⟨?_, stack, result, rfl, by simp [arity_sum], fun h => absurd rfl h⟩
    rintro ⟨p, hne, hp, -⟩
    exact hne (List.prefix_nil.1 hp)
  | cons t ts ih =>
    intro stack result hev
    have ht := hev t (List.mem_cons_self _ _)
    have hts : ∀ x ∈ ts, evaluable L x = true := fun x hx => hev x (List.mem_cons_of_mem _ hx)
    unfold ComputableStringExpression.solution_loop
    rcases push_evaluable L ht stack with ⟨hlt, hpush⟩ | ⟨hle, stack1, hpush, hlen⟩
    · left
      rw [hpush]
      refine ⟨⟨[t], by simp, by simp, ?_⟩, rfl⟩
      simp [arity_sum]
      omega
    · rw [hpush]
      cases stack1 with
      | nil =>
        simp at hlen
        omega
      | cons top below =>
        simp only [CalculatingDblStack.top]
        have hlen' : ((top :: below).length : Int) = stack.length + 1 - token_arity t := by
          omega
        rcases ih (top :: below) top hts with ⟨⟨p, hne, hp, hlow⟩, herr⟩ |
            ⟨hno, stack', result', hok, hlen2, hpos⟩
        · left
          refine ⟨⟨t :: p, by simp, by simpa using hp, ?_⟩, herr⟩
          rw [arity_sum_cons]
          simp only [List.length_cons] at hlow hlen' ⊢
          push_cast at hlow hlen' ⊢
          omega
        · right
          refine ⟨?_, stack', result', hok, ?_, ?_⟩
          · rintro ⟨p, hne, hp, hlow⟩
            cases p with
            | nil => exact hne rfl
            | cons x p =>
              obtain ⟨rfl, hp'⟩ := List.cons_prefix_cons.1 hp
              rw [arity_sum_cons] at hlow
              by_cases hpe : p = []
              · subst hpe
                simp [arity_sum] at hlow
                omega
              · apply hno
                refine ⟨p, hpe, hp', ?_⟩
                simp only [List.length_cons] at hlow hlen' ⊢
                push_cast at hlow hlen' ⊢
                omega
          · rw [hlen2, arity_sum_cons]
            simp only [List.length_cons] at hlen' ⊢
            push_cast at hlen' ⊢
            omega
          · intro _
            by_cases hte : ts = []
            · subst hte
              simp [ComputableStringExpression.solution_loop] at hok
              rw [← hok.1]
              simp
            · exact hpos hte

theorem solution_loop_underflow (L : Libm D) (tokens : List String) :
    ∀ (stack : List D) (result : D), (∀ t ∈ tokens, evaluable L t = true) →
      ((∃ e, ComputableStringExpression.solution_loop (CalculatingDblStack.push L) tokens
          stack result = .error e) ↔
        ∃ p t stack' result', p ++ [t] <+: tokens ∧
          ComputableStringExpression.solution_loop (CalculatingDblStack.push L) p stack
            result = .ok (stack', result') ∧
          stack'.length < token_arity t) := by
  induction tokens with
  | nil =>
    intro stack result _
    constructor
    · rintro ⟨e, he⟩
      simp [ComputableStringExpression.solution_loop] at he
    · rintro ⟨p, t, _, _, hp, -⟩
      have := List.prefix_nil.1 hp
      simp at this
  | cons t ts ih =>
    intro stack result hev
    have ht := hev t (List.mem_cons_self _ _)
    have hts : ∀ x ∈ ts, evaluable L x = true := fun x hx => hev x (List.mem_cons_of_mem _ hx)
    rcases push_evaluable L ht stack with ⟨hlt, hpush⟩ | ⟨hle, stack1, hpush, hlen⟩
    · constructor
      · intro _
        exact ⟨[], t, stack, result, by simp, rfl, hlt⟩
      · intro _
        exact ⟨_, by simp [ComputableStringExpression.solution_loop, hpush]; rfl⟩
    · cases stack1 with
      | nil =>
        simp at hlen
        omega
      | cons top below =>
        have hstep : ∀ l : List String,
            ComputableStringExpression.solution_loop (CalculatingDblStack.push L) (t :: l)
              stack result =
            ComputableStringExpression.solution_loop (CalculatingDblStack.push L) l
              (top :: below) top := by
          intro l
          simp [ComputableStringExpression.solution_loop, hpush, CalculatingDblStack.top]
        rw [hstep, ih (top :: below) top hts]
        constructor
        · rintro ⟨p, t', stack', result', hp, hok, hlt⟩
          refine ⟨t :: p, t', stack', result', by simpa using hp, ?_, hlt⟩
          rw [hstep]
          exact hok
        · rintro ⟨p, t', stack', result', hp, hok, hlt⟩
          cases p with
          | nil =>
            simp [ComputableStringExpression.solution_loop] at hok
            obtain ⟨rfl, -⟩ := hok
            have : t' = t := by simpa using hp
            subst this
            omega
          | cons x p =>
            obtain ⟨rfl, hp'⟩ := List.cons_prefix_cons.1 (by simpa using hp)
            rw [hstep] at hok
            exact ⟨p, t', stack', result', hp', hok, hlt⟩

/-- C9: on a postfix sequence whose non-catalogue tokens are all converted by
`strToDbl`, evaluation from the cleared value stack throws if and only if some
non-empty prefix has (number of tokens) minus (sum of the arities of its
operators) below 1; what it throws is "not enough arguments"; and it throws if
and only if some operator is reached, after a prefix evaluated without a
throw, with fewer values on the stack than its arity. -/
theorem evaluation_underflow (L : Libm D) (tokens : List String)
    (hnum : ∀ t ∈ tokens, contains t = false →
      ∃ value, CalculatingDblStack.strToDbl L t = .ok value) :
    ((∃ e, ComputableStringExpression.solution_loop (CalculatingDblStack.push L) tokens []
        L.zero = .error e) ↔
      ∃ p, p ≠ [] ∧ p <+: tokens ∧ ((p.length : Int) - arity_sum p < 1)) ∧
    (∀ e, ComputableStringExpression.solution_loop (CalculatingDblStack.push L) tokens []
        L.zero = .error e → e.1 = .message "not enough arguments") ∧
    ((∃ e, ComputableStringExpression.solution_loop (CalculatingDblStack.push L) tokens []
        L.zero = .error e) ↔
      ∃ p t stack result, p ++ [t] <+: tokens ∧
        ComputableStringExpression.solution_loop (CalculatingDblStack.push L) p []
          L.zero = .ok (stack, result) ∧
        stack.length < token_arity t) := by
  have hev : ∀ t ∈ tokens, evaluable L t = true := by
    intro t ht
    unfold evaluable
    by_cases hc : contains t = true
    · simp [hc]
    · obtain ⟨v, hv⟩ := hnum t ht (by simpa using hc)
      simp [hv]
  refine ⟨?_, ?_, solution_loop_underflow L tokens [] L.zero hev⟩
  · rcases solution_loop_evaluable L tokens [] L.zero hev with ⟨hp, herr⟩ |
        ⟨hno, stack', result', hok, -, -⟩
    · rw [herr]
      simp only [List.length_nil, Nat.cast_zero, zero_add] at hp
      exact ⟨fun _ => hp, fun _ => ⟨_, rfl⟩⟩
    · rw [hok]
      simp only [List.length_nil, Nat.cast_zero, zero_add] at hno
      refine ⟨fun h => ?_, fun h => absurd h hno⟩
      obtain ⟨e, he⟩ := h
      cases he
  · intro e he
    rcases solution_loop_evaluable L tokens [] L.zero hev with ⟨-, herr⟩ |
        ⟨-, stack', result', hok, -, -⟩
    · rw [herr] at he
      cases he
      rfl
    · rw [hok] at he
      cases he

/-! ## Evaluation of expression trees -/

theorem solution_loop_append (push : String → List D → Except (Thrown × List D) (List D))
    (a b : List String) :
    ∀ (stack : List D) (result : D),
      ComputableStringExpression.solution_loop push (a ++ b) stack result =
        match ComputableStringExpression.solution_loop push a stack result with
        | .error e => .error e
        | .ok (stack', result') =>
          ComputableStringExpression.solution_loop push b stack' result' := by
  induction a with
  | nil =>
    intro stack result
    rfl
  | cons t a ih =>
    intro stack result
    simp only [List.cons_append, ComputableStringExpression.solution_loop]
    cases push t stack with
    | error e => rfl
    | ok stack1 =>
      simp only
      cases CalculatingDblStack.top stack1 with
      | error e => rfl
      | ok r => exact ih stack1 r

theorem push_unary (L : Libm D) {name : String} (h : scn.unary name = true) (a : D)
    (stack : List D) :
    CalculatingDblStack.push L name (a :: stack) = .ok (unary_value L name a :: stack) := by
  rcases contains_cases name (unary_contains h) with
    h1 | h1 | h1 | h1 | h1 | h1 | h1 | h1 | h1 | h1 | h1 | h1 | h1 | h1 | h1 | h1 | h1
    <;> subst h1 <;> first | rfl | exact absurd h (by decide)

theorem push_binary (L : Libm D) {name : String} (h : scn.binary name = true) (a b : D)
    (stack : List D) :
    CalculatingDblStack.push L name (b :: a :: stack) =
      .ok (binary_value L name a b :: stack) := by
  rcases contains_cases name (binary_contains h) with
    h1 | h1 | h1 | h1 | h1 | h1 | h1 | h1 | h1 | h1 | h1 | h1 | h1 | h1 | h1 | h1 | h1
    <;> subst h1 <;> first | rfl | exact absurd h (by decide)

theorem solution_loop_postorder (L : Libm D) (tree : Tree) (h : tree.well_formed L = true) :
    ∀ (stack : List D) (result : D),
      ComputableStringExpression.solution_loop (CalculatingDblStack.push L) tree.postorder
        stack result = .ok (tree.value L :: stack, tree.value L) := by
  induction tree with
  | leaf token =>
    intro stack result
    simp only [Tree.well_formed, Bool.and_eq_true, Bool.not_eq_true'] at h
    obtain ⟨hc, hp⟩ := h
    simp only [Tree.postorder, Tree.value, ComputableStringExpression.solution_loop,
      push_number L hc]
    cases hs : CalculatingDblStack.strToDbl L token with
    | error e => simp [hs] at hp
    | ok v => rfl
  | unary name operand ih =>
    intro stack result
    simp only [Tree.well_formed, Bool.and_eq_true] at h
    simp only [Tree.postorder, Tree.value, solution_loop_append, ih h.2,
      ComputableStringExpression.solution_loop, push_unary L h.1, CalculatingDblStack.top]
  | binary name left right ihl ihr =>
    intro stack result
    simp only [Tree.well_formed, Bool.and_eq_true] at h
    simp only [Tree.postorder, Tree.value, solution_loop_append, ihl h.1.2, ihr h.2,
      ComputableStringExpression.solution_loop, push_binary L h.1.1, CalculatingDblStack.top]

/-- C3: for a tree whose leaves are tokens that parse as numbers, evaluating
its post-order token sequence from the cleared value stack throws nothing and
leaves exactly one value, the recursive value of the tree, in which a binary
node computes (left operand) op (right operand); this value is also the result
of the loop. -/
theorem postorder_evaluation (L : Libm D) (tree : Tree)
    (h : tree.well_formed L = true) :
    ComputableStringExpression.solution_loop (CalculatingDblStack.push L) tree.postorder []
      L.zero = .ok ([tree.value L], tree.value L) :=
  solution_loop_postorder L tree h [] L.zero

/-- The tree of `2 ^ unary - 1 ^ 2` of the test
`ComputableStringExpression.test_1`, on the integer instance: its post-order
sequence is what `postfixed()` returns, and it evaluates to 2. -/
theorem postorder_evaluation_witness :
    Tree.well_formed integer_libm
      (.binary "^" (.leaf "2") (.binary "^" (.unary "unary -" (.leaf "1")) (.leaf "2"))) = true ∧
    postfixed ["2", "^", "unary -", "1", "^", "2"] [] =
      .ok (Tree.postorder
        (.binary "^" (.leaf "2") (.binary "^" (.unary "unary -" (.leaf "1")) (.leaf "2")))) ∧
    ComputableStringExpression.solution_loop (CalculatingDblStack.push integer_libm)
      (Tree.postorder
        (.binary "^" (.leaf "2") (.binary "^" (.unary "unary -" (.leaf "1")) (.leaf "2"))))
      [] integer_libm.zero = .ok ([2], 2) :=
  ⟨by decide, rfl,
    postorder_evaluation integer_libm
      (.binary "^" (.leaf "2") (.binary "^" (.unary "unary -" (.leaf "1")) (.leaf "2")))
      (by decide)⟩

/-- The sequence `2 1 unary - ^ ^` of the claim, on the integer instance. -/
theorem evaluation_underflow_witness :
    (∀ t ∈ ["2", "1", "unary -", "^", "^"], contains t = false →
      ∃ value, CalculatingDblStack.strToDbl integer_libm t = .ok value) ∧
    ((∃ e, ComputableStringExpression.solution_loop (CalculatingDblStack.push integer_libm)
        ["2", "1", "unary -", "^", "^"] [] integer_libm.zero = .error e) ↔
      ∃ p, p ≠ [] ∧ p <+: ["2", "1", "unary -", "^", "^"] ∧
        ((p.length : Int) - arity_sum p < 1)) :=
  have hnum : ∀ t ∈ ["2", "1", "unary -", "^", "^"], contains t = false →
      ∃ value, CalculatingDblStack.strToDbl integer_libm t = .ok value := by
    intro t ht hc
    simp only [List.mem_cons, List.mem_singleton, List.not_mem_nil, or_false] at ht
    rcases ht with rfl | rfl | rfl | rfl | rfl
    · exact ⟨2, rfl⟩
    · exact ⟨1, rfl⟩
    · exact absurd hc (by decide)
    · exact absurd hc (by decide)
    · exact absurd hc (by decide)
  ⟨hnum, (evaluation_underflow integer_libm ["2", "1", "unary -", "^", "^"] hnum).1⟩

/-! ## The infix grammar -/

theorem tokenized_operand {token : String} (h : standalone token = false)
    (rest : List String) (hr : ∀ s ∈ rest.head?, standalone s = true) :
    tokenized (token :: rest) = token :: tokenized rest := by
  cases rest with
  | nil => simp [tokenized, number_loop, h]
  | cons s rest =>
    have hs : standalone s = true := hr s (by simp)
    simp [tokenized, number_loop, h, hs]

theorem tokenized_standalone {token : String} (h : standalone token = true)
    (rest : List String) : tokenized (token :: rest) = token :: tokenized rest := by
  simp [tokenized, h]

theorem standalone_of_contains {s : String} (h : contains s = true) : standalone s = true := by
  simp [standalone, h]

theorem tokenized_atoms {l : Level} (x : Phrase l) :
    ∀ rest : List String, (∀ s ∈ rest.head?, standalone s = true) →
      tokenized (x.atoms ++ rest) = x.atoms ++ tokenized rest := by
  induction x with
  | operand token h =>
    intro rest hr
    exact tokenized_operand h rest hr
  | applied u h x ih =>
    intro rest hr
    simp only [Phrase.atoms, List.cons_append]
    rw [tokenized_standalone (standalone_of_contains (unary_contains h)), ih rest hr]
  | bracketed e ih =>
    intro rest hr
    simp only [Phrase.atoms, List.cons_append, List.append_assoc]
    rw [tokenized_standalone (by decide), ih _ (by simp; decide),
      tokenized_standalone (by decide)]
    rfl
  | unit x ih => exact ih
  | power x p ihx ihp =>
    intro rest hr
    simp only [Phrase.atoms, List.cons_append, List.append_assoc]
    rw [ihx _ (by simp; decide), tokenized_standalone (by decide), ihp rest hr]
  | factor p ih => exact ih
  | product op h t p iht ihp =>
    intro rest hr
    have hs : standalone op = true := by
      rcases h with rfl | rfl | rfl <;> decide
    simp only [Phrase.atoms, List.cons_append, List.append_assoc]
    rw [iht _ (by simpa using hs), tokenized_standalone hs, ihp rest hr]
  | term t ih => exact ih
  | sum op h e t ihe iht =>
    intro rest hr
    have hs : standalone op = true := by
      rcases h with rfl | rfl <;> decide
    simp only [Phrase.atoms, List.cons_append, List.append_assoc]
    rw [ihe _ (by simpa using hs), tokenized_standalone hs, iht rest hr]

theorem precedence_binary_pos {s : String} (h : binary s = true) : 1 ≤ precedence s := by
  rcases contains_cases s (binary_contains h) with
    h1 | h1 | h1 | h1 | h1 | h1 | h1 | h1 | h1 | h1 | h1 | h1 | h1 | h1 | h1 | h1 | h1
    <;> subst h1 <;> decide

theorem outranks_of_pending {op s : String} (hl : left_assoc op = true)
    (hb : binary s = true) (hp : precedence op ≤ precedence s) : outranks op s = true := by
  unfold outranks
  rw [hb, hl]
  simp
  omega

theorem outranks_of_below {op s : String}
    (h : binary s = true → precedence s < precedence op) : outranks op s = false := by
  unfold outranks
  cases hb : binary s with
  | false => rfl
  | true =>
    have := h hb
    simp
    constructor
    · omega
    · intro he
      omega

theorem outranks_pow (s : String) : outranks "^" s = false := by
  unfold outranks
  cases hb : binary s with
  | false => rfl
  | true =>
    have := precedence_binary hb
    have hp : precedence "^" = 2 := by decide
    have hl : left_assoc "^" = false := by decide
    rw [hp, hl]
    simp
    omega

theorem takeWhile_of_head (p : String → Bool) (stack : List String)
    (h : ∀ s ∈ stack.head?, p s = false) :
    stack.takeWhile p = [] ∧ stack.dropWhile p = stack := by
  cases stack with
  | nil => exact ⟨rfl, rfl⟩
  | cons s stack =>
    have hs := h s (by simp)
    exact ⟨List.takeWhile_cons_of_neg (by simp [hs]), List.dropWhile_cons_of_neg (by simp [hs])⟩

theorem takeWhile_pending (p : String → Bool) (ops stack : List String)
    (ho : ∀ s ∈ ops, p s = true) (h : ∀ s ∈ stack.head?, p s = false) :
    (ops ++ stack).takeWhile p = ops ∧ (ops ++ stack).dropWhile p = stack := by
  induction ops with
  | nil => exact takeWhile_of_head p stack h
  | cons o ops ih =>
    have h1 := ho o (List.mem_cons_self _ _)
    have ih' := ih (fun s hs => ho s (List.mem_cons_of_mem _ hs))
    simp only [List.cons_append]
    rw [List.takeWhile_cons_of_pos h1, List.dropWhile_cons_of_pos h1]
    exact ⟨by rw [ih'.1], ih'.2⟩

theorem valid_append {ops stack : List String} (ho : ∀ s ∈ ops, binary s = true)
    (hv : Valid stack) : Valid (ops ++ stack) := by
  intro s hs
  rcases List.mem_append.1 hs with h | h
  · exact Or.inr (binary_contains (ho s h))
  · exact hv s h

theorem pending_nil_of_unit {ops : List String} (h : Pending .U ops) : ops = [] := by
  cases ops with
  | nil => rfl
  | cons s ops =>
    have := h s (List.mem_cons_self _ _)
    have h2 := precedence_binary this.1
    have h3 : (3 : Int) ≤ precedence s := this.2
    omega

theorem pending_binary {l : Level} {ops : List String} (h : Pending l ops) :
    ∀ s ∈ ops, binary s = true :=
  fun s hs => (h s hs).1

theorem binary_not_unary {s : String} (h : binary s = true) : unary s = false := by
  cases hu : unary s with
  | false => rfl
  | true =>
    rw [unary_not_binary hu] at h
    cases h

theorem topNotUnary_cons {s : String} (h : unary s = false) (stack : List String) :
    TopNotUnary (s :: stack) := by
  intro x hx
  simp at hx
  subst hx
  exact h

theorem postfixed_loop_cons (token : String) (tokens stack result : List String) :
    postfixed_loop (token :: tokens) stack result =
      match postfixed_token token stack result with
      | .error e => .error e
      | .ok (stack', result') => postfixed_loop tokens stack' result' := by
  cases h : postfixed_token token stack result with
  | error e => simp only [postfixed_loop, h]
  | ok sr => simp only [postfixed_loop, h]

theorem converts_operand {token : String} (h : standalone token = false) :
    Converts .U [token] [token] := by
  intro stack result hv _
  have hc : contains token = false := by
    cases hx : contains token with
    | false => rfl
    | true => simp [standalone, hx] at h
  have ho : token ≠ "(" := by
    rintro rfl
    exact absurd h (by decide)
  have hcl : token ≠ ")" := by
    rintro rfl
    exact absurd h (by decide)
  refine ⟨[], result ++ [token] ++ stack.takeWhile unary, ?_, by simp, ?_⟩
  · simp only [postfixed_loop, postfixed_token_operand hc ho hcl hv, List.nil_append]
  · intro s hs
    simp at hs

theorem converts_applied {u : String} (h : unary u = true) {atoms post : List String}
    (ih : Converts .U atoms post) : Converts .U (u :: atoms) (post ++ [u]) := by
  intro stack result hv _
  have hc := unary_contains h
  have hout := takeWhile_of_head (outranks u) stack
    (fun s _ => outranks_unary h s)
  obtain ⟨ops, out, hloop, hout2, hp⟩ := ih (u :: stack) result
    (Valid.cons_valid (Or.inr hc) hv)
    ⟨fun hne => absurd rfl hne, fun s hs hb => by
      simp at hs
      subst hs
      rw [unary_not_binary h] at hb
      cases hb⟩
  rw [List.dropWhile_cons_of_pos h] at hloop
  rw [List.takeWhile_cons_of_pos h] at hout2
  refine ⟨ops, out, ?_, ?_, hp⟩
  · simp only [postfixed_loop, postfixed_token_catalogue hc hv, hout.1, hout.2,
      List.append_nil]
    exact hloop
  · rw [hout2]
    simp

theorem converts_bracketed {atoms post : List String} (ih : Converts .E atoms post) :
    Converts .U ("(" :: atoms ++ [")"]) post := by
  intro stack result hv _
  have hv1 : Valid ("(" :: stack) := Valid.cons_valid (Or.inl rfl) hv
  obtain ⟨ops, out, hloop, hout, hp⟩ := ih ("(" :: stack) result hv1
    ⟨fun _ => topNotUnary_cons (by decide) stack, fun s hs hb => by
      simp at hs
      subst hs
      exact absurd hb (by decide)⟩
  rw [List.dropWhile_cons_of_neg (by decide)] at hloop
  rw [List.takeWhile_cons_of_neg (by decide)] at hout
  have hv2 : Valid (ops ++ "(" :: stack) := valid_append (pending_binary hp) hv1
  have hsplit := takeWhile_pending binary ops ("(" :: stack)
    (pending_binary hp) (fun s hs => by
      simp at hs
      subst hs
      decide)
  have hne : (ops ++ "(" :: stack).dropWhile binary ≠ [] := by
    rw [hsplit.2]
    simp
  refine ⟨[], out ++ ops ++ stack.takeWhile unary, ?_, ?_, fun s hs => by simp at hs⟩
  · rw [List.cons_append, postfixed_loop_cons, postfixed_token_open]
    simp only [postfixed_loop_append, hloop, postfixed_loop_cons,
      postfixed_token_close hv2 out hne, hsplit.1, hsplit.2, unbracket, if_true,
      List.nil_append, postfixed_loop]
  · rw [hout]
    simp

theorem converts_node {ll lr l : Level} {op : String} {a b pa pb : List String}
    (hop : binary op = true) (hl : l ≠ .U)
    (hadm : ∀ stack, Admissible l stack → Admissible ll stack)
    (hpend : ∀ s, binary s = true → ll.floor ≤ precedence s → outranks op s = true)
    (htop : ∀ s, (binary s = true → precedence s < l.ceiling) → outranks op s = false)
    (hceil : precedence op < lr.ceiling) (hfloor : l.floor ≤ precedence op)
    (hmono : l.floor ≤ lr.floor)
    (iha : Converts ll a pa) (ihb : Converts lr b pb) :
    Converts l (a ++ op :: b) (pa ++ pb ++ [op]) := by
  intro stack result hv had
  have hc := binary_contains hop
  have htnu : TopNotUnary stack := had.1 hl
  have hun := takeWhile_of_head unary stack htnu
  obtain ⟨ops1, out1, hloop1, hout1, hp1⟩ := iha stack result hv (hadm stack had)
  rw [hun.2] at hloop1
  rw [hun.1] at hout1
  have hv1 : Valid (ops1 ++ stack) := valid_append (pending_binary hp1) hv
  have hsplit := takeWhile_pending (outranks op) ops1 stack
    (fun s hs => hpend s (hp1 s hs).1 (hp1 s hs).2)
    (fun s hs => htop s (had.2 s hs))
  have hv2 : Valid (op :: stack) := Valid.cons_valid (Or.inr hc) hv
  obtain ⟨ops2, out2, hloop2, hout2, hp2⟩ := ihb (op :: stack) (out1 ++ ops1) hv2
    ⟨fun _ => topNotUnary_cons (binary_not_unary hop) stack, fun s hs _ => by
      simp at hs
      subst hs
      exact hceil⟩
  rw [List.dropWhile_cons_of_neg (by simp [binary_not_unary hop])] at hloop2
  rw [List.takeWhile_cons_of_neg (by simp [binary_not_unary hop])] at hout2
  refine ⟨ops2 ++ [op], out2, ?_, ?_, ?_⟩
  · simp only [postfixed_loop_append, hloop1, postfixed_loop,
      postfixed_token_catalogue hc hv1, hsplit.1, hsplit.2, hloop2, hun.2]
    simp
  · rw [hun.1, ← List.append_assoc, hout2, hout1]
    simp
  · intro s hs
    rcases List.mem_append.1 hs with h | h
    · exact ⟨(hp2 s h).1, le_trans hmono (hp2 s h).2⟩
    · simp at h
      subst h
      exact ⟨hop, hfloor⟩

theorem admissible_mono {l ll : Level} (hu : ll ≠ .U → l ≠ .U) (hc : l.ceiling ≤ ll.ceiling)
    {stack : List String} (h : Admissible l stack) : Admissible ll stack :=
  ⟨fun hne => h.1 (hu hne), fun s hs hb => lt_of_lt_of_le (h.2 s hs hb) hc⟩

theorem pending_mono {l ll : Level} (hf : l.floor ≤ ll.floor) {ops : List String}
    (h : Pending ll ops) : Pending l ops :=
  fun s hs => ⟨(h s hs).1, le_trans hf (h s hs).2⟩

theorem converts_lift {l ll : Level} (hu : ll ≠ .U → l ≠ .U) (hc : l.ceiling ≤ ll.ceiling)
    (hf : l.floor ≤ ll.floor) {atoms post : List String} (h : Converts ll atoms post) :
    Converts l atoms post := by
  intro stack result hv had
  obtain ⟨ops, out, h1, h2, h3⟩ := h stack result hv (admissible_mono hu hc had)
  exact ⟨ops, out, h1, h2, pending_mono hf h3⟩

theorem converts_phrase {l : Level} (x : Phrase l) :
    Converts l x.atoms x.tree.postorder := by
  induction x with
  | operand token h => exact converts_operand h
  | applied u h x ih => exact converts_applied h ih
  | bracketed e ih => exact converts_bracketed ih
  | unit x ih => exact converts_lift (fun h => absurd rfl h) (by decide) (by decide) ih
  | power x p ihx ihp =>
    refine converts_node (by decide) (by decide)
      (fun _ had => admissible_mono (fun h => absurd rfl h) (by decide) had)
      ?_ (fun s _ => outranks_pow s) (by decide) (by decide) (by decide) ihx ihp
    intro s hb hp
    have h2 := precedence_binary hb
    have h3 : (3 : Int) ≤ precedence s := hp
    omega
  | factor p ih => exact converts_lift (fun _ => by decide) (by decide) (by decide) ih
  | product op h t p iht ihp =>
    have hfacts : binary op = true ∧ precedence op = 2 ∧ left_assoc op = true := by
      rcases h with rfl | rfl | rfl <;> decide
    refine converts_node hfacts.1 (by decide) (fun _ had => had) ?_ ?_ ?_ ?_ (by decide) iht ihp
    · intro s hb hp
      refine outranks_of_pending hfacts.2.2 hb ?_
      rw [hfacts.2.1]
      exact hp
    · intro s hs
      refine outranks_of_below ?_
      rw [hfacts.2.1]
      exact hs
    · rw [hfacts.2.1]
      decide
    · rw [hfacts.2.1]
      decide
  | term t ih => exact converts_lift (fun _ => by decide) (by decide) (by decide) ih
  | sum op h e t ihe iht =>
    have hfacts : binary op = true ∧ precedence op = 1 ∧ left_assoc op = true := by
      rcases h with rfl | rfl <;> decide
    refine converts_node hfacts.1 (by decide) (fun _ had => had) ?_ ?_ ?_ ?_ (by decide) ihe iht
    · intro s hb hp
      refine outranks_of_pending hfacts.2.2 hb ?_
      rw [hfacts.2.1]
      exact hp
    · intro s hs
      refine outranks_of_below ?_
      rw [hfacts.2.1]
      exact hs
    · rw [hfacts.2.1]
      decide
    · rw [hfacts.2.1]
      decide

/-- C2: for every expression `x` the grammar `E ::= T | E (+|-) T`,
`T ::= P | T (*|/|mod) P`, `P ::= U | U ^ P`, `U ::= operand | u U | ( E )`
generates, `postfixed()` on the atoms of `x` throws nothing and returns the
post-order traversal of the parse tree of `x`. -/
theorem postfixed_grammar (x : Phrase .E) (stack : List String) :
    postfixed x.atoms stack = .ok x.tree.postorder := by
  have htok : tokenized x.atoms = x.atoms := by
    have := tokenized_atoms x [] (fun s hs => by simp at hs)
    simpa [tokenized] using this
  obtain ⟨ops, out, hloop, hout, hp⟩ := converts_phrase x [] [] valid_nil
    ⟨fun _ s hs => by simp at hs, fun s hs => by simp at hs⟩
  have hv : Valid ops := by
    have := valid_append (pending_binary hp) valid_nil
    simpa using this
  have hsplit := takeWhile_pending binary ops []
    (pending_binary hp) (fun s hs => by simp at hs)
  simp only [List.append_nil] at hsplit
  unfold postfixed postfixed_run
  rw [htok, hloop]
  simp only [List.dropWhile_nil, List.append_nil]
  rw [postfixed_end_eq hv, hsplit.2, if_pos rfl, hsplit.1, hout]
  simp

/-- The expression of the test `PostfixStringExpression.test_14`. -/
theorem postfixed_grammar_witness :
    test_14.atoms =
      ["3", "+", "4", "*", "2", "/", "(", "1", "-", "5", ")", "^", "2", "^", "3"] ∧
    postfixed ["3", "+", "4", "*", "2", "/", "(", "1", "-", "5", ")", "^", "2", "^", "3"] [] =
      .ok ["3", "4", "2", "*", "1", "5", "-", "2", "3", "^", "^", "/", "+"] :=
  ⟨by decide, postfixed_grammar test_14 []⟩

/-! ## Evaluation with the free variable -/

theorem strToDbl_error (L : Libm D) (str : String) {e : Thrown}
    (h : CalculatingDblStack.strToDbl L str = .error e) :
    ∃ m, e = .message m ∧ m ∈ parse_messages str := by
  unfold CalculatingDblStack.strToDbl at h
  cases hs : L.stod str with
  | invalid_argument =>
    simp only [hs] at h
    cases h
    exact ⟨_, rfl, by simp [parse_messages]⟩
  | out_of_range =>
    simp only [hs] at h
    cases h
    exact ⟨_, rfl, by simp [parse_messages]⟩
  | converted value read =>
    simp only [hs] at h
    by_cases hr : str.utf8ByteSize ≠ read
    · rw [if_pos hr] at h
      cases h
      exact ⟨_, rfl, by simp [parse_messages]⟩
    · rw [if_neg hr] at h
      cases h

theorem push_error (L : Libm D) (token : String) (stack : List D)
    {e : Thrown} {left : List D} (h : CalculatingDblStack.push L token stack = .error (e, left)) :
    ∃ m, e = .message m ∧ (m = "not enough arguments" ∨ m ∈ parse_messages token) := by
  by_cases hc : contains token = true
  · obtain ⟨f, hf⟩ := map_at_function token hc
    rw [push_catalogue L hf] at h
    by_cases ha : f.arity ≤ stack.length
    · rw [if_pos ha] at h
      obtain ⟨v, hv⟩ := call_ok L f (stack.take f.arity) (by simp [ha])
      rw [hv] at h
      cases h
    · rw [if_neg ha] at h
      cases h
      exact ⟨_, rfl, Or.inl rfl⟩
  · have hc' : contains token = false := by simpa using hc
    rw [push_number L hc'] at h
    cases hs : CalculatingDblStack.strToDbl L token with
    | ok v =>
      rw [hs] at h
      cases h
    | error e1 =>
      rw [hs] at h
      cases h
      obtain ⟨m, hm, hmem⟩ := strToDbl_error L token hs
      exact ⟨m, hm, Or.inr hmem⟩

theorem push_ok_ne_nil (L : Libm D) (token : String) (stack stack' : List D)
    (h : CalculatingDblStack.push L token stack = .ok stack') : stack' ≠ [] := by
  by_cases hc : contains token = true
  · obtain ⟨f, hf⟩ := map_at_function token hc
    rw [push_catalogue L hf] at h
    by_cases ha : f.arity ≤ stack.length
    · rw [if_pos ha] at h
      cases hcall : f.call L (stack.take f.arity) with
      | ok v =>
        rw [hcall] at h
        cases h
        simp
      | error e =>
        rw [hcall] at h
        cases h
    · rw [if_neg ha] at h
      cases h
  · have hc' : contains token = false := by simpa using hc
    rw [push_number L hc'] at h
    cases hs : CalculatingDblStack.strToDbl L token with
    | ok v =>
      rw [hs] at h
      cases h
      simp
    | error e1 =>
      rw [hs] at h
      cases h

theorem push_variable (L : Libm D) (v token : String) (stack : List D) :
    CalculatingStack_with_variable.push L v token stack =
      CalculatingDblStack.push L (substitute v token) stack := by
  unfold CalculatingStack_with_variable.push substitute
  split <;> rfl

theorem solution_loop_congr
    (push push' : String → List D → Except (Thrown × List D) (List D)) (f : String → String)
    (h : ∀ token stack, push token stack = push' (f token) stack) (tokens : List String) :
    ∀ (stack : List D) (result : D),
      ComputableStringExpression.solution_loop push tokens stack result =
        ComputableStringExpression.solution_loop push' (tokens.map f) stack result := by
  induction tokens with
  | nil =>
    intro stack result
    rfl
  | cons t ts ih =>
    intro stack result
    simp only [List.map_cons, ComputableStringExpression.solution_loop, h]
    cases push' (f t) stack with
    | error e => rfl
    | ok stack1 =>
      simp only
      cases CalculatingDblStack.top stack1 with
      | error e => rfl
      | ok r => exact ih stack1 r

theorem solution_loop_variable (L : Libm D) (v : String) (tokens : List String)
    (stack : List D) (result : D) :
    ComputableStringExpression.solution_loop (CalculatingStack_with_variable.push L v) tokens
      stack result =
    ComputableStringExpression.solution_loop (CalculatingDblStack.push L)
      (tokens.map (substitute v)) stack result :=
  solution_loop_congr _ _ (substitute v) (push_variable L v) tokens stack result

/-- What the loop of `solution()` over a plain `CalculatingDblStack` can do: it
throws a `std::string`, "not enough arguments" or a parse message of one of
the tokens, or it ends with `result` on top of a non-empty stack (or with the
initial `result` and stack when there is no token). -/
theorem solution_loop_outcome (L : Libm D) (tokens : List String) :
    ∀ (stack : List D) (result : D),
      (∃ m left, ComputableStringExpression.solution_loop (CalculatingDblStack.push L) tokens
          stack result = .error (.message m, left) ∧
        (m = "not enough arguments" ∨ ∃ t ∈ tokens, m ∈ parse_messages t)) ∨
      (∃ stack' result', ComputableStringExpression.solution_loop (CalculatingDblStack.push L)
          tokens stack result = .ok (stack', result') ∧
        (tokens = [] → stack' = stack ∧ result' = result) ∧
        (tokens ≠ [] → stack'.head? = some result')) := by
  induction tokens with
  | nil =>
    intro stack result
    exact Or.inr ⟨stack, result, rfl, fun _ => ⟨rfl, rfl⟩, fun h => absurd rfl h⟩
  | cons t ts ih =>
    intro stack result
    unfold ComputableStringExpression.solution_loop
    cases hp : CalculatingDblStack.push L t stack with
    | error e =>
      obtain ⟨e1, left⟩ := e
      obtain ⟨m, hm, hcases⟩ := push_error L t stack hp
      subst hm
      left
      refine ⟨m, left, rfl, ?_⟩
      rcases hcases with h | h
      · exact Or.inl h
      · exact Or.inr ⟨t, List.mem_cons_self _ _, h⟩
    | ok stack1 =>
      have hne := push_ok_ne_nil L t stack stack1 hp
      cases stack1 with
      | nil => exact absurd rfl hne
      | cons top below =>
        simp only [CalculatingDblStack.top]
        rcases ih (top :: below) top with ⟨m, left, herr, hm⟩ | ⟨stack', result', hok, hnil, hcons⟩
        · left
          refine ⟨m, left, herr, ?_⟩
          rcases hm with h | ⟨t', ht', h⟩
          · exact Or.inl h
          · exact Or.inr ⟨t', List.mem_cons_of_mem _ ht', h⟩
        · right
          refine ⟨stack', result', hok, fun h => absurd h (by simp), fun _ => ?_⟩
          by_cases hts : ts = []
          · obtain ⟨h1, h2⟩ := hnil hts
            rw [h1, h2]
            rfl
          · exact hcons hts

/-- What `postfixed()` can do: return a vector with the operator stack left
empty, or throw one of the two parenthesis messages. -/
theorem postfixed_run_outcome (expression stack : List String) :
    (∃ tokens, postfixed_run expression stack = .ok ([], tokens)) ∨
    postfixed_run expression stack = .error (.message "missing left parenthesis", []) ∨
    (∃ left, postfixed_run expression stack =
      .error (.message "missing right parenthesis", left)) := by
  unfold postfixed_run
  cases hl : postfixed_loop (tokenized expression) [] [] with
  | error e =>
    rw [postfixed_loop_error (tokenized expression) valid_nil hl]
    exact Or.inr (Or.inl rfl)
  | ok sr =>
    obtain ⟨s1, r1⟩ := sr
    obtain ⟨hv, -⟩ := postfixed_loop_open_count (tokenized expression) valid_nil hl
    simp only
    rw [postfixed_end_eq hv]
    by_cases he : s1.dropWhile binary = []
    · rw [if_pos he]
      exact Or.inl ⟨_, rfl⟩
    · rw [if_neg he]
      exact Or.inr (Or.inr ⟨_, rfl⟩)

theorem postfixed_of_run {expression stack left tokens : List String}
    (h : postfixed_run expression stack = .ok (left, tokens)) :
    postfixed expression stack = .ok tokens := by
  unfold postfixed
  rw [h]

/-- What `solution()` of the session can do: throw a `std::string`, or return a
value. In both cases the expression buffer, the variable string and the result
string are as before. -/
theorem solution_outcome (L : Libm D) (s : Session D) :
    ((∃ m, (ComputStrExpressionWithVariable.solution L s).1 = .error (.message m)) ∨
      (∃ d, (ComputStrExpressionWithVariable.solution L s).1 = .ok d)) ∧
    (ComputStrExpressionWithVariable.solution L s).2.expression = s.expression ∧
    (ComputStrExpressionWithVariable.solution L s).2.X_str_var = s.X_str_var ∧
    (ComputStrExpressionWithVariable.solution L s).2.result = s.result := by
  refine ⟨?_, rfl, rfl, rfl⟩
  unfold ComputStrExpressionWithVariable.solution ComputableStringExpression.solution
  rcases postfixed_run_outcome s.expression s.oper_stack with ⟨tokens, h⟩ | h | ⟨left, h⟩
  · simp only [h, solution_loop_variable]
    rcases solution_loop_outcome L (tokens.map (substitute s.X_str_var)) [] L.zero with
      ⟨m, left, herr, -⟩ | ⟨stack', result', hok, -, -⟩
    · rw [herr]
      exact Or.inl ⟨m, rfl⟩
    · rw [hok]
      exact Or.inr ⟨result', rfl⟩
  · simp only [h]
    exact Or.inl ⟨_, rfl⟩
  · simp only [h]
    exact Or.inl ⟨_, rfl⟩

theorem postfixed_run_of_ok {expression stack tokens : List String}
    (h : postfixed expression stack = .ok tokens) :
    postfixed_run expression stack = .ok ([], tokens) := by
  rcases postfixed_run_outcome expression stack with ⟨tokens', h'⟩ | h' | ⟨left, h'⟩
  · rw [postfixed_of_run h'] at h
    cases h
    exact h'
  · unfold postfixed at h
    rw [h'] at h
    cases h
  · unfold postfixed at h
    rw [h'] at h
    cases h

theorem solution_of_tokens (L : Libm D) (s : Session D) {tokens : List String}
    (h : postfixed s.expression s.oper_stack = .ok tokens) :
    ComputStrExpressionWithVariable.solution L s =
      match ComputableStringExpression.solution_loop
          (CalculatingStack_with_variable.push L s.X_str_var) tokens [] L.zero with
      | .error (e, calc_stack) =>
        (.error e, { s with oper_stack := [], stack_simple := calc_stack })
      | .ok (calc_stack, result) =>
        (.ok result, { s with oper_stack := [], stack_simple := calc_stack }) := by
  unfold ComputStrExpressionWithVariable.solution ComputableStringExpression.solution
  rw [postfixed_run_of_ok h]
  simp only
  cases ComputableStringExpression.solution_loop
      (CalculatingStack_with_variable.push L s.X_str_var) tokens [] L.zero with
  | error e =>
    obtain ⟨e1, left⟩ := e
    rfl
  | ok r =>
    obtain ⟨stack, result⟩ := r
    rfl

/-- C11: for a variable string `v` that is a literal token (not a catalogue
name) which `strToDbl` converts to `d`: after `edit_variable(v)` the
expression made of the single atom `X` evaluates to `d`; a token `X` pushes
`d`, as the literal token `v` does; and the evaluation of any postfix sequence
is the evaluation of the sequence with every `X` replaced by `v`. -/
theorem variable_evaluation (L : Libm D) (v : String) (d : D)
    (hv : contains v = false) (hd : CalculatingDblStack.strToDbl L v = .ok d) :
    (∀ s : Session D, s.expression = ["X"] →
      (ComputStrExpressionWithVariable.solution L
        (ComputStrExpressionWithVariable.edit_variable v s)).1 = .ok d) ∧
    (∀ stack : List D,
      CalculatingStack_with_variable.push L v "X" stack = .ok (d :: stack) ∧
      CalculatingDblStack.push L v stack = .ok (d :: stack)) ∧
    (∀ (tokens : List String) (stack : List D) (result : D),
      ComputableStringExpression.solution_loop (CalculatingStack_with_variable.push L v)
        tokens stack result =
      ComputableStringExpression.solution_loop (CalculatingDblStack.push L)
        (tokens.map (fun t => if t = "X" then v else t)) stack result) := by
  have hpush : ∀ stack : List D, CalculatingDblStack.push L v stack = .ok (d :: stack) := by
    intro stack
    rw [push_number L hv, hd]
  have hx : ∀ stack : List D,
      CalculatingStack_with_variable.push L v "X" stack = .ok (d :: stack) := by
    intro stack
    rw [push_variable, show substitute v "X" = v from rfl, hpush]
  refine ⟨?_, fun stack => ⟨hx stack, hpush stack⟩, ?_⟩
  · intro s hs
    have hp : postfixed (ComputStrExpressionWithVariable.edit_variable v s).expression
        (ComputStrExpressionWithVariable.edit_variable v s).oper_stack = .ok ["X"] := by
      show postfixed s.expression s.oper_stack = .ok ["X"]
      rw [hs]
      rfl
    have hloop : ComputableStringExpression.solution_loop
        (CalculatingStack_with_variable.push L
          (ComputStrExpressionWithVariable.edit_variable v s).X_str_var) ["X"] [] L.zero =
        .ok ([d], d) := by
      show ComputableStringExpression.solution_loop
        (CalculatingStack_with_variable.push L v) ["X"] [] L.zero = .ok ([d], d)
      simp only [ComputableStringExpression.solution_loop, hx, CalculatingDblStack.top]
    rw [solution_of_tokens L _ hp, hloop]
  · intro tokens stack result
    exact solution_loop_variable L v tokens stack result

/-- The variable string `1` on the integer instance. -/
theorem variable_evaluation_witness :
    contains "1" = false ∧ CalculatingDblStack.strToDbl integer_libm "1" = .ok 1 ∧
    (∀ s : Session Int, s.expression = ["X"] →
      (ComputStrExpressionWithVariable.solution integer_libm
        (ComputStrExpressionWithVariable.edit_variable "1" s)).1 = .ok 1) :=
  ⟨by decide, rfl, (variable_evaluation integer_libm "1" 1 (by decide) rfl).1⟩

/-- The expression `2 ^ unary - X ^ 2` with the variable string `1`, of the
test `VariableCalculator.test_0`, on the integer instance. -/
theorem variable_test_0 :
    (ComputStrExpressionWithVariable.solution integer_libm
      (ComputStrExpressionWithVariable.edit_variable "1"
        ⟨["2", "^", "unary -", "X", "^", "2"], [], [], "", ""⟩)).1 = .ok 2 :=
  rfl

/-- C12, the claim as stated, fails: the variable string `sin` is not a number
for `strToDbl`, yet the sequence `1 X` evaluates to a value, the token `X`
applying the operator `sin`; and with the variable string `+` the sequence `X`
throws "not enough arguments", which is no parse message. -/
theorem variable_operator_name :
    CalculatingDblStack.strToDbl integer_libm "sin" =
      .error (.message "std::stod error: string <sin> is unconvertable to number") ∧
    ComputableStringExpression.solution_loop
      (CalculatingStack_with_variable.push integer_libm "sin") ["1", "X"] [] 0 =
      .ok ([1], 1) ∧
    CalculatingDblStack.strToDbl integer_libm "+" =
      .error (.message "std::stod error: string <+> is unconvertable to number") ∧
    ComputableStringExpression.solution_loop
      (CalculatingStack_with_variable.push integer_libm "+") ["X"] [] 0 =
      .error (.message "not enough arguments", []) :=
  ⟨rfl, rfl, rfl, rfl⟩

/-- C12, amended: for a variable string `v` that is not a catalogue name and
that `strToDbl` does not convert, the evaluation of a postfix sequence throws,
when it reaches a token `X` after a prefix evaluated without a throw, the
parse message `strToDbl` throws for `v`, one of the three messages that hold
`v`; the value stack is then as the prefix left it. -/
theorem variable_unparsable (L : Libm D) (v : String) (e : Thrown)
    (hv : contains v = false) (he : CalculatingDblStack.strToDbl L v = .error e)
    (before after : List String) (stack : List D) (result : D)
    (hp : ComputableStringExpression.solution_loop (CalculatingStack_with_variable.push L v)
      before [] L.zero = .ok (stack, result)) :
    ComputableStringExpression.solution_loop (CalculatingStack_with_variable.push L v)
      (before ++ "X" :: after) [] L.zero = .error (e, stack) ∧
    ∃ m, e = .message m ∧
      (m = "std::stod error: string <" ++ v ++ "> is unconvertable to number" ∨
       m = "std::stod error: string <" ++ v ++
          "> is to big for current number type (double)" ∨
       m = "string <" ++ v ++ "> is unconvertable to number") := by
  constructor
  · rw [solution_loop_append, hp]
    simp only [ComputableStringExpression.solution_loop, push_variable,
      show substitute v "X" = v from rfl, push_number L hv, he]
  · obtain ⟨m, hm, hmem⟩ := strToDbl_error L v he
    refine ⟨m, hm, ?_⟩
    simpa [parse_messages] using hmem

/-- The variable string `a` and the sequence `2 X ^` on the integer
instance. -/
theorem variable_unparsable_witness :
    contains "a" = false ∧
    ComputableStringExpression.solution_loop
      (CalculatingStack_with_variable.push integer_libm "a") ["2", "X", "^"] [] 0 =
      .error (.message "std::stod error: string <a> is unconvertable to number", [2]) :=
  ⟨by decide,
    (variable_unparsable integer_libm "a"
      (.message "std::stod error: string <a> is unconvertable to number") (by decide) rfl
      ["2"] ["^"] [2] 2 rfl).1⟩

/-- C13: on the empty buffer `tokenized()` and `postfixed()` return the empty
sequence and `solution()` returns 0 and throws nothing; and `solution()`
returns 0 whenever `postfixed()` returns the empty sequence. -/
theorem empty_evaluation (L : Libm D) :
    tokenized [] = [] ∧
    (∀ stack, postfixed [] stack = .ok []) ∧
    (∀ s : Session D, s.expression = [] →
      (ComputStrExpressionWithVariable.solution L s).1 = .ok L.zero) ∧
    (∀ s : Session D, postfixed s.expression s.oper_stack = .ok [] →
      (ComputStrExpressionWithVariable.solution L s).1 = .ok L.zero) := by
  have hgen : ∀ s : Session D, postfixed s.expression s.oper_stack = .ok [] →
      (ComputStrExpressionWithVariable.solution L s).1 = .ok L.zero := by
    intro s hs
    rw [solution_of_tokens L s hs]
    rfl
  refine ⟨rfl, fun _ => rfl, ?_, hgen⟩
  intro s hs
  apply hgen
  rw [hs]
  rfl

/-- The atoms `( )` of the test `PostfixStringExpression.test_6`, on the integer
instance. -/
theorem empty_evaluation_witness :
    postfixed ["(", ")"] [] = .ok [] ∧
    (ComputStrExpressionWithVariable.solution integer_libm
      ⟨["(", ")"], [], [], "", ""⟩).1 = .ok 0 :=
  ⟨rfl, (empty_evaluation integer_libm).2.2.2 ⟨["(", ")"], [], [], "", ""⟩ rfl⟩

/-- C14: when `postfixed()` returns a non-empty sequence and its evaluation
throws nothing, `solution()` returns the value on top of the value stack the
last token left, however many values that stack holds. -/
theorem solution_top (L : Libm D) (s : Session D) (tokens : List String)
    (stack : List D) (result : D)
    (hp : postfixed s.expression s.oper_stack = .ok tokens) (hne : tokens ≠ [])
    (hl : ComputableStringExpression.solution_loop
      (CalculatingStack_with_variable.push L s.X_str_var) tokens [] L.zero =
        .ok (stack, result)) :
    (ComputStrExpressionWithVariable.solution L s).1 = .ok result ∧
    (ComputStrExpressionWithVariable.solution L s).2.stack_simple = stack ∧
    stack.head? = some result := by
  rw [solution_of_tokens L s hp, hl]
  refine ⟨rfl, rfl, ?_⟩
  rw [solution_loop_variable] at hl
  rcases solution_loop_outcome L (tokens.map (substitute s.X_str_var)) [] L.zero with
    ⟨m, left, herr, -⟩ | ⟨stack', result', hok, -, hcons⟩
  · rw [herr] at hl
    cases hl
  · rw [hok] at hl
    cases hl
    exact hcons (by simpa using hne)

/-- The atoms `( 1 ) ( 2 )` on the integer instance: two values are left on the
stack and the result is 2. -/
theorem solution_top_witness :
    postfixed ["(", "1", ")", "(", "2", ")"] [] = .ok ["1", "2"] ∧
    (ComputStrExpressionWithVariable.solution integer_libm
      ⟨["(", "1", ")", "(", "2", ")"], [], [], "", ""⟩).1 = .ok 2 ∧
    (ComputStrExpressionWithVariable.solution integer_libm
      ⟨["(", "1", ")", "(", "2", ")"], [], [], "", ""⟩).2.stack_simple = [2, 1] ∧
    [(2 : Int), 1].head? = some 2 :=
  ⟨rfl, solution_top integer_libm ⟨["(", "1", ")", "(", "2", ")"], [], [], "", ""⟩
    ["1", "2"] [2, 1] 2 rfl (by decide) rfl⟩

/-- The atoms `unary + unary - ( 2 ) 3` of the test
`PostfixStringExpression.test_31`, on the integer instance. -/
theorem solution_test_31 :
    postfixed ["unary +", "unary -", "(", "2", ")", "3"] [] =
      .ok ["2", "unary -", "unary +", "3"] ∧
    ComputStrExpressionWithVariable.solution integer_libm
      ⟨["unary +", "unary -", "(", "2", ")", "3"], [], [], "", ""⟩ =
      (.ok 3, ⟨["unary +", "unary -", "(", "2", ")", "3"], [], [3, -2], "", ""⟩) :=
  ⟨rfl, rfl⟩

/-! ## The session: display string, buttons and the result slot -/

theorem string_foldl (expression : List String) (acc : String) :
    expression.foldl
      (fun result lexeme =>
        if lexeme = "unary +" then result ++ "+"
        else if lexeme = "unary -" then result ++ "-"
        else result ++ lexeme) acc =
    (expression.map display).foldl (fun r s => r ++ s) acc := by
  induction expression generalizing acc with
  | nil => rfl
  | cons a rest ih =>
    simp only [List.foldl_cons, List.map_cons]
    rw [ih]
    congr 1
    unfold display
    split
    · rfl
    · split <;> rfl

/-- C15: `string()`, and so `expression()`, is the concatenation in order of
what each atom of the buffer contributes: `+` for `unary +`, the hyphen-minus
`-` for `unary -`, and the atom itself otherwise. -/
theorem string_concatenation (s : Session D) :
    PostfixStringExpression.string s.expression =
      String.join (s.expression.map
        (fun atom => if atom = "unary +" then "+" else if atom = "unary -" then "-" else atom)) ∧
    CalculatorModel.expression s =
      String.join (s.expression.map
        (fun atom => if atom = "unary +" then "+" else if atom = "unary -" then "-" else atom)) := by
  have h : PostfixStringExpression.string s.expression =
      String.join (s.expression.map display) := by
    unfold PostfixStringExpression.string String.join
    exact string_foldl s.expression ""
  exact ⟨h, h⟩

/-- The buffers of the test `ComputableStringExpression.test_0`. -/
theorem string_test_0 :
    PostfixStringExpression.string ["unary +", "unary -", "."] = "+-." ∧
    PostfixStringExpression.string ["sin", "E+", "."] = "sinE+." ∧
    PostfixStringExpression.string [] = "" :=
  ⟨by decide, by decide, by decide⟩

theorem modify_backspace (P : Fpu D) (s : Session D) :
    CalculatorModel.modify P "<-" s = .ok { s with expression := s.expression.dropLast } := by
  simp [CalculatorModel.modify, ComputStrExpressionWithVariable.edit,
    PostfixStringExpression.edit]

theorem take_dropLast (e : List String) (k : Nat) :
    e.dropLast.take (e.dropLast.length - k) = e.take (e.length - (k + 1)) := by
  rw [List.length_dropLast, List.dropLast_eq_take, List.take_take]
  congr 1
  omega

theorem presses_backspace (P : Fpu D) (k : Nat) :
    ∀ s : Session D, presses P (List.replicate k "<-") s =
      .ok { s with expression := s.expression.take (s.expression.length - k) } := by
  induction k with
  | zero =>
    intro s
    simp [presses]
  | succ k ih =>
    intro s
    simp only [List.replicate_succ, presses, modify_backspace, ih]
    rw [take_dropLast]

/-- C16: `k` presses of `<-` leave the first `n - k` atoms of a buffer of `n`
atoms (none when `k` exceeds `n`): one press removes the last atom, a press on
the empty buffer changes nothing, and after `n` presses or more the buffer is
empty. -/
theorem backspace_presses (P : Fpu D) (s : Session D) (k : Nat) :
    presses P (List.replicate k "<-") s =
      .ok { s with expression := s.expression.take (s.expression.length - k) } ∧
    (PostfixStringExpression.edit "<-")^[k] s.expression =
      s.expression.take (s.expression.length - k) ∧
    PostfixStringExpression.edit "<-" s.expression = s.expression.dropLast ∧
    PostfixStringExpression.edit "<-" [] = [] ∧
    (s.expression.length ≤ k →
      presses P (List.replicate k "<-") s = .ok { s with expression := [] }) := by
  have hedit : ∀ e : List String, PostfixStringExpression.edit "<-" e = e.dropLast := by
    intro e
    simp [PostfixStringExpression.edit]
  refine ⟨presses_backspace P k s, ?_, hedit _, rfl, ?_⟩
  · generalize s.expression = e
    induction k generalizing e with
    | zero => simp
    | succ k ih =>
      rw [Function.iterate_succ_apply, ih, hedit, take_dropLast]
  · intro hk
    rw [presses_backspace]
    have : s.expression.length - k = 0 := by omega
    rw [this]
    rfl

/-- The buffer `sin E+ .` of the test `CalculatorModel.test_0` and four
presses of `<-`, on the integer instance. -/
theorem backspace_presses_witness :
    ["sin", "E+", "."].length ≤ 4 ∧
    presses integer_fpu (List.replicate 4 "<-") ⟨["sin", "E+", "."], [], [], "", ""⟩ =
      .ok ⟨[], [], [], "", ""⟩ :=
  ⟨by decide,
    (backspace_presses integer_fpu ⟨["sin", "E+", "."], [], [], "", ""⟩ 4).2.2.2.2
      (by decide)⟩

/-- C17: in every session state `modify("AC")` returns, and afterwards
`expression()` and `some_result()` are the empty string. -/
theorem all_clear (P : Fpu D) (s : Session D) :
    ∃ s', CalculatorModel.modify P "AC" s = .ok s' ∧
      CalculatorModel.expression s' = "" ∧ CalculatorModel.some_result s' = "" :=
  ⟨_, rfl, rfl, rfl⟩

theorem solution_error (L : Libm D) (s : Session D) {e : Thrown}
    (h : (ComputStrExpressionWithVariable.solution L s).1 = .error e) :
    ∃ m, e = .message m ∧
      (m = "missing left parenthesis" ∨ m = "missing right parenthesis" ∨
        m = "not enough arguments" ∨ ∃ t, m ∈ parse_messages t) := by
  unfold ComputStrExpressionWithVariable.solution ComputableStringExpression.solution at h
  rcases postfixed_run_outcome s.expression s.oper_stack with ⟨tokens, hr⟩ | hr | ⟨left, hr⟩
  · simp only [hr, solution_loop_variable] at h
    rcases solution_loop_outcome L (tokens.map (substitute s.X_str_var)) [] L.zero with
      ⟨m, left, herr, hm⟩ | ⟨stack', result', hok, -, -⟩
    · rw [herr] at h
      cases h
      refine ⟨m, rfl, ?_⟩
      rcases hm with hm | ⟨t, -, hm⟩
      · exact Or.inr (Or.inr (Or.inl hm))
      · exact Or.inr (Or.inr (Or.inr ⟨t, hm⟩))
    · rw [hok] at h
      cases h
  · simp only [hr] at h
    cases h
    exact ⟨_, rfl, Or.inl rfl⟩
  · simp only [hr] at h
    cases h
    exact ⟨_, rfl, Or.inr (Or.inl rfl)⟩

theorem readble_dblToStr_outcome (P : Fpu D) (num : D) :
    (∃ text, CalculatorModel.readble_dblToStr P num = .ok text) ∨
    (∃ m, CalculatorModel.readble_dblToStr P num = .error (.message m)) := by
  unfold CalculatorModel.readble_dblToStr
  split
  rename_i written buffer _
  by_cases h1 : written < 0
  · rw [if_pos h1]
    exact Or.inr ⟨_, rfl⟩
  · rw [if_neg h1]
    by_cases h2 : written ≥ ((P.DBL_DIG * 2 : Nat) : Int)
    · rw [if_pos h2]
      exact Or.inr ⟨_, rfl⟩
    · rw [if_neg h2]
      exact Or.inl ⟨_, rfl⟩

theorem modify_equals (P : Fpu D) (s : Session D) :
    CalculatorModel.modify P "=" s =
      .ok { (ComputStrExpressionWithVariable.solution P.toLibm s).2 with
        result := stored P (ComputStrExpressionWithVariable.solution P.toLibm s).1 } := by
  have hout := (solution_outcome P.toLibm s).1
  unfold CalculatorModel.modify
  rw [if_neg (by decide), if_pos rfl]
  generalize ComputStrExpressionWithVariable.solution P.toLibm s = r at hout
  obtain ⟨outcome, s1⟩ := r
  rcases hout with ⟨m, hm⟩ | ⟨d, hd⟩
  · simp only at hm
    subst hm
    rfl
  · simp only at hd
    subst hd
    rcases readble_dblToStr_outcome P d with ⟨text, ht⟩ | ⟨m, hm⟩
    · simp only [stored, ht]
    · simp only [stored, hm]

/-- C18: `modify("=")` returns, and afterwards `some_result()` is the message
`m` when `solution()` throws `m`, and the text `readble_dblToStr` returns for
`d` when `solution()` returns `d` (the message of `readble_dblToStr` if that
throws); what `solution()` throws is a `std::string`: one of the two
parenthesis messages, "not enough arguments", or a parse message holding some
string `t`. -/
theorem equals_result (P : Fpu D) (s : Session D) :
    (∀ m, (ComputStrExpressionWithVariable.solution P.toLibm s).1 = .error (.message m) →
      ∃ s', CalculatorModel.modify P "=" s = .ok s' ∧ CalculatorModel.some_result s' = m) ∧
    (∀ d, (ComputStrExpressionWithVariable.solution P.toLibm s).1 = .ok d →
      ∃ s', CalculatorModel.modify P "=" s = .ok s' ∧
        (∀ text, CalculatorModel.readble_dblToStr P d = .ok text →
          CalculatorModel.some_result s' = text) ∧
        (∀ m, CalculatorModel.readble_dblToStr P d = .error (.message m) →
          CalculatorModel.some_result s' = m)) ∧
    (∀ e, (ComputStrExpressionWithVariable.solution P.toLibm s).1 = .error e →
      ∃ m, e = .message m ∧
        (m = "missing left parenthesis" ∨ m = "missing right parenthesis" ∨
          m = "not enough arguments" ∨
          ∃ t, m = "std::stod error: string <" ++ t ++ "> is unconvertable to number" ∨
            m = "std::stod error: string <" ++ t ++
              "> is to big for current number type (double)" ∨
            m = "string <" ++ t ++ "> is unconvertable to number")) := by
  refine ⟨?_, ?_, ?_⟩
  · intro m hm
    refine ⟨_, modify_equals P s, ?_⟩
    simp only [CalculatorModel.some_result, hm, stored]
  · intro d hd
    refine ⟨_, modify_equals P s, ?_, ?_⟩
    · intro text ht
      simp only [CalculatorModel.some_result, hd, stored, ht]
    · intro m hm
      simp only [CalculatorModel.some_result, hd, stored, hm]
  · intro e he
    obtain ⟨m, hm, hcases⟩ := solution_error P.toLibm s he
    refine ⟨m, hm, ?_⟩
    rcases hcases with h | h | h | ⟨t, h⟩
    · exact Or.inl h
    · exact Or.inr (Or.inl h)
    · exact Or.inr (Or.inr (Or.inl h))
    · exact Or.inr (Or.inr (Or.inr ⟨t, by simpa [parse_messages] using h⟩))

/-- The atoms `X ^ 2 -` with the variable string `1`, of the test
`CalculatorModel.test_5`, on the integer instance. -/
theorem equals_result_witness :
    (ComputStrExpressionWithVariable.solution integer_fpu.toLibm
      ⟨["X", "^", "2", "-"], [], [], "1", ""⟩).1 = .error (.message "not enough arguments") ∧
    ∃ s', CalculatorModel.modify integer_fpu "=" ⟨["X", "^", "2", "-"], [], [], "1", ""⟩ =
        .ok s' ∧
      CalculatorModel.some_result s' = "not enough arguments" :=
  ⟨rfl, (equals_result integer_fpu ⟨["X", "^", "2", "-"], [], [], "1", ""⟩).1
    "not enough arguments" rfl⟩

set_option maxRecDepth 100000 in
/-- The atoms `2 ^ unary - X ^ 2` with the variable string `1`, of the test
`CalculatorModel.test_2`, on the integer instance. -/
theorem equals_test_2 :
    CalculatorModel.modify integer_fpu "="
      ⟨["2", "^", "unary -", "X", "^", "2"], [], [], "1", ""⟩ =
      .ok ⟨["2", "^", "unary -", "X", "^", "2"], [], [2], "1", "2"⟩ :=
  rfl

/-- C19: `modify("=")` returns, whether `solution()` returns or throws, and
afterwards the expression buffer, and so `expression()`, and the variable
string are as before the call. -/
theorem equals_frame (P : Fpu D) (s : Session D) :
    ∃ s', CalculatorModel.modify P "=" s = .ok s' ∧
      s'.expression = s.expression ∧
      CalculatorModel.expression s' = CalculatorModel.expression s ∧
      s'.X_str_var = s.X_str_var :=
  ⟨_, modify_equals P s, rfl, rfl, rfl⟩

/-! ## The plotter and the session -/

theorem sampled_refl (P : Fpu D) (s : Session D) : Sampled P s s :=
  ⟨rfl, rfl, Or.inl rfl⟩

theorem sampled_trans (P : Fpu D) {s s1 s2 : Session D} (h1 : Sampled P s s1)
    (h2 : Sampled P s1 s2) : Sampled P s s2 := by
  refine ⟨h2.1.trans h1.1, h2.2.1.trans h1.2.1, ?_⟩
  rcases h2.2.2 with h | h
  · rw [h]
    exact h1.2.2
  · exact Or.inr h

theorem sample_sampled (P : Fpu D) (x : D) (s : Session D) :
    ∀ s', (PlotableExpression.sample P x s).final = some s' → Sampled P s s' := by
  intro s' h
  unfold PlotableExpression.sample at h
  cases hp : PlotableExpression.precise_dblToStr P x with
  | error e =>
    rw [hp] at h
    simp only [Outcome.final, Option.some.injEq] at h
    subst h
    exact sampled_refl P s
  | ok text =>
    rw [hp] at h
    simp only at h
    have hs := (solution_outcome P.toLibm
      (ComputStrExpressionWithVariable.edit_variable text s)).2
    generalize ComputStrExpressionWithVariable.solution P.toLibm
      (ComputStrExpressionWithVariable.edit_variable text s) = r at h hs
    obtain ⟨outcome, s1⟩ := r
    have hfinal : s1 = s' := by
      cases outcome with
      | error e => simpa [Outcome.final] using h
      | ok y => simpa [Outcome.final] using h
    subst hfinal
    exact ⟨hs.1, hs.2.2, Or.inr ⟨x, by rw [hp]; exact congrArg _ hs.2.1.symm⟩⟩

theorem recursive_plot_sampled (P : Fpu D) (fuel : Nat) :
    ∀ (x_min x_max delta_y y_min y_max y_lo y_hi : D) (s s' : Session D),
      (PlotableExpression.recursive_plot P fuel x_min x_max delta_y y_min y_max y_lo y_hi
        s).final = some s' → Sampled P s s' := by
  induction fuel with
  | zero =>
    intro x_min x_max delta_y y_min y_max y_lo y_hi s s' h
    simp [PlotableExpression.recursive_plot, Outcome.final] at h
  | succ fuel ih =>
    intro x_min x_max delta_y y_min y_max y_lo y_hi s s' h
    unfold PlotableExpression.recursive_plot at h
    have hsample := sample_sampled P (P.div (P.add x_min x_max) (P.of_int 2)) s
    cases hs : PlotableExpression.sample P (P.div (P.add x_min x_max) (P.of_int 2)) s with
    | unfinished =>
      rw [hs] at h
      simp [Outcome.final] at h
    | throws e s1 =>
      rw [hs] at h hsample
      simp only [Outcome.final, Option.some.injEq] at h
      subst h
      exact hsample _ rfl
    | returns y_mid s1 =>
      rw [hs] at h hsample
      have h1 : Sampled P s s1 := hsample _ rfl
      simp only at h
      by_cases hstop : PlotableExpression.stops P delta_y y_min y_max y_mid y_lo y_hi = true
      · rw [if_pos hstop] at h
        simp only [Outcome.final, Option.some.injEq] at h
        subst h
        exact h1
      · rw [if_neg hstop] at h
        have ihl := ih x_min (P.div (P.add x_min x_max) (P.of_int 2)) delta_y y_min y_mid
          y_lo y_hi s1
        cases hl : PlotableExpression.recursive_plot P fuel x_min
            (P.div (P.add x_min x_max) (P.of_int 2)) delta_y y_min y_mid y_lo y_hi s1 with
        | unfinished =>
          rw [hl] at h
          simp [Outcome.final] at h
        | throws e s2 =>
          rw [hl] at h ihl
          simp only [Outcome.final, Option.some.injEq] at h
          subst h
          exact sampled_trans P h1 (ihl _ rfl)
        | returns lower s2 =>
          rw [hl] at h ihl
          have h2 : Sampled P s s2 := sampled_trans P h1 (ihl _ rfl)
          simp only at h
          have ihu := ih (P.div (P.add x_min x_max) (P.of_int 2)) x_max delta_y y_mid y_max
            y_lo y_hi s2
          cases hu : PlotableExpression.recursive_plot P fuel
              (P.div (P.add x_min x_max) (P.of_int 2)) x_max delta_y y_mid y_max y_lo y_hi
              s2 with
          | unfinished =>
            rw [hu] at h
            simp [Outcome.final] at h
          | throws e s3 =>
            rw [hu] at h ihu
            simp only [Outcome.final, Option.some.injEq] at h
            subst h
            exact sampled_trans P h2 (ihu _ rfl)
          | returns upper s3 =>
            rw [hu] at h ihu
            simp only [Outcome.final, Option.some.injEq] at h
            subst h
            exact sampled_trans P h2 (ihu _ rfl)

theorem graphs_loop_sampled (P : Fpu D) (fuel : Nat) :
    ∀ (x x_lo x_hi delta_x delta_y y_lo y_hi : D) (previous : Option (D × D))
      (graph : Graph D) (s s' : Session D),
      (PlotableExpression.graphs_loop P fuel x x_lo x_hi delta_x delta_y y_lo y_hi previous
        graph s).final = some s' → Sampled P s s' := by
  induction fuel with
  | zero =>
    intro x x_lo x_hi delta_x delta_y y_lo y_hi previous graph s s' h
    simp [PlotableExpression.graphs_loop, Outcome.final] at h
  | succ fuel ih =>
    intro x x_lo x_hi delta_x delta_y y_lo y_hi previous graph s s' h
    unfold PlotableExpression.graphs_loop at h
    by_cases hle : P.le x x_hi = true
    · rw [if_pos hle] at h
      have hsample := sample_sampled P x s
      cases hs : PlotableExpression.sample P x s with
      | unfinished =>
        rw [hs] at h
        simp [Outcome.final] at h
      | throws e s1 =>
        rw [hs] at h hsample
        simp only [Outcome.final, Option.some.injEq] at h
        subst h
        exact hsample _ rfl
      | returns y s1 =>
        rw [hs] at h hsample
        have h1 : Sampled P s s1 := hsample _ rfl
        simp only at h
        by_cases hne : (!P.eq x x_lo) = true
        · rw [if_pos hne] at h
          cases previous with
          | none =>
            simp only [Outcome.final, Option.some.injEq] at h
            subst h
            exact h1
          | some prev =>
            obtain ⟨prev_x, prev_y⟩ := prev
            simp only at h
            by_cases hgt : P.lt delta_y (P.abs (P.sub y prev_y)) = true
            · rw [if_pos hgt] at h
              have hrec := recursive_plot_sampled P fuel prev_x x delta_y prev_y y y_lo y_hi s1
              cases hr : PlotableExpression.recursive_plot P fuel prev_x x delta_y prev_y y
                  y_lo y_hi s1 with
              | unfinished =>
                rw [hr] at h
                simp [Outcome.final] at h
              | throws e s2 =>
                rw [hr] at h hrec
                simp only [Outcome.final, Option.some.injEq] at h
                subst h
                exact sampled_trans P h1 (hrec _ rfl)
              | returns refined s2 =>
                rw [hr] at h hrec
                simp only at h
                exact sampled_trans P (sampled_trans P h1 (hrec _ rfl)) (ih _ _ _ _ _ _ _ _ _ _ _ h)
            · rw [if_neg hgt] at h
              exact sampled_trans P h1 (ih _ _ _ _ _ _ _ _ _ _ _ h)
        · rw [if_neg hne] at h
          exact sampled_trans P h1 (ih _ _ _ _ _ _ _ _ _ _ _ h)
    · rw [if_neg hle] at h
      simp only [Outcome.final, Option.some.injEq] at h
      subst h
      exact sampled_refl P s

theorem graphs_sampled (P : Fpu D) (fuel : Nat) (x_lo x_hi : D) (x_pix : Int) (y_lo y_hi : D)
    (y_pix : Int) (s s' : Session D)
    (h : (PlotableExpression.graphs P fuel x_lo x_hi x_pix y_lo y_hi y_pix s).final =
      some s') : Sampled P s s' := by
  unfold PlotableExpression.graphs at h
  have hloop := graphs_loop_sampled P fuel x_lo x_lo x_hi (P.div (P.of_int 1) (P.of_int x_pix))
    (P.div (P.of_int 1) (P.of_int y_pix)) y_lo y_hi none [] s
  cases hl : PlotableExpression.graphs_loop P fuel x_lo x_lo x_hi
      (P.div (P.of_int 1) (P.of_int x_pix)) (P.div (P.of_int 1) (P.of_int y_pix)) y_lo y_hi
      none [] s with
  | unfinished =>
    rw [hl] at h
    simp [Outcome.final] at h
  | throws e s1 =>
    rw [hl] at h hloop
    simp only [Outcome.final, Option.some.injEq] at h
    subst h
    exact hloop _ rfl
  | returns graph s1 =>
    rw [hl] at h hloop
    simp only [Outcome.final, Option.some.injEq] at h
    subst h
    exact hloop _ rfl

set_option maxRecDepth 100000 in
/-- C20, the claim as stated, fails: with the buffer `X ^` and the variable
string `1`, the plot call on the viewport from 0 to 0 throws at its first
sample, the message is caught and stored, and the variable string is then the
encoding of the sample 0, not `1`. -/
theorem plot_overwrites_variable :
    PlotableExpression.graphs integer_fpu 1 0 0 1 0 0 1 ⟨["X", "^"], [], [], "1", ""⟩ =
      .throws (.message "not enough arguments") ⟨["X", "^"], [], [], "0", ""⟩ ∧
    CalculatorModel.graphs integer_fpu 1 0 0 1 0 0 1 ⟨["X", "^"], [], [], "1", ""⟩ =
      .returns [] ⟨["X", "^"], [], [], "0", "not enough arguments"⟩ ∧
    (⟨["X", "^"], [], [], "0", "not enough arguments"⟩ : Session Int).X_str_var ≠
      (⟨["X", "^"], [], [], "1", ""⟩ : Session Int).X_str_var :=
  ⟨rfl, rfl, by decide⟩

/-- C20, amended: when a plot call fails, the evaluation throwing the message
`m` at some sample and the message being caught at the plot entry point, the
call returns no polyline and stores `m`, and the expression buffer is the same
after the call as before it; the variable string is the one from before the
call or a string `precise_dblToStr` returned for a sample. -/
theorem plot_failure_frame (P : Fpu D) (fuel : Nat) (x_lo x_hi : D) (x_pix : Int)
    (y_lo y_hi : D) (y_pix : Int) (s s1 : Session D) (m : String)
    (hne : CalculatorModel.expression s ≠ "")
    (h : PlotableExpression.graphs P fuel x_lo x_hi x_pix y_lo y_hi y_pix s =
      .throws (.message m) s1) :
    ∃ s', CalculatorModel.graphs P fuel x_lo x_hi x_pix y_lo y_hi y_pix s = .returns [] s' ∧
      CalculatorModel.some_result s' = m ∧
      s'.expression = s.expression ∧
      (s'.X_str_var = s.X_str_var ∨
        ∃ x, PlotableExpression.precise_dblToStr P x = .ok s'.X_str_var) := by
  have hs := graphs_sampled P fuel x_lo x_hi x_pix y_lo y_hi y_pix s s1 (by rw [h]; rfl)
  have hempty : (!(CalculatorModel.expression s).isEmpty) = true := by
    cases hb : (CalculatorModel.expression s).isEmpty with
    | false => rfl
    | true => exact absurd ((String.isEmpty_iff _).mp hb) hne
  refine ⟨{ s1 with result := m }, ?_, rfl, hs.1, hs.2.2⟩
  unfold CalculatorModel.graphs
  rw [if_pos hempty, h]

set_option maxRecDepth 100000 in
/-- The amended C20 at the buffer `X ^` with the variable string `1`, on the
viewport from 0 to 0. -/
theorem plot_failure_frame_witness :
    CalculatorModel.expression (⟨["X", "^"], [], [], "1", ""⟩ : Session Int) ≠ "" ∧
    PlotableExpression.graphs integer_fpu 1 0 0 1 0 0 1 ⟨["X", "^"], [], [], "1", ""⟩ =
      .throws (.message "not enough arguments") ⟨["X", "^"], [], [], "0", ""⟩ ∧
    ∃ s', CalculatorModel.graphs integer_fpu 1 0 0 1 0 0 1 ⟨["X", "^"], [], [], "1", ""⟩ =
        .returns [] s' ∧
      CalculatorModel.some_result s' = "not enough arguments" ∧
      s'.expression = ["X", "^"] ∧
      (s'.X_str_var = "1" ∨
        ∃ x, PlotableExpression.precise_dblToStr integer_fpu x = .ok s'.X_str_var) :=
  ⟨by decide, rfl,
    plot_failure_frame integer_fpu 1 0 0 1 0 0 1 ⟨["X", "^"], [], [], "1", ""⟩
      ⟨["X", "^"], [], [], "0", ""⟩ "not enough arguments" (by decide) rfl⟩

/-! ## The catalogue tables -/

/-- C23: the function table holds exactly seventeen names, each once; the
eleven names `unary +` to `sqrt` have arity 1, precedence 3 and are not
left-associative; `^` has arity 2, precedence 2 and is not left-associative;
`*`, `/` and `mod` have arity 2, precedence 2 and are left-associative; `+`
and `-` have arity 2, precedence 1 and are left-associative; and the
precedence table has the same seventeen keys. -/
theorem catalogue_attributes :
    FUNCTION_MAP.map Prod.fst =
      ["unary +", "unary -", "sin", "cos", "tan", "asin", "acos", "atan", "ln", "log",
        "sqrt", "^", "*", "/", "mod", "+", "-"] ∧
    (FUNCTION_MAP.map Prod.fst).Nodup ∧
    (FUNCTION_MAP.map Prod.fst).length = 17 ∧
    (∀ t ∈ ["unary +", "unary -", "sin", "cos", "tan", "asin", "acos", "atan", "ln", "log",
        "sqrt"],
      ∃ f, map_at FUNCTION_MAP t = .ok f ∧ f.arity = 1 ∧ f.left_associative = false ∧
        map_at PRECEDENCE_MAP t = .ok 3) ∧
    (∃ f, map_at FUNCTION_MAP "^" = .ok f ∧ f.arity = 2 ∧ f.left_associative = false ∧
      map_at PRECEDENCE_MAP "^" = .ok 2) ∧
    (∀ t ∈ ["*", "/", "mod"],
      ∃ f, map_at FUNCTION_MAP t = .ok f ∧ f.arity = 2 ∧ f.left_associative = true ∧
        map_at PRECEDENCE_MAP t = .ok 2) ∧
    (∀ t ∈ ["+", "-"],
      ∃ f, map_at FUNCTION_MAP t = .ok f ∧ f.arity = 2 ∧ f.left_associative = true ∧
        map_at PRECEDENCE_MAP t = .ok 1) ∧
    PRECEDENCE_MAP.map Prod.fst = FUNCTION_MAP.map Prod.fst ∧
    (PRECEDENCE_MAP.map Prod.fst).Nodup ∧
    ∀ t, contains t = true ↔
      t ∈ ["unary +", "unary -", "sin", "cos", "tan", "asin", "acos", "atan", "ln", "log",
        "sqrt", "^", "*", "/", "mod", "+", "-"] := by
  refine ⟨rfl, by decide, rfl, ?_, ⟨.pow, rfl, rfl, rfl, rfl⟩, ?_, ?_, rfl, by decide, ?_⟩
  · intro t ht
    simp only [List.mem_cons, List.mem_singleton, List.not_mem_nil, or_false] at ht
    rcases ht with rfl | rfl | rfl | rfl | rfl | rfl | rfl | rfl | rfl | rfl | rfl
    · exact ⟨.unary_plus, rfl, rfl, rfl, rfl⟩
    · exact ⟨.unary_minus, rfl, rfl, rfl, rfl⟩
    · exact ⟨.sin, rfl, rfl, rfl, rfl⟩
    · exact ⟨.cos, rfl, rfl, rfl, rfl⟩
    · exact ⟨.tan, rfl, rfl, rfl, rfl⟩
    · exact ⟨.asin, rfl, rfl, rfl, rfl⟩
    · exact ⟨.acos, rfl, rfl, rfl, rfl⟩
    · exact ⟨.atan, rfl, rfl, rfl, rfl⟩
    · exact ⟨.ln, rfl, rfl, rfl, rfl⟩
    · exact ⟨.log, rfl, rfl, rfl, rfl⟩
    · exact ⟨.sqrt, rfl, rfl, rfl, rfl⟩
  · intro t ht
    simp only [List.mem_cons, List.mem_singleton, List.not_mem_nil, or_false] at ht
    rcases ht with rfl | rfl | rfl
    · exact ⟨.mult, rfl, rfl, rfl, rfl⟩
    · exact ⟨.div, rfl, rfl, rfl, rfl⟩
    · exact ⟨.mod, rfl, rfl, rfl, rfl⟩
  · intro t ht
    simp only [List.mem_cons, List.mem_singleton, List.not_mem_nil, or_false] at ht
    rcases ht with rfl | rfl
    · exact ⟨.plus, rfl, rfl, rfl, rfl⟩
    · exact ⟨.minus, rfl, rfl, rfl, rfl⟩
  · intro t
    exact contains_iff t

/-! ## Operator pairs, chains of unary operators and brackets -/

theorem operand_of_standalone {a : String} (h : standalone a = false) :
    contains a = false ∧ a ≠ "(" ∧ a ≠ ")" := by
  simpa [standalone, not_or, and_assoc] using h

theorem not_unary_of_operand {a : String} (h : contains a = false) : unary a = false := by
  cases hu : unary a with
  | false => rfl
  | true => rw [unary_contains hu] at h; cases h

theorem not_binary_of_operand {a : String} (h : contains a = false) : binary a = false := by
  cases hu : binary a with
  | false => rfl
  | true => rw [binary_contains hu] at h; cases h

theorem postfixed_loop_operand {a : String} (h : standalone a = false) (tokens : List String)
    {stack : List String} (hv : Valid stack) (result : List String) :
    postfixed_loop (a :: tokens) stack result =
      postfixed_loop tokens (stack.dropWhile unary) (result ++ [a] ++ stack.takeWhile unary) := by
  obtain ⟨hc, ho, hcl⟩ := operand_of_standalone h
  rw [postfixed_loop_cons, postfixed_token_operand hc ho hcl hv]

theorem postfixed_loop_catalogue {t : String} (h : contains t = true) (tokens : List String)
    {stack : List String} (hv : Valid stack) (result : List String) :
    postfixed_loop (t :: tokens) stack result =
      postfixed_loop tokens (t :: stack.dropWhile (outranks t))
        (result ++ stack.takeWhile (outranks t)) := by
  rw [postfixed_loop_cons, postfixed_token_catalogue h hv]

theorem outranks_eq {o2 o1 : String} (h1 : binary o1 = true) :
    outranks o2 o1 = true ↔
      (precedence o1 > precedence o2 ∨
        (precedence o1 = precedence o2 ∧ left_assoc o2 = true)) := by
  simp [outranks, h1]

/-- C25: for operand tokens `a`, `b`, `c` and binary catalogue operators `o1`,
`o2`, `postfixed()` of `a o1 b o2 c` returns `a b o1 c o2` when the precedence
of `o1` is above that of `o2`, or the two are equal and `o2` is
left-associative, and returns `a b c o2 o1` otherwise. -/
theorem binary_pair_order (a b c o1 o2 : String)
    (ha : standalone a = false) (hb : standalone b = false) (hc : standalone c = false)
    (h1 : binary o1 = true) (h2 : binary o2 = true) (stack : List String) :
    postfixed [a, o1, b, o2, c] stack =
      .ok (if precedence o1 > precedence o2 ∨
              (precedence o1 = precedence o2 ∧ left_assoc o2 = true)
           then [a, b, o1, c, o2] else [a, b, c, o2, o1]) := by
  have hs1 := standalone_of_contains (binary_contains h1)
  have hs2 := standalone_of_contains (binary_contains h2)
  have htok : tokenized [a, o1, b, o2, c] = [a, o1, b, o2, c] := by
    rw [tokenized_operand ha _ (by simpa using hs1), tokenized_standalone hs1,
      tokenized_operand hb _ (by simpa using hs2), tokenized_standalone hs2,
      tokenized_operand hc _ (by simp)]
    rfl
  have hu1 := binary_not_unary h1
  have hu2 := binary_not_unary h2
  have hv1 : Valid [o1] := Valid.cons_valid (Or.inr (binary_contains h1)) valid_nil
  have hv2 : Valid [o2] := Valid.cons_valid (Or.inr (binary_contains h2)) valid_nil
  have hv21 : Valid [o2, o1] := Valid.cons_valid (Or.inr (binary_contains h2)) hv1
  have hloop : postfixed_loop [a, o1, b, o2, c] [] [] =
      postfixed_loop [c] (o2 :: [o1].dropWhile (outranks o2))
        ([a, b] ++ [o1].takeWhile (outranks o2)) := by
    rw [postfixed_loop_operand ha _ valid_nil]
    simp only [List.dropWhile_nil, List.takeWhile_nil, List.append_nil, List.nil_append]
    rw [postfixed_loop_catalogue (binary_contains h1) _ valid_nil]
    simp only [List.dropWhile_nil, List.takeWhile_nil, List.append_nil]
    rw [postfixed_loop_operand hb _ hv1]
    simp only [List.dropWhile_cons, List.takeWhile_cons, hu1, Bool.false_eq_true, if_false,
      List.append_nil]
    rw [postfixed_loop_catalogue (binary_contains h2) _ hv1]
    cases ho : outranks o2 o1 <;> simp [List.dropWhile, List.takeWhile, ho]
  unfold postfixed postfixed_run
  rw [htok, hloop]
  by_cases ho : outranks o2 o1 = true
  · rw [if_pos ((outranks_eq h1).1 ho)]
    simp only [List.dropWhile_nil, List.takeWhile_nil,
      List.dropWhile_cons, List.takeWhile_cons, ho, if_true]
    rw [postfixed_loop_operand hc _ hv2]
    simp only [List.dropWhile_cons, List.takeWhile_cons, hu2, Bool.false_eq_true, if_false,
      postfixed_loop, List.append_nil, postfixed_end_eq hv2]
    simp [h2]
  · rw [if_neg (fun h => ho ((outranks_eq h1).2 h))]
    have ho' : outranks o2 o1 = false := by simpa using ho
    simp only [List.dropWhile_cons, List.takeWhile_cons, ho', Bool.false_eq_true, if_false,
      List.append_nil]
    rw [postfixed_loop_operand hc _ hv21]
    simp only [List.dropWhile_cons, List.takeWhile_cons, hu2, Bool.false_eq_true, if_false,
      postfixed_loop, List.append_nil, postfixed_end_eq hv21]
    simp [h1, h2]

/-- The three expressions `2 ^ 3 ^ 4`, `6 / 1 * 2` and `3 + 4 * 2`. -/
theorem binary_pair_order_witness :
    postfixed ["2", "^", "3", "^", "4"] [] = .ok ["2", "3", "4", "^", "^"] ∧
    postfixed ["6", "/", "1", "*", "2"] [] = .ok ["6", "1", "/", "2", "*"] ∧
    postfixed ["3", "+", "4", "*", "2"] [] = .ok ["3", "4", "2", "*", "+"] :=
  ⟨binary_pair_order "2" "3" "4" "^" "^" (by decide) (by decide) (by decide) (by decide)
      (by decide) [],
    binary_pair_order "6" "1" "2" "/" "*" (by decide) (by decide) (by decide) (by decide)
      (by decide) [],
    binary_pair_order "3" "4" "2" "+" "*" (by decide) (by decide) (by decide) (by decide)
      (by decide) []⟩

theorem takeWhile_outranks_unary {t : String} (h : unary t = true) (stack : List String) :
    stack.takeWhile (outranks t) = [] := by
  cases stack with
  | nil => rfl
  | cons s rest => simp [List.takeWhile_cons, outranks_unary h s]

theorem valid_of_unary {pushed : List String} (h : ∀ u ∈ pushed, unary u = true)
    {base : List String} (hv : Valid base) : Valid (pushed ++ base) := by
  intro s hs
  rcases List.mem_append.1 hs with hs | hs
  · exact Or.inr (unary_contains (h s hs))
  · exact hv s hs

theorem split_unary {pushed : List String} (h : ∀ u ∈ pushed, unary u = true)
    {base : List String} (ht : TopNotUnary base) :
    (pushed ++ base).takeWhile unary = pushed ∧ (pushed ++ base).dropWhile unary = base := by
  induction pushed with
  | nil =>
    have := takeWhile_of_head unary base ht
    simpa using this
  | cons u pushed ih =>
    have hu : unary u = true := h u (List.mem_cons_self _ _)
    have := ih (fun v hv => h v (List.mem_cons_of_mem _ hv))
    simp [List.takeWhile_cons, List.dropWhile_cons, hu, this]

theorem loop_unary_chain (a : String) (ha : standalone a = false) (us : List String) :
    ∀ (pushed base result : List String), (∀ u ∈ us, unary u = true) →
      (∀ u ∈ pushed, unary u = true) → Valid base → TopNotUnary base →
      postfixed_loop (us ++ [a]) (pushed ++ base) result =
        .ok (base, result ++ a :: us.reverse ++ pushed) := by
  induction us with
  | nil =>
    intro pushed base result _ hp hv ht
    have hsplit := split_unary hp ht
    rw [List.nil_append, postfixed_loop_operand ha _ (valid_of_unary hp hv), hsplit.1, hsplit.2]
    simp [postfixed_loop]
  | cons u us ih =>
    intro pushed base result hus hp hv ht
    have hu : unary u = true := hus u (List.mem_cons_self _ _)
    rw [List.cons_append, postfixed_loop_catalogue (unary_contains hu) _ (valid_of_unary hp hv),
      dropWhile_outranks_unary hu, takeWhile_outranks_unary hu, List.append_nil]
    have := ih (u :: pushed) base result (fun v hv => hus v (List.mem_cons_of_mem _ hv))
      (by
        intro v hv
        rcases List.mem_cons.1 hv with rfl | hv
        · exact hu
        · exact hp v hv) hv ht
    rw [List.cons_append] at this
    rw [this]
    simp

theorem tokenized_unary_chain (a : String) (ha : standalone a = false) (us : List String)
    (hus : ∀ u ∈ us, unary u = true) : tokenized (us ++ [a]) = us ++ [a] := by
  induction us with
  | nil =>
    rw [List.nil_append, tokenized_operand ha _ (by simp)]
    rfl
  | cons u us ih =>
    rw [List.cons_append, tokenized_standalone
      (standalone_of_contains (unary_contains (hus u (List.mem_cons_self _ _)))),
      ih (fun v hv => hus v (List.mem_cons_of_mem _ hv))]

/-- C26: for unary catalogue operators `u1 .. un`, with `n` from 0 on, and an
operand token `a`, `postfixed()` of `u1 .. un a` returns `a un .. u1`; and
on whatever operator stack whose top is not a unary operator the loop of
`postfixed()` reads `u1 .. un a`, it appends `a un .. u1` to the output and
leaves the stack as it found it. -/
theorem unary_chain (us : List String) (a : String) (hus : ∀ u ∈ us, unary u = true)
    (ha : standalone a = false) :
    (∀ stack, postfixed (us ++ [a]) stack = .ok (a :: us.reverse)) ∧
    ∀ stack result : List String, Valid stack → TopNotUnary stack →
      postfixed_loop (us ++ [a]) stack result = .ok (stack, result ++ a :: us.reverse) := by
  have hloop : ∀ stack result : List String, Valid stack → TopNotUnary stack →
      postfixed_loop (us ++ [a]) stack result = .ok (stack, result ++ a :: us.reverse) := by
    intro stack result hv ht
    have := loop_unary_chain a ha us [] stack result hus (by simp) hv ht
    simpa using this
  refine ⟨?_, hloop⟩
  intro stack
  unfold postfixed postfixed_run
  rw [tokenized_unary_chain a ha us hus, hloop [] [] valid_nil (fun s hs => by simp at hs)]
  simp [postfixed_end_eq valid_nil]

/-- The expression `sin unary - 2`, and the operand `1` after `unary -` on the
stack that `2 ^` leaves. -/
theorem unary_chain_witness :
    postfixed ["sin", "unary -", "2"] [] = .ok ["2", "unary -", "sin"] ∧
    postfixed_loop ["unary -", "1"] ["^"] ["2"] = .ok (["^"], ["2", "1", "unary -"]) :=
  ⟨(unary_chain ["sin", "unary -"] "2" (by decide) (by decide)).1 [],
    (unary_chain ["unary -"] "1" (by decide) (by decide)).2 ["^"] ["2"]
      (Valid.cons_valid (Or.inr (by decide)) valid_nil)
      (fun s hs => by
        simp only [List.head?_cons, Option.mem_def, Option.some.injEq] at hs
        subst hs
        decide)⟩

/-- The expression `2 ^ unary - 1 ^ 4`. -/
theorem postfixed_unary_in_power :
    postfixed ["2", "^", "unary -", "1", "^", "4"] [] =
      .ok ["2", "1", "unary -", "4", "^", "^"] :=
  rfl

theorem takeWhile_on_bracket (p : String → Bool) (hp : p "(" = false)
    (own below : List String) :
    (own ++ "(" :: below).takeWhile p = own.takeWhile p ∧
    (own ++ "(" :: below).dropWhile p = own.dropWhile p ++ "(" :: below := by
  induction own with
  | nil => simp [List.takeWhile_cons, List.dropWhile_cons, hp]
  | cons s own ih =>
    cases hs : p s <;> simp [List.takeWhile_cons, List.dropWhile_cons, hs, ih]

theorem unbracket_append {d : List String} (h : d ≠ []) (rest : List String) :
    unbracket (d ++ rest) = unbracket d ++ rest := by
  cases d with
  | nil => exact absurd rfl h
  | cons top d =>
    by_cases ht : top = "(" <;> simp [unbracket, ht]

theorem valid_on_bracket {own below : List String} (ho : Valid own) (hb : Valid below) :
    Valid (own ++ "(" :: below) := by
  intro s hs
  rcases List.mem_append.1 hs with h | h
  · exact ho s h
  · rcases List.mem_cons.1 h with h | h
    · exact Or.inl h
    · exact hb s h

theorem outranks_bracket (t : String) : outranks t "(" = false := by
  simp [outranks, show binary "(" = false from by decide]

theorem postfixed_loop_on_bracket (tokens : List String) :
    ∀ (own result st out : List String), Valid own →
      postfixed_loop tokens own result = .ok (st, out) →
      ∀ (below front : List String), Valid below →
        postfixed_loop tokens (own ++ "(" :: below) (front ++ result) =
          .ok (st ++ "(" :: below, front ++ out) := by
  induction tokens with
  | nil =>
    intro own result st out _ h below front _
    simp only [postfixed_loop, Except.ok.injEq, Prod.mk.injEq] at h
    obtain ⟨rfl, rfl⟩ := h
    rfl
  | cons t ts ih =>
    intro own result st out hv h below front hb
    have hext := valid_on_bracket hv hb
    rw [postfixed_loop_cons] at h ⊢
    rcases postfixed_token_cases t hv result with
      ⟨hc, ht⟩ | ⟨rfl, ht⟩ | ⟨rfl, _, ht⟩ | ⟨rfl, hne, ht⟩ | ⟨hc, ho, hcl, ht⟩
    · rw [ht] at h
      have hsplit := takeWhile_on_bracket (outranks t) (outranks_bracket t) own below
      rw [postfixed_token_catalogue hc hext, hsplit.1, hsplit.2]
      have hv' : Valid (t :: own.dropWhile (outranks t)) :=
        Valid.cons_valid (Or.inr hc) (Valid.dropWhile_valid _ hv)
      have := ih _ _ st out hv' h below front hb
      simpa [List.append_assoc] using this
    · rw [ht] at h
      rw [postfixed_token_open]
      have hv' : Valid ("(" :: own) := Valid.cons_valid (Or.inl rfl) hv
      exact ih _ _ st out hv' h below front hb
    · rw [ht] at h
      cases h
    · rw [ht] at h
      have hsplit := takeWhile_on_bracket binary (by decide) own below
      have hne' : (own ++ "(" :: below).dropWhile binary ≠ [] := by
        rw [hsplit.2]
        simp
      rw [postfixed_token_close hext _ hne', hsplit.1, hsplit.2, unbracket_append hne]
      have hv' : Valid (unbracket (own.dropWhile binary)) :=
        Valid.unbracket_valid (Valid.dropWhile_valid _ hv)
      have hsplit' := takeWhile_on_bracket unary (by decide)
        (unbracket (own.dropWhile binary)) below
      rw [hsplit'.1, hsplit'.2]
      have := ih _ _ st out (Valid.dropWhile_valid unary hv') h below front hb
      simpa [List.append_assoc] using this
    · rw [ht] at h
      have hsplit := takeWhile_on_bracket unary (by decide) own below
      rw [postfixed_token_operand hc ho hcl hext, hsplit.1, hsplit.2]
      have := ih _ _ st out (Valid.dropWhile_valid unary hv) h below front hb
      simpa [List.append_assoc] using this

theorem postfixed_loop_unaries (us : List String) :
    ∀ (stack result : List String), (∀ u ∈ us, unary u = true) → Valid stack →
      postfixed_loop us stack result = .ok (us.reverse ++ stack, result) := by
  induction us with
  | nil =>
    intro stack result _ _
    rfl
  | cons u us ih =>
    intro stack result hus hv
    have hu : unary u = true := hus u (List.mem_cons_self _ _)
    rw [postfixed_loop_cons, postfixed_token_catalogue (unary_contains hu) hv,
      dropWhile_outranks_unary hu]
    have hzero : stack.takeWhile (outranks u) = [] := by
      cases stack with
      | nil => rfl
      | cons s rest => simp [List.takeWhile_cons, outranks_unary hu s]
    rw [hzero, List.append_nil]
    have := ih (u :: stack) result (fun v hv => hus v (List.mem_cons_of_mem _ hv))
      (Valid.cons_valid (Or.inr (unary_contains hu)) hv)
    simpa using this

theorem tokenized_bracketed (E us : List String) (hus : ∀ u ∈ us, unary u = true) :
    tokenized (us ++ "(" :: E ++ [")"]) = us ++ "(" :: tokenized E ++ [")"] := by
  induction us with
  | nil =>
    have h := (tokenized_append_standalone (show standalone ")" = true from by decide)
      ("(" :: E)).1
    rw [tokenized_standalone (show standalone "(" = true from by decide)] at h
    simpa using h
  | cons u us ih =>
    have hu := standalone_of_contains (unary_contains (hus u (List.mem_cons_self _ _)))
    have := ih (fun v hv => hus v (List.mem_cons_of_mem _ hv))
    simp only [List.cons_append, List.append_assoc] at this ⊢
    rw [tokenized_standalone hu, this]

theorem all_of_dropWhile_nil (p : String → Bool) {l : List String}
    (h : l.dropWhile p = []) : l.takeWhile p = l := by
  have := List.takeWhile_append_dropWhile p l
  rw [h, List.append_nil] at this
  exact this

/-- C27: when `postfixed()` returns `P` on the sequence `E`, then for unary
catalogue operators `u1 .. un`, with `n` from 0 on, `postfixed()` on
`u1 .. un ( E )` returns `P` followed by `un .. u1`; with no operator, `( E )`
has the postfix form of `E`. -/
theorem bracketed_conversion (E P us : List String) (stack : List String)
    (hus : ∀ u ∈ us, unary u = true) (h : postfixed E stack = .ok P) :
    (∀ stack', postfixed (us ++ "(" :: E ++ [")"]) stack' = .ok (P ++ us.reverse)) ∧
    ∀ stack', postfixed ("(" :: E ++ [")"]) stack' = .ok P := by
  have hrun := postfixed_run_of_ok h
  unfold postfixed_run at hrun
  cases hl : postfixed_loop (tokenized E) [] [] with
  | error e => simp [hl] at hrun
  | ok sr =>
    obtain ⟨st, out⟩ := sr
    rw [hl] at hrun
    simp only at hrun
    have hvst : Valid st := (postfixed_loop_open_count (tokenized E) valid_nil hl).1
    obtain ⟨-, hdrop, hP⟩ := postfixed_end_ok hvst hrun
    have htake := all_of_dropWhile_nil binary hdrop
    have main : ∀ (vs : List String), (∀ u ∈ vs, unary u = true) → ∀ stack',
        postfixed (vs ++ "(" :: E ++ [")"]) stack' = .ok (P ++ vs.reverse) := by
      intro vs hvs stack'
      have hvr : Valid vs.reverse := by
        intro s hs
        exact Or.inr (unary_contains (hvs s (List.mem_reverse.1 hs)))
      have hmoved := postfixed_loop_on_bracket (tokenized E) [] [] st out valid_nil hl
        vs.reverse [] hvr
      simp only [List.nil_append] at hmoved
      have hsplit := takeWhile_on_bracket binary (by decide) st vs.reverse
      have hur : vs.reverse.takeWhile unary = vs.reverse ∧ vs.reverse.dropWhile unary = [] := by
        have hall : ∀ s ∈ vs.reverse, unary s = true := fun s hs => hvs s (List.mem_reverse.1 hs)
        constructor
        · exact List.takeWhile_eq_self_iff.2 hall
        · exact List.dropWhile_eq_nil_iff.2 hall
      have hclose : postfixed_token ")" (st ++ "(" :: vs.reverse) out =
          .ok ([], P ++ vs.reverse) := by
        rw [postfixed_token_close (valid_on_bracket hvst hvr) _ (by rw [hsplit.2]; simp),
          hsplit.1, hsplit.2, hdrop, htake]
        simp [unbracket, hur.1, hur.2, hP, htake]
      unfold postfixed postfixed_run
      have hfront : postfixed_loop (vs ++ "(" :: tokenized E) [] [] =
          .ok (st ++ "(" :: vs.reverse, out) := by
        rw [postfixed_loop_append, postfixed_loop_unaries vs [] [] hvs valid_nil]
        simp only [List.append_nil]
        rw [postfixed_loop_cons, postfixed_token_open]
        exact hmoved
      rw [tokenized_bracketed E vs hvs, postfixed_loop_append, hfront]
      simp only [postfixed_loop, hclose, postfixed_end_eq valid_nil]
      simp
    refine ⟨main us hus, ?_⟩
    intro stack'
    have := main [] (by simp) stack'
    simpa using this

/-- The expressions `( 1 )` and `unary - ( 2 / 3 )`. -/
theorem bracketed_conversion_witness :
    postfixed ["1"] [] = .ok ["1"] ∧
    postfixed ["(", "1", ")"] [] = .ok ["1"] ∧
    postfixed ["2", "/", "3"] [] = .ok ["2", "3", "/"] ∧
    postfixed ["unary -", "(", "2", "/", "3", ")"] [] = .ok ["2", "3", "/", "unary -"] :=
  ⟨rfl, (bracketed_conversion ["1"] ["1"] [] [] (by simp) rfl).2 [], rfl,
    (bracketed_conversion ["2", "/", "3"] ["2", "3", "/"] ["unary -"] [] (by decide) rfl).1 []⟩

/-! ## Literal tokens -/

theorem tokenized_after (l : List String) (pre : List String) :
    (∀ a ∈ pre.getLast?, standalone a = true) →
      tokenized (pre ++ l) = tokenized pre ++ tokenized l ∧
      (pre ≠ [] → ∀ acc, number_loop acc (pre ++ l) = number_loop acc pre ++ tokenized l) := by
  induction pre with
  | nil =>
    intro _
    exact ⟨by simp [tokenized], fun h => absurd rfl h⟩
  | cons a pre ih =>
    intro hlast
    have hpre : pre ≠ [] → ∀ b ∈ pre.getLast?, standalone b = true := by
      intro hne b hb
      apply hlast b
      cases pre with
      | nil => exact absurd rfl hne
      | cons c pre => simpa [List.getLast?_cons_cons] using hb
    by_cases ha : standalone a = true
    · have htail : tokenized (pre ++ l) = tokenized pre ++ tokenized l := by
        by_cases hne : pre = []
        · subst hne
          simp [tokenized]
        · exact (ih (hpre hne)).1
      refine ⟨?_, fun _ acc => ?_⟩
      · simp [tokenized, ha, htail]
      · simp [number_loop, ha, htail]
    · have ha' : standalone a = false := by simpa using ha
      have hne : pre ≠ [] := by
        rintro rfl
        have := hlast a (by simp)
        rw [ha'] at this
        cases this
      have hnum := (ih (hpre hne)).2 hne
      refine ⟨?_, fun _ acc => ?_⟩
      · simp [tokenized, ha', hnum]
      · simp [number_loop, ha', hnum]

theorem number_loop_run (run post : List String) (hrun : ∀ a ∈ run, standalone a = false)
    (hpost : ∀ a ∈ post.head?, standalone a = true) :
    ∀ acc, number_loop acc (run ++ post) = (acc ++ String.join run) :: tokenized post := by
  induction run with
  | nil =>
    intro acc
    cases post with
    | nil => simp [number_loop, tokenized, String.join]
    | cons b post =>
      have hb : standalone b = true := hpost b (by simp)
      simp [number_loop, hb, String.join, tokenized_standalone hb]
  | cons a run ih =>
    intro acc
    have ha : standalone a = false := hrun a (List.mem_cons_self _ _)
    have := ih (fun b hb => hrun b (List.mem_cons_of_mem _ hb)) (acc ++ a)
    simp [number_loop, ha, this, join_cons, String.append_assoc]

theorem tokenized_run (run post : List String) (hne : run ≠ [])
    (hrun : ∀ a ∈ run, standalone a = false)
    (hpost : ∀ a ∈ post.head?, standalone a = true) :
    tokenized (run ++ post) = String.join run :: tokenized post := by
  cases run with
  | nil => exact absurd rfl hne
  | cons a run =>
    have ha : standalone a = false := hrun a (List.mem_cons_self _ _)
    have := number_loop_run run post (fun b hb => hrun b (List.mem_cons_of_mem _ hb)) hpost
      ("" ++ a)
    simp only [String.empty_append] at this
    simp [tokenized, ha, this, join_cons]

/-- C28, the claim as stated, fails: the atoms `s` and `in` are neither
catalogue names nor brackets, `tokenized()` concatenates them to the token
`sin`, and `postfixed()` pushes that token on the operator stack as the
catalogue operator and emits it after its operand. -/
theorem run_spells_operator :
    standalone "s" = false ∧ standalone "in" = false ∧
    tokenized ["s", "in", "(", "1", ")"] = ["sin", "(", "1", ")"] ∧
    postfixed_token "sin" [] [] = .ok (["sin"], []) ∧
    postfixed ["s", "in", "(", "1", ")"] [] = .ok ["1", "sin"] :=
  ⟨by decide, by decide, by decide, rfl, rfl⟩

/-- C28, amended: a token that `tokenized()` forms by concatenating a maximal
run of atoms none of which is a catalogue name or a bracket, and that is not
itself a catalogue name, stands in the token sequence where the run stands in
the atom sequence, and whatever the operator stack, `postfixed()` appends it to
the output when it reads it, before the unary operators it takes off the
stack, and does not put it on the operator stack. -/
theorem run_token_operand (pre run post : List String)
    (hne : run ≠ []) (hrun : ∀ a ∈ run, standalone a = false)
    (hpre : ∀ a ∈ pre.getLast?, standalone a = true)
    (hpost : ∀ a ∈ post.head?, standalone a = true)
    (hname : contains (String.join run) = false) :
    tokenized (pre ++ run ++ post) = tokenized pre ++ String.join run :: tokenized post ∧
    ∀ stack result : List String, Valid stack →
      postfixed_token (String.join run) stack result =
        .ok (stack.dropWhile unary, result ++ [String.join run] ++ stack.takeWhile unary) ∧
      String.join run ∉ stack.dropWhile unary := by
  have hbr := join_ne_bracket hrun
  have hopen : String.join run ≠ "(" := by
    intro h
    rw [h] at hbr
    revert hbr
    decide
  have hclose : String.join run ≠ ")" := by
    intro h
    rw [h] at hbr
    revert hbr
    decide
  constructor
  · rw [List.append_assoc, (tokenized_after (run ++ post) pre hpre).1,
      tokenized_run run post hne hrun hpost]
  · intro stack result hv
    refine ⟨postfixed_token_operand hname hopen hclose hv result, ?_⟩
    intro hmem
    rcases Valid.dropWhile_valid unary hv _ hmem with h | h
    · exact hopen h
    · rw [hname] at h
      cases h

/-- The atoms `sin # 2` of the test `PostfixStringExpression.test_12`: the run
`# 2` after the atom `sin`, read on the stack that holds `sin`. -/
theorem run_token_operand_witness :
    tokenized (["sin"] ++ ["#", "2"] ++ []) =
      tokenized ["sin"] ++ String.join ["#", "2"] :: tokenized [] ∧
    String.join ["#", "2"] = "#2" ∧
    postfixed_token (String.join ["#", "2"]) ["sin"] [] =
      .ok (["sin"].dropWhile unary, [] ++ [String.join ["#", "2"]] ++ ["sin"].takeWhile unary) ∧
    String.join ["#", "2"] ∉ ["sin"].dropWhile unary :=
  ⟨(run_token_operand ["sin"] ["#", "2"] [] (by simp) (by decide) (by decide) (by simp)
      (by decide)).1,
    by decide,
    (run_token_operand ["sin"] ["#", "2"] [] (by simp) (by decide) (by decide) (by simp)
      (by decide)).2 ["sin"] [] (Valid.cons_valid (Or.inr (by decide)) valid_nil)⟩

/-- The atoms of the tests `PostfixStringExpression.test_11` and `test_12`. -/
theorem postfixed_test_11_12 :
    postfixed ["#", "sin", "2"] [] = .ok ["#", "2", "sin"] ∧
    postfixed ["sin", "#", "2"] [] = .ok ["#2", "sin"] :=
  ⟨rfl, rfl⟩

theorem letter_not_in_name {token : String} (hx : 'X' ∈ token.toList) :
    contains token = false := by
  cases hc : contains token with
  | false => rfl
  | true =>
    exfalso
    rcases contains_cases token hc with h | h | h | h | h | h | h | h | h | h | h | h | h | h |
      h | h | h <;> subst h <;> revert hx <;> decide

/-- C29, the claim as stated, fails where `std::stod` reads a hexadecimal
literal: the token `0X1` contains the character `X`, is not the token `X`,
and evaluates to the value 1 whatever the variable string is. -/
theorem hexadecimal_literal :
    'X' ∈ "0X1".toList ∧ "0X1" ≠ "X" ∧
    hex_libm.stod "0X1" = .converted 1 3 ∧
    CalculatingStack_with_variable.push hex_libm "5" "0X1" [] = .ok [1] ∧
    ComputableStringExpression.solution_loop
      (CalculatingStack_with_variable.push hex_libm "5") ["0X1"] [] 0 = .ok ([1], 1) :=
  ⟨by decide, by decide, rfl, rfl, rfl⟩

/-- C29, amended: for a token that contains the character `X` and is not the
token `X`, the variable string is not consulted: the evaluation hands the
token itself to `strToDbl`, pushes the value when `strToDbl` returns one, and
throws one of the three parse messages for the token when `std::stod` rejects
the token or does not consume all of it; the token `X` alone is replaced by
the variable string. -/
theorem literal_with_letter (L : Libm D) (v token : String) (stack : List D)
    (hx : 'X' ∈ token.toList) (hne : token ≠ "X") :
    CalculatingStack_with_variable.push L v token stack =
      (match CalculatingDblStack.strToDbl L token with
        | .ok value => .ok (value :: stack)
        | .error e => .error (e, stack)) ∧
    (∀ e, CalculatingDblStack.strToDbl L token = .error e →
      ∃ m, e = .message m ∧ m ∈ parse_messages token) ∧
    ((∀ value read, L.stod token = .converted value read → read ≠ token.utf8ByteSize) →
      ∃ m, CalculatingStack_with_variable.push L v token stack = .error (.message m, stack) ∧
        m ∈ parse_messages token) ∧
    CalculatingStack_with_variable.push L v "X" stack = CalculatingDblStack.push L v stack := by
  have hpush : CalculatingStack_with_variable.push L v token stack =
      (match CalculatingDblStack.strToDbl L token with
        | .ok value => .ok (value :: stack)
        | .error e => .error (e, stack)) := by
    rw [push_variable, show substitute v token = token from if_neg hne,
      push_number L (letter_not_in_name hx)]
  refine ⟨hpush, fun e he => strToDbl_error L token he, ?_, ?_⟩
  · intro hstod
    cases hs : CalculatingDblStack.strToDbl L token with
    | error e =>
      obtain ⟨m, rfl, hm⟩ := strToDbl_error L token hs
      exact ⟨m, by rw [hpush, hs], hm⟩
    | ok value =>
      exfalso
      unfold CalculatingDblStack.strToDbl at hs
      cases hr : L.stod token with
      | invalid_argument => simp [hr] at hs
      | out_of_range => simp [hr] at hs
      | converted result read =>
        rw [hr] at hs
        by_cases hsize : token.utf8ByteSize = read
        · exact hstod result read hr hsize.symm
        · simp [hsize] at hs
  · rw [push_variable]
    rfl

/-- The token `2X`, typed as the digit 2 and then `X`, with the variable
string `5`, on the integer instance. -/
theorem literal_with_letter_witness :
    'X' ∈ "2X".toList ∧ "2X" ≠ "X" ∧
    CalculatingStack_with_variable.push integer_libm "5" "2X" [] =
      .error (.message "string <2X> is unconvertable to number", []) ∧
    CalculatingStack_with_variable.push integer_libm "5" "X" [] = .ok [5] :=
  ⟨by decide, by decide,
    (literal_with_letter integer_libm "5" "2X" [] (by decide) (by decide)).1.trans rfl, rfl⟩

/-! ## The refinement of the plotter -/

set_option maxRecDepth 100000 in
/-- C30, the claim as stated, fails: for `1 + 5 * X - 4 * X ^ 2` on the
interval from 0 to 2, with the visible range from -10 to 0 and `delta_y` 1,
the endpoint values are 1 and -5 and the midpoint value is 2; the right
endpoint value is not above `y_hi`, so none of the three conditions holds,
yet `recursive_plot` returns the midpoint alone, at recursion depth 1. -/
theorem early_refinement_stop :
    PlotableExpression.sample integer_fpu 0 ⟨parabola, [], [], "", ""⟩ =
      .returns 1 ⟨parabola, [], [1], "0", ""⟩ ∧
    PlotableExpression.sample integer_fpu 2 ⟨parabola, [], [], "", ""⟩ =
      .returns (-5) ⟨parabola, [], [-5], "2", ""⟩ ∧
    PlotableExpression.sample integer_fpu 1 ⟨parabola, [], [], "", ""⟩ =
      .returns 2 ⟨parabola, [], [2], "1", ""⟩ ∧
    stops_as_worded integer_fpu 1 1 (-5) 2 (-10) 0 = false ∧
    PlotableExpression.recursive_plot integer_fpu 1 0 2 1 1 (-5) (-10) 0
        ⟨parabola, [], [], "", ""⟩ =
      .returns [(1, 2)] ⟨parabola, [], [2], "1", ""⟩ :=
  ⟨rfl, rfl, rfl, by decide, rfl⟩

/-- C30, amended: with the midpoint value `y_mid`, `recursive_plot` returns
the midpoint alone, without recursing, exactly when `|y_mid - y_min| <
delta_y`, or an endpoint value lies above `y_hi` and below `y_mid`, or an
endpoint value lies below `y_lo` and above `y_mid`; in every other case it
recurses into the lower half and, when that call has returned, into the upper
half. -/
theorem refinement_stops (P : Fpu D) (x_min x_max delta_y y_min y_max y_lo y_hi y_mid : D)
    (s s1 : Session D)
    (hs : PlotableExpression.sample P (P.div (P.add x_min x_max) (P.of_int 2)) s =
      .returns y_mid s1) :
    ((PlotableExpression.recursive_plot P 1 x_min x_max delta_y y_min y_max y_lo y_hi s =
        .returns [(P.div (P.add x_min x_max) (P.of_int 2), y_mid)] s1) ↔
      (P.lt (P.abs (P.sub y_mid y_min)) delta_y = true ∨
        (P.lt y_min y_mid = true ∧ P.lt y_hi y_min = true) ∨
        (P.lt y_max y_mid = true ∧ P.lt y_hi y_max = true) ∨
        (P.lt y_mid y_max = true ∧ P.lt y_max y_lo = true) ∨
        (P.lt y_mid y_min = true ∧ P.lt y_min y_lo = true))) ∧
    ((P.lt (P.abs (P.sub y_mid y_min)) delta_y = true ∨
        (P.lt y_min y_mid = true ∧ P.lt y_hi y_min = true) ∨
        (P.lt y_max y_mid = true ∧ P.lt y_hi y_max = true) ∨
        (P.lt y_mid y_max = true ∧ P.lt y_max y_lo = true) ∨
        (P.lt y_mid y_min = true ∧ P.lt y_min y_lo = true)) →
      ∀ fuel, PlotableExpression.recursive_plot P (fuel + 1) x_min x_max delta_y y_min y_max
          y_lo y_hi s =
        .returns [(P.div (P.add x_min x_max) (P.of_int 2), y_mid)] s1) ∧
    (¬ (P.lt (P.abs (P.sub y_mid y_min)) delta_y = true ∨
        (P.lt y_min y_mid = true ∧ P.lt y_hi y_min = true) ∨
        (P.lt y_max y_mid = true ∧ P.lt y_hi y_max = true) ∨
        (P.lt y_mid y_max = true ∧ P.lt y_max y_lo = true) ∨
        (P.lt y_mid y_min = true ∧ P.lt y_min y_lo = true)) →
      ∀ fuel, PlotableExpression.recursive_plot P (fuel + 1) x_min x_max delta_y y_min y_max
          y_lo y_hi s =
        match PlotableExpression.recursive_plot P fuel x_min
            (P.div (P.add x_min x_max) (P.of_int 2)) delta_y y_min y_mid y_lo y_hi s1 with
        | .unfinished => .unfinished
        | .throws e s2 => .throws e s2
        | .returns lower s2 =>
          match PlotableExpression.recursive_plot P fuel
              (P.div (P.add x_min x_max) (P.of_int 2)) x_max delta_y y_mid y_max y_lo y_hi
              s2 with
          | .unfinished => .unfinished
          | .throws e s3 => .throws e s3
          | .returns upper s3 =>
            .returns
              (PlotableExpression.map_merge P
                (PlotableExpression.map_merge P
                  [(P.div (P.add x_min x_max) (P.of_int 2), y_mid)] lower)
                upper) s3) := by
  have hiff : PlotableExpression.stops P delta_y y_min y_max y_mid y_lo y_hi = true ↔
      (P.lt (P.abs (P.sub y_mid y_min)) delta_y = true ∨
        (P.lt y_min y_mid = true ∧ P.lt y_hi y_min = true) ∨
        (P.lt y_max y_mid = true ∧ P.lt y_hi y_max = true) ∨
        (P.lt y_mid y_max = true ∧ P.lt y_max y_lo = true) ∨
        (P.lt y_mid y_min = true ∧ P.lt y_min y_lo = true)) := by
    simp [PlotableExpression.stops, or_assoc]
  have hstop : PlotableExpression.stops P delta_y y_min y_max y_mid y_lo y_hi = true →
      ∀ fuel, PlotableExpression.recursive_plot P (fuel + 1) x_min x_max delta_y y_min y_max
          y_lo y_hi s =
        .returns [(P.div (P.add x_min x_max) (P.of_int 2), y_mid)] s1 := by
    intro h fuel
    simp [PlotableExpression.recursive_plot, hs, h, PlotableExpression.map_assign]
  refine ⟨⟨?_, fun h => hstop (hiff.2 h) 0⟩, fun h => hstop (hiff.2 h), ?_⟩
  · intro h
    by_contra hn
    have hf : PlotableExpression.stops P delta_y y_min y_max y_mid y_lo y_hi = false := by
      cases hb : PlotableExpression.stops P delta_y y_min y_max y_mid y_lo y_hi with
      | false => rfl
      | true => exact absurd (hiff.1 hb) hn
    simp [PlotableExpression.recursive_plot, hs, hf] at h
  · intro hn fuel
    have hf : PlotableExpression.stops P delta_y y_min y_max y_mid y_lo y_hi = false := by
      cases hb : PlotableExpression.stops P delta_y y_min y_max y_mid y_lo y_hi with
      | false => rfl
      | true => exact absurd (hiff.1 hb) hn
    rw [PlotableExpression.recursive_plot]
    simp only [hs, hf, Bool.false_eq_true, if_false, PlotableExpression.map_assign]

set_option maxRecDepth 100000 in
/-- The amended C30 at `1 + 5 * X - 4 * X ^ 2` on the interval from 0 to 2:
the left endpoint value 1 lies above `y_hi`, which is 0, and below the
midpoint value 2. -/
theorem refinement_stops_witness :
    PlotableExpression.sample integer_fpu
        (integer_fpu.div (integer_fpu.add 0 2) (integer_fpu.of_int 2))
        ⟨parabola, [], [], "", ""⟩ =
      .returns 2 ⟨parabola, [], [2], "1", ""⟩ ∧
    (integer_fpu.lt 1 2 = true ∧ integer_fpu.lt 0 1 = true) ∧
    ∀ fuel, PlotableExpression.recursive_plot integer_fpu (fuel + 1) 0 2 1 1 (-5) (-10) 0
        ⟨parabola, [], [], "", ""⟩ =
      .returns [(integer_fpu.div (integer_fpu.add 0 2) (integer_fpu.of_int 2), 2)]
        ⟨parabola, [], [2], "1", ""⟩ :=
  ⟨rfl, ⟨by decide, by decide⟩,
    (refinement_stops integer_fpu 0 2 1 1 (-5) (-10) 0 2 ⟨parabola, [], [], "", ""⟩
      ⟨parabola, [], [2], "1", ""⟩ rfl).2.1 (Or.inr (Or.inl ⟨by decide, by decide⟩))⟩

/-! ## A plot that fails at its first sample -/

/-- C21: for an expression whose display string is not empty and whose
evaluation at the first sample, with the variable string set to the encoding
of `x_lo`, throws the message `m`, and for a viewport with `x_lo <= x_hi`,
`CalculatorModel::graphs` returns the empty list of polylines, and
`some_result()` is `m` afterwards. -/
theorem plot_error_stored (P : Fpu D) (fuel : Nat) (x_lo x_hi : D) (x_pix : Int)
    (y_lo y_hi : D) (y_pix : Int) (s : Session D) (text m : String)
    (hne : CalculatorModel.expression s ≠ "") (hle : P.le x_lo x_hi = true)
    (hx : PlotableExpression.precise_dblToStr P x_lo = .ok text)
    (hm : (ComputStrExpressionWithVariable.solution P.toLibm
      (ComputStrExpressionWithVariable.edit_variable text s)).1 = .error (.message m)) :
    ∃ s', CalculatorModel.graphs P (fuel + 1) x_lo x_hi x_pix y_lo y_hi y_pix s =
        .returns [] s' ∧
      CalculatorModel.some_result s' = m := by
  have hempty : (!(CalculatorModel.expression s).isEmpty) = true := by
    cases hb : (CalculatorModel.expression s).isEmpty with
    | false => rfl
    | true => exact absurd ((String.isEmpty_iff _).mp hb) hne
  generalize hr : ComputStrExpressionWithVariable.solution P.toLibm
    (ComputStrExpressionWithVariable.edit_variable text s) = r at hm
  obtain ⟨outcome, s1⟩ := r
  simp only at hm
  subst hm
  have hsample : PlotableExpression.sample P x_lo s = .throws (.message m) s1 := by
    simp [PlotableExpression.sample, hx, hr]
  have hgraphs : PlotableExpression.graphs P (fuel + 1) x_lo x_hi x_pix y_lo y_hi y_pix s =
      .throws (.message m) s1 := by
    simp [PlotableExpression.graphs, PlotableExpression.graphs_loop, hle, hsample]
  refine ⟨{ s1 with result := m }, ?_, rfl⟩
  unfold CalculatorModel.graphs
  rw [if_pos hempty, hgraphs]

set_option maxRecDepth 100000 in
/-- The expressions `X ^` and `( X` on the viewport from 0 to 3. -/
theorem plot_error_stored_witness :
    (∃ s', CalculatorModel.graphs integer_fpu 1 0 3 1 0 3 1 ⟨["X", "^"], [], [], "", ""⟩ =
        .returns [] s' ∧
      CalculatorModel.some_result s' = "not enough arguments") ∧
    (∃ s', CalculatorModel.graphs integer_fpu 1 0 3 1 0 3 1 ⟨["(", "X"], [], [], "", ""⟩ =
        .returns [] s' ∧
      CalculatorModel.some_result s' = "missing right parenthesis") :=
  ⟨plot_error_stored integer_fpu 0 0 3 1 0 3 1 ⟨["X", "^"], [], [], "", ""⟩ "0"
      "not enough arguments" (by decide) (by decide) rfl rfl,
    plot_error_stored integer_fpu 0 0 3 1 0 3 1 ⟨["(", "X"], [], [], "", ""⟩ "0"
      "missing right parenthesis" (by decide) (by decide) rfl rfl⟩

/-! ## The polylines of `cut_subgraphs` -/

theorem runs_loop_graphs {α : Type} (p : α → Bool) (l : List α) :
    ∀ temp graphs, runs_loop p l temp graphs = graphs ++ runs_loop p l temp [] := by
  induction l with
  | nil =>
    intro temp graphs
    cases temp <;> simp [runs_loop]
  | cons a l ih =>
    intro temp graphs
    unfold runs_loop
    by_cases ha : p a = true
    · simp only [ha, if_true]
      exact ih _ _
    · simp only [ha, if_false]
      cases temp with
      | nil =>
        simp only [List.isEmpty_nil, Bool.not_true, Bool.false_eq_true, if_false]
        exact ih _ _
      | cons t temp =>
        simp only [List.isEmpty_cons, Bool.not_false, if_true]
        rw [ih [] (graphs ++ [t :: temp]), ih [] ([] ++ [t :: temp])]
        simp

theorem runs_loop_cons {α : Type} (p : α → Bool) (a : α) (l temp : List α) :
    runs_loop p (a :: l) temp [] =
      if p a then runs_loop p l (temp ++ [a]) []
      else closed temp ++ runs_loop p l [] [] := by
  by_cases ha : p a = true
  · simp [runs_loop, ha]
  · cases temp with
    | nil => simp [runs_loop, ha, closed]
    | cons t temp =>
      have hf : p a = false := by simpa using ha
      rw [runs_loop]
      simp only [hf, Bool.false_eq_true, if_false, List.isEmpty_cons, Bool.not_false, if_true,
        closed]
      rw [runs_loop_graphs]
      simp

theorem runs_loop_split {α : Type} (p : α → Bool) (l : List α) :
    ∀ temp, runs_loop p l temp [] =
      closed (temp ++ l.takeWhile p) ++ runs_loop p (l.dropWhile p) [] [] := by
  induction l with
  | nil =>
    intro temp
    cases temp <;> simp [runs_loop, closed]
  | cons a l ih =>
    intro temp
    by_cases ha : p a = true
    · rw [runs_loop_cons, if_pos ha, ih]
      simp [List.takeWhile_cons, List.dropWhile_cons, ha]
    · rw [runs_loop_cons, if_neg ha]
      have hf : p a = false := by simpa using ha
      simp only [List.takeWhile_cons, List.dropWhile_cons, hf, Bool.false_eq_true, if_false,
        List.append_nil]
      rw [runs_loop_cons, if_neg ha]
      simp [closed]

theorem runs_loop_ne_nil {α : Type} (p : α → Bool) (l : List α) :
    ∀ temp, ∀ g ∈ runs_loop p l temp [], g ≠ [] := by
  induction l with
  | nil =>
    intro temp g hg
    cases temp with
    | nil => simp [runs_loop] at hg
    | cons t temp =>
      simp [runs_loop] at hg
      subst hg
      simp
  | cons a l ih =>
    intro temp g hg
    rw [runs_loop_cons] at hg
    by_cases ha : p a = true
    · rw [if_pos ha] at hg
      exact ih _ g hg
    · rw [if_neg ha] at hg
      rcases List.mem_append.1 hg with h | h
      · cases temp with
        | nil => simp [closed] at h
        | cons t temp =>
          simp [closed] at h
          subst h
          simp
      · exact ih _ g h

theorem runs_loop_flatten {α : Type} (p : α → Bool) (l : List α) :
    ∀ temp, (runs_loop p l temp []).flatten = temp ++ l.filter p := by
  induction l with
  | nil =>
    intro temp
    cases temp <;> simp [runs_loop]
  | cons a l ih =>
    intro temp
    rw [runs_loop_cons]
    by_cases ha : p a = true
    · rw [if_pos ha, ih]
      simp [List.filter_cons, ha]
    · rw [if_neg ha, List.flatten_append, ih]
      cases temp <;> simp [closed, List.filter_cons, ha]

theorem runs_loop_block {α : Type} (p : α → Bool) (l : List α) :
    ∀ temp front, (∀ a ∈ front.getLast?, p a = false) →
      ∀ g ∈ runs_loop p l temp [],
        ∃ pre post, front ++ temp ++ l = pre ++ g ++ post ∧
          (∀ a ∈ pre.getLast?, p a = false) ∧ (∀ a ∈ post.head?, p a = false) := by
  induction l with
  | nil =>
    intro temp front hf g hg
    cases temp with
    | nil => simp [runs_loop] at hg
    | cons t temp =>
      simp [runs_loop] at hg
      subst hg
      exact ⟨front, [], by simp, hf, by simp⟩
  | cons a l ih =>
    intro temp front hf g hg
    rw [runs_loop_cons] at hg
    by_cases ha : p a = true
    · rw [if_pos ha] at hg
      obtain ⟨pre, post, heq, h1, h2⟩ := ih (temp ++ [a]) front hf g hg
      exact ⟨pre, post, by simpa [List.append_assoc] using heq, h1, h2⟩
    · rw [if_neg ha] at hg
      have hfa : p a = false := by simpa using ha
      rcases List.mem_append.1 hg with h | h
      · cases temp with
        | nil => simp [closed] at h
        | cons t temp =>
          simp [closed] at h
          subst h
          exact ⟨front, a :: l, by simp, hf, by simpa using hfa⟩
      · obtain ⟨pre, post, heq, h1, h2⟩ := ih [] (front ++ temp ++ [a])
          (by simpa using hfa) g h
        exact ⟨pre, post, by simpa [List.append_assoc] using heq, h1, h2⟩

theorem runs_loop_subset {α : Type} (p : α → Bool) (l : List α) {g : List α}
    (hg : g ∈ runs_loop p l [] []) {a : α} (ha : a ∈ g) : a ∈ l := by
  have hmem : a ∈ (runs_loop p l [] []).flatten := List.mem_flatten.2 ⟨g, hg, ha⟩
  rw [runs_loop_flatten] at hmem
  simp only [List.nil_append, List.mem_filter] at hmem
  exact hmem.1

theorem mem_takeWhile_split {α : Type} (p : α → Bool) (mid post : List α) (b : α)
    (hb : p b = true) (hnd : b ∉ mid) :
    b ∈ (mid ++ b :: post).takeWhile p ↔ ∀ c ∈ mid, p c = true := by
  induction mid with
  | nil => simp [List.takeWhile_cons, hb]
  | cons c mid ih =>
    have hbc : b ≠ c := fun h => hnd (by simp [h])
    have hmid : b ∉ mid := fun h => hnd (List.mem_cons_of_mem _ h)
    by_cases hc : p c = true
    · simp [List.takeWhile_cons, hc, hbc, ih hmid]
    · simp [List.takeWhile_cons, hc]

theorem runs_loop_together {α : Type} (p : α → Bool) (l : List α) :
    l.Nodup → ∀ (pre : List α) (a : α) (mid : List α) (b : α) (post : List α),
      l = pre ++ a :: mid ++ b :: post → p a = true → p b = true →
      ((∃ g ∈ runs_loop p l [] [], a ∈ g ∧ b ∈ g) ↔ ∀ c ∈ mid, p c = true) := by
  induction l with
  | nil =>
    intro _ pre a mid b post h
    simp at h
  | cons x l ih =>
    intro hnd pre a mid b post h ha hb
    have hxl : x ∉ l := (List.nodup_cons.1 hnd).1
    have hl : l.Nodup := (List.nodup_cons.1 hnd).2
    cases pre with
    | nil =>
      simp only [List.nil_append, List.cons_append, List.cons.injEq] at h
      obtain ⟨rfl, rfl⟩ := h
      have hbm : b ∉ mid := by
        intro hm
        have := List.nodup_append.1 hl
        exact this.2.2 hm (List.mem_cons_self _ _)
      have hbx : b ≠ x := by
        rintro rfl
        exact hxl (by simp)
      rw [runs_loop_cons, if_pos ha, runs_loop_split]
      simp only [List.nil_append, List.singleton_append]
      rw [← mem_takeWhile_split p mid post b hb hbm]
      constructor
      · rintro ⟨g, hg, hag, hbg⟩
        rcases List.mem_append.1 hg with h | h
        · simp [closed] at h
          subst h
          simpa [hbx] using hbg
        · have := runs_loop_subset p _ h hag
          exact absurd (List.dropWhile_subset _ this) hxl
      · intro hmem
        exact ⟨x :: (mid ++ b :: post).takeWhile p,
          List.mem_append_left _ (by simp [closed]), by simp, by simp [hmem]⟩
    | cons y pre =>
      simp only [List.cons_append, List.cons.injEq] at h
      obtain ⟨rfl, rfl⟩ := h
      have hal : a ∈ pre ++ a :: mid ++ b :: post := by simp
      have hbl : b ∈ pre ++ a :: mid ++ b :: post := by simp
      have hay : a ≠ x := fun h => hxl (h ▸ hal)
      have hby : b ≠ x := fun h => hxl (h ▸ hbl)
      rw [← ih hl pre a mid b post rfl ha hb]
      generalize pre ++ a :: mid ++ b :: post = L at hal hbl
      by_cases hy : p x = true
      · have h1 : runs_loop p (x :: L) [] [] =
            (x :: L.takeWhile p) :: runs_loop p (L.dropWhile p) [] [] := by
          rw [runs_loop_cons, if_pos hy, runs_loop_split]
          simp [closed]
        have h2 : runs_loop p L [] [] =
            closed (L.takeWhile p) ++ runs_loop p (L.dropWhile p) [] [] := by
          rw [runs_loop_split p L []]
          simp
        rw [h1, h2]
        constructor
        · rintro ⟨g, hg, hag, hbg⟩
          rcases List.mem_cons.1 hg with h | h
          · subst h
            have ha' : a ∈ L.takeWhile p := by simpa [hay] using hag
            have hb' : b ∈ L.takeWhile p := by simpa [hby] using hbg
            refine ⟨_, List.mem_append_left _ ?_, ha', hb'⟩
            cases htw : L.takeWhile p with
            | nil =>
              rw [htw] at ha'
              cases ha'
            | cons t ts => simp [closed]
          · exact ⟨g, List.mem_append_right _ h, hag, hbg⟩
        · rintro ⟨g, hg, hag, hbg⟩
          rcases List.mem_append.1 hg with h | h
          · have hgeq : g = L.takeWhile p := by
              cases htw : L.takeWhile p with
              | nil => simp [closed, htw] at h
              | cons t ts => simpa [closed, htw] using h
            subst hgeq
            exact ⟨_, List.mem_cons_self _ _, List.mem_cons_of_mem _ hag,
              List.mem_cons_of_mem _ hbg⟩
          · exact ⟨g, List.mem_cons_of_mem _ h, hag, hbg⟩
      · rw [runs_loop_cons, if_neg hy]
        simp [closed]

theorem map_assign_last (P : Fpu D) (key value : D) (temp : Graph D)
    (h : ∀ e ∈ temp, P.lt e.1 key = true ∧ P.lt key e.1 = false) :
    PlotableExpression.map_assign P key value temp = temp ++ [(key, value)] := by
  induction temp with
  | nil => rfl
  | cons e temp ih =>
    obtain ⟨k, v⟩ := e
    have hk := h (k, v) (List.mem_cons_self _ _)
    simp only at hk
    simp [PlotableExpression.map_assign, hk.1, hk.2,
      ih (fun e he => h e (List.mem_cons_of_mem _ he))]

theorem cut_loop_eq (P : Fpu D) (y_lo y_hi : D) (rest : Graph D) :
    ∀ (temp : Graph D) (graphs : List (Graph D)), Ordered P (temp ++ rest) →
      PlotableExpression.cut_loop P y_lo y_hi rest temp graphs =
        runs_loop (inside P y_lo y_hi) rest temp graphs := by
  induction rest with
  | nil =>
    intro temp graphs _
    rfl
  | cons e rest ih =>
    intro temp graphs ho
    obtain ⟨key, value⟩ := e
    unfold PlotableExpression.cut_loop runs_loop
    have hin : (P.le y_lo value && P.le value y_hi) = inside P y_lo y_hi (key, value) := rfl
    rw [hin]
    by_cases hi : inside P y_lo y_hi (key, value) = true
    · simp only [hi, if_true]
      have hlast : ∀ e ∈ temp, P.lt e.1 key = true ∧ P.lt key e.1 = false := by
        intro e he
        have := List.pairwise_append.1 ho
        exact this.2.2 e he (key, value) (List.mem_cons_self _ _)
      rw [map_assign_last P key value temp hlast]
      apply ih
      simpa [List.append_assoc] using ho
    · simp only [hi, if_false]
      have hrest : Ordered P ([] ++ rest) := by
        have := (List.pairwise_append.1 ho).2.1
        exact (List.pairwise_cons.1 this).2
      have hkeep : Ordered P (temp ++ rest) := by
        unfold Ordered at ho ⊢
        refine ho.sublist ?_
        exact List.Sublist.append_left (List.sublist_cons_self _ _) _
      cases temp with
      | nil =>
        simp only [List.isEmpty_nil, Bool.not_true, Bool.false_eq_true, if_false]
        exact ih _ _ hrest
      | cons t temp =>
        simp only [List.isEmpty_cons, Bool.not_false, if_true]
        exact ih _ _ hrest

theorem ordered_nodup (P : Fpu D) {graph : Graph D} (h : Ordered P graph) : graph.Nodup := by
  unfold Ordered at h
  refine List.Pairwise.imp ?_ h
  rintro a b ⟨h1, h2⟩ rfl
  rw [h1] at h2
  cases h2

/-- C22: on a sample map, whose elements stand in the strict order of their
keys, `cut_subgraphs` returns the maximal runs of consecutive points whose
value lies in the range from `y_lo` to `y_hi`: every returned polyline is
non-empty; the polylines, one after the other, are the in-range points of the
map in the order of the keys, each once, so that no out-of-range point occurs
in any; every polyline is a block of consecutive points of the map with an
out-of-range point, or an end of the map, on either side; and two in-range
points share a polyline exactly when no point between them is out of
range. -/
theorem cut_subgraphs_runs (P : Fpu D) (source : Graph D) (y_lo y_hi : D)
    (hs : Ordered P source) :
    (∀ g ∈ PlotableExpression.cut_subgraphs P source y_lo y_hi, g ≠ []) ∧
    (PlotableExpression.cut_subgraphs P source y_lo y_hi).flatten =
      source.filter (inside P y_lo y_hi) ∧
    (PlotableExpression.cut_subgraphs P source y_lo y_hi).flatten.Nodup ∧
    (∀ g ∈ PlotableExpression.cut_subgraphs P source y_lo y_hi,
      ∃ pre post, source = pre ++ g ++ post ∧
        (∀ a ∈ pre.getLast?, inside P y_lo y_hi a = false) ∧
        (∀ a ∈ post.head?, inside P y_lo y_hi a = false)) ∧
    (∀ (pre : Graph D) (a : D × D) (mid : Graph D) (b : D × D) (post : Graph D),
      source = pre ++ a :: mid ++ b :: post →
      inside P y_lo y_hi a = true → inside P y_lo y_hi b = true →
      ((∃ g ∈ PlotableExpression.cut_subgraphs P source y_lo y_hi, a ∈ g ∧ b ∈ g) ↔
        ∀ c ∈ mid, inside P y_lo y_hi c = true)) := by
  have heq : PlotableExpression.cut_subgraphs P source y_lo y_hi =
      runs_loop (inside P y_lo y_hi) source [] [] :=
    cut_loop_eq P y_lo y_hi source [] [] (by simpa using hs)
  rw [heq]
  have hflat := runs_loop_flatten (inside P y_lo y_hi) source []
  simp only [List.nil_append] at hflat
  refine ⟨runs_loop_ne_nil _ source [], hflat, ?_, ?_, ?_⟩
  · rw [hflat]
    exact (ordered_nodup P hs).filter _
  · intro g hg
    have := runs_loop_block (inside P y_lo y_hi) source [] [] (by simp) g hg
    simpa using this
  · exact runs_loop_together (inside P y_lo y_hi) source (ordered_nodup P hs)

/-- A map of five points of which the first and the fourth lie outside the
range from 0 to 3. -/
theorem cut_subgraphs_runs_witness :
    Ordered integer_fpu [(0, 5), (1, 1), (2, 2), (3, 9), (4, 0)] ∧
    PlotableExpression.cut_subgraphs integer_fpu [(0, 5), (1, 1), (2, 2), (3, 9), (4, 0)] 0 3 =
      [[(1, 1), (2, 2)], [(4, 0)]] ∧
    (PlotableExpression.cut_subgraphs integer_fpu
        [(0, 5), (1, 1), (2, 2), (3, 9), (4, 0)] 0 3).flatten =
      [(0, 5), (1, 1), (2, 2), (3, 9), (4, 0)].filter (inside integer_fpu 0 3) :=
  ⟨by unfold Ordered; decide, by decide,
    (cut_subgraphs_runs integer_fpu [(0, 5), (1, 1), (2, 2), (3, 9), (4, 0)] 0 3
      (by unfold Ordered; decide)).2.1⟩

/-! ## The uniform samples of `graphs` -/

theorem abscissa_shift (P : Fpu D) (x delta_x : D) (k : Nat) :
    abscissa P (P.add x delta_x) delta_x k = abscissa P x delta_x (k + 1) := by
  induction k with
  | zero => rfl
  | succ k ih =>
    show P.add (abscissa P (P.add x delta_x) delta_x k) delta_x = _
    rw [ih]
    rfl

theorem sample_value (P : Fpu D) (x : D) (s : Session D) {y : D} {s1 : Session D}
    (h : PlotableExpression.sample P x s = .returns y s1) :
    value_at P s.expression x = some y := by
  unfold value_at
  unfold PlotableExpression.sample at h ⊢
  cases hp : PlotableExpression.precise_dblToStr P x with
  | error e => simp [hp] at h
  | ok text =>
    rw [hp] at h
    simp only at h ⊢
    have hsame : (ComputStrExpressionWithVariable.solution P.toLibm
          (ComputStrExpressionWithVariable.edit_variable text
            ⟨s.expression, [], [], "", ""⟩)).1 =
        (ComputStrExpressionWithVariable.solution P.toLibm
          (ComputStrExpressionWithVariable.edit_variable text s)).1 := rfl
    generalize ComputStrExpressionWithVariable.solution P.toLibm
      (ComputStrExpressionWithVariable.edit_variable text s) = r at h hsame
    generalize ComputStrExpressionWithVariable.solution P.toLibm
      (ComputStrExpressionWithVariable.edit_variable text ⟨s.expression, [], [], "", ""⟩) = r0
      at hsame
    obtain ⟨o, t⟩ := r
    obtain ⟨o0, t0⟩ := r0
    simp only at hsame
    subst hsame
    cases o0 with
    | error e => simp at h
    | ok v =>
      simp only [Outcome.returns.injEq] at h
      simp [h.1]

theorem sample_expression (P : Fpu D) (x : D) (s : Session D) {y : D} {s1 : Session D}
    (h : PlotableExpression.sample P x s = .returns y s1) : s1.expression = s.expression :=
  (sample_sampled P x s s1 (by rw [h]; rfl)).1

theorem map_insert_subset (P : Fpu D) (key value : D) (graph : Graph D) :
    ∀ e ∈ PlotableExpression.map_insert P key value graph, e = (key, value) ∨ e ∈ graph := by
  induction graph with
  | nil =>
    intro e he
    simp [PlotableExpression.map_insert] at he
    exact Or.inl he
  | cons f graph ih =>
    obtain ⟨k, v⟩ := f
    intro e he
    unfold PlotableExpression.map_insert at he
    cases h1 : P.lt key k with
    | true =>
      simp only [h1, if_true, List.mem_cons] at he
      rcases he with h | h | h
      · exact Or.inl h
      · exact Or.inr (by simp [h])
      · exact Or.inr (by simp [h])
    | false =>
      cases h2 : P.lt k key with
      | true =>
        simp only [h1, h2, Bool.false_eq_true, if_false, if_true, List.mem_cons] at he
        rcases he with h | h
        · exact Or.inr (by simp [h])
        · rcases ih e h with h | h
          · exact Or.inl h
          · exact Or.inr (by simp [h])
      | false =>
        simp only [h1, h2, Bool.false_eq_true, if_false] at he
        exact Or.inr he

theorem map_insert_keeps (P : Fpu D) (key value : D) (graph : Graph D) (e : D × D)
    (he : e ∈ graph) : e ∈ PlotableExpression.map_insert P key value graph := by
  induction graph with
  | nil => cases he
  | cons f graph ih =>
    obtain ⟨k, v⟩ := f
    unfold PlotableExpression.map_insert
    cases h1 : P.lt key k with
    | true =>
      simp only [if_true]
      exact List.mem_cons_of_mem _ he
    | false =>
      cases h2 : P.lt k key with
      | true =>
        simp only [Bool.false_eq_true, if_false, if_true]
        rcases List.mem_cons.1 he with h | h
        · simp [h]
        · exact List.mem_cons_of_mem _ (ih h)
      | false =>
        simp only [Bool.false_eq_true, if_false]
        exact he

theorem map_merge_keeps (P : Fpu D) (source : Graph D) :
    ∀ (target : Graph D) (e : D × D), e ∈ target →
      e ∈ PlotableExpression.map_merge P target source := by
  induction source with
  | nil =>
    intro target e he
    exact he
  | cons f source ih =>
    intro target e he
    unfold PlotableExpression.map_merge
    rw [List.foldl_cons]
    exact ih _ e (map_insert_keeps P f.1 f.2 target e he)

theorem map_merge_subset (P : Fpu D) (source : Graph D) :
    ∀ (target : Graph D), ∀ e ∈ PlotableExpression.map_merge P target source,
      e ∈ target ∨ e ∈ source := by
  induction source with
  | nil =>
    intro target e he
    exact Or.inl he
  | cons f source ih =>
    intro target e he
    unfold PlotableExpression.map_merge at he
    rw [List.foldl_cons] at he
    rcases ih _ e he with h | h
    · rcases map_insert_subset P f.1 f.2 target e h with h | h
      · exact Or.inr (by simp [h])
      · exact Or.inl h
    · exact Or.inr (List.mem_cons_of_mem _ h)

theorem exact_merge (P : Fpu D) {expression : List String} {target source : Graph D}
    (ht : Exact P expression target) (hs : Exact P expression source) :
    Exact P expression (PlotableExpression.map_merge P target source) := by
  intro e he
  rcases map_merge_subset P source target e he with h | h
  · exact ht e h
  · exact hs e h

theorem recursive_plot_fuel (P : Fpu D) (fuel : Nat) :
    ∀ (x_min x_max delta_y y_min y_max y_lo y_hi : D) (s : Session D),
      PlotableExpression.recursive_plot P fuel x_min x_max delta_y y_min y_max y_lo y_hi s ≠
        .unfinished →
      PlotableExpression.recursive_plot P (fuel + 1) x_min x_max delta_y y_min y_max y_lo y_hi
          s =
        PlotableExpression.recursive_plot P fuel x_min x_max delta_y y_min y_max y_lo y_hi
          s := by
  induction fuel with
  | zero =>
    intro x_min x_max delta_y y_min y_max y_lo y_hi s h
    exact absurd rfl h
  | succ fuel ih =>
    intro x_min x_max delta_y y_min y_max y_lo y_hi s h
    rw [PlotableExpression.recursive_plot] at h ⊢
    rw [PlotableExpression.recursive_plot]
    cases hsample : PlotableExpression.sample P (P.div (P.add x_min x_max) (P.of_int 2)) s with
    | unfinished => rfl
    | throws e s1 => rfl
    | returns y_mid s1 =>
      rw [hsample] at h
      simp only at h ⊢
      by_cases hstop : PlotableExpression.stops P delta_y y_min y_max y_mid y_lo y_hi = true
      · simp only [hstop, if_true]
      · simp only [hstop, if_false] at h ⊢
        cases hl : PlotableExpression.recursive_plot P fuel x_min
            (P.div (P.add x_min x_max) (P.of_int 2)) delta_y y_min y_mid y_lo y_hi s1 with
        | unfinished => simp [hl] at h
        | throws e s2 =>
          rw [ih _ _ _ _ _ _ _ s1 (by rw [hl]; exact fun h => nomatch h), hl]
        | returns lower s2 =>
          rw [ih _ _ _ _ _ _ _ s1 (by rw [hl]; exact fun h => nomatch h), hl]
          rw [hl] at h
          simp only at h ⊢
          cases hu : PlotableExpression.recursive_plot P fuel
              (P.div (P.add x_min x_max) (P.of_int 2)) x_max delta_y y_mid y_max y_lo y_hi
              s2 with
          | unfinished => simp [hu] at h
          | throws e s3 =>
            rw [ih _ _ _ _ _ _ _ s2 (by rw [hu]; exact fun h => nomatch h), hu]
          | returns upper s3 =>
            rw [ih _ _ _ _ _ _ _ s2 (by rw [hu]; exact fun h => nomatch h), hu]

theorem graphs_loop_fuel (P : Fpu D) (fuel : Nat) :
    ∀ (x x_lo x_hi delta_x delta_y y_lo y_hi : D) (previous : Option (D × D))
      (graph : Graph D) (s : Session D),
      PlotableExpression.graphs_loop P fuel x x_lo x_hi delta_x delta_y y_lo y_hi previous
        graph s ≠ .unfinished →
      PlotableExpression.graphs_loop P (fuel + 1) x x_lo x_hi delta_x delta_y y_lo y_hi
          previous graph s =
        PlotableExpression.graphs_loop P fuel x x_lo x_hi delta_x delta_y y_lo y_hi previous
          graph s := by
  induction fuel with
  | zero =>
    intro x x_lo x_hi delta_x delta_y y_lo y_hi previous graph s h
    exact absurd rfl h
  | succ fuel ih =>
    intro x x_lo x_hi delta_x delta_y y_lo y_hi previous graph s h
    rw [PlotableExpression.graphs_loop] at h ⊢
    rw [PlotableExpression.graphs_loop]
    by_cases hle : P.le x x_hi = true
    · simp only [hle, if_true] at h ⊢
      cases hsample : PlotableExpression.sample P x s with
      | unfinished => rfl
      | throws e s1 => rfl
      | returns y s1 =>
        rw [hsample] at h
        simp only at h ⊢
        by_cases hne : (!P.eq x x_lo) = true
        · simp only [hne, if_true] at h ⊢
          cases previous with
          | none => rfl
          | some prev =>
            obtain ⟨prev_x, prev_y⟩ := prev
            simp only at h ⊢
            by_cases hgt : P.lt delta_y (P.abs (P.sub y prev_y)) = true
            · simp only [hgt, if_true] at h ⊢
              cases hr : PlotableExpression.recursive_plot P fuel prev_x x delta_y prev_y y
                  y_lo y_hi s1 with
              | unfinished => simp [hr] at h
              | throws e s2 =>
                rw [recursive_plot_fuel P fuel _ _ _ _ _ _ _ s1
                  (by rw [hr]; exact fun h => nomatch h), hr]
              | returns refined s2 =>
                rw [recursive_plot_fuel P fuel _ _ _ _ _ _ _ s1
                  (by rw [hr]; exact fun h => nomatch h), hr]
                rw [hr] at h
                simp only at h ⊢
                exact ih _ _ _ _ _ _ _ _ _ _ h
            · simp only [hgt, if_false] at h ⊢
              exact ih _ _ _ _ _ _ _ _ _ _ h
        · simp only [hne, if_false] at h ⊢
          exact ih _ _ _ _ _ _ _ _ _ _ h
    · rw [if_neg hle, if_neg hle]

theorem graphs_fuel (P : Fpu D) (fuel : Nat) (x_lo x_hi : D) (x_pix : Int) (y_lo y_hi : D)
    (y_pix : Int) (s s' : Session D) (polylines : List (Graph D))
    (h : PlotableExpression.graphs P fuel x_lo x_hi x_pix y_lo y_hi y_pix s =
      .returns polylines s') :
    ∀ n, PlotableExpression.graphs P (fuel + n) x_lo x_hi x_pix y_lo y_hi y_pix s =
      .returns polylines s' := by
  intro n
  induction n with
  | zero => exact h
  | succ n ih =>
    unfold PlotableExpression.graphs at ih ⊢
    rw [show fuel + (n + 1) = (fuel + n) + 1 from rfl, graphs_loop_fuel P (fuel + n)]
    · exact ih
    · intro hu
      rw [hu] at ih
      cases ih

theorem rational_order (a b : Rat) (h1 : rational_fpu.lt a b = false)
    (h2 : rational_fpu.lt b a = false) : a = b := by
  have h1' : ¬ a < b := by simpa [rational_fpu] using h1
  have h2' : ¬ b < a := by simpa [rational_fpu] using h2
  exact le_antisymm (not_lt.1 h2') (not_lt.1 h1')

/-! ## The entries of the operator stack and the lookups of the converter -/

theorem valid_entry {stack : List String} (hv : Valid stack) {t : String} (ht : t ∈ stack) :
    (t = "(" ∨ contains t = true) ∧ t ≠ ")" ∧ t ≠ "X" ∧ standalone t = true := by
  have h := hv t ht
  refine ⟨h, ?_, ?_, ?_⟩
  · rintro rfl
    rcases h with h | h
    · revert h
      decide
    · revert h
      decide
  · rintro rfl
    rcases h with h | h
    · revert h
      decide
    · revert h
      decide
  · rcases h with h | h
    · subst h
      decide
    · exact standalone_of_contains h

theorem postfixed_loop_valid (tokens : List String) {stack result stack' result' : List String}
    (hv : Valid stack) (h : postfixed_loop tokens stack result = .ok (stack', result')) :
    Valid stack' :=
  (postfixed_loop_open_count tokens hv h).1

theorem postfixed_run_valid {S old stack : List String} {e : Thrown}
    (h : postfixed_run S old = .error (e, stack)) : Valid stack := by
  unfold postfixed_run at h
  cases hl : postfixed_loop (tokenized S) [] [] with
  | error e1 =>
    rw [hl] at h
    simp only [Except.error.injEq] at h
    have := postfixed_loop_error (tokenized S) valid_nil hl
    rw [h] at this
    simp only [Prod.mk.injEq] at this
    rw [this.2]
    exact valid_nil
  | ok sr =>
    obtain ⟨s1, r1⟩ := sr
    rw [hl] at h
    simp only at h
    have hv := postfixed_loop_valid (tokenized S) valid_nil hl
    rw [postfixed_end_eq hv] at h
    by_cases hd : s1.dropWhile binary = []
    · rw [if_pos hd] at h
      cases h
    · rw [if_neg hd] at h
      simp only [Except.error.injEq, Prod.mk.injEq] at h
      rw [← h.2]
      exact Valid.dropWhile_valid binary hv

/-- C33: after every prefix of the token sequence that the loop of
`postfixed()` has read, every element of the operator stack is `(` or a
catalogue name, and so is none of `)`, `X` or another operand token; the same
holds of the stack at the moment `postfixed()` throws, and the stack is empty
when `postfixed()` returns. -/
theorem operator_stack_entries (S : List String) :
    (∀ p, p <+: tokenized S → ∀ stack result, postfixed_loop p [] [] = .ok (stack, result) →
      ∀ t ∈ stack, (t = "(" ∨ contains t = true) ∧ t ≠ ")" ∧ t ≠ "X" ∧
        is_operand t = false) ∧
    (∀ old e stack, postfixed_run S old = .error (e, stack) →
      ∀ t ∈ stack, (t = "(" ∨ contains t = true) ∧ t ≠ ")" ∧ t ≠ "X" ∧
        is_operand t = false) ∧
    (∀ old stack result, postfixed_run S old = .ok (stack, result) → stack = []) := by
  refine ⟨?_, ?_, ?_⟩
  · intro p _ stack result h t ht
    have := valid_entry (postfixed_loop_valid p valid_nil h) ht
    exact ⟨this.1, this.2.1, this.2.2.1, by simp [is_operand, this.2.2.2]⟩
  · intro old e stack h t ht
    have := valid_entry (postfixed_run_valid h) ht
    exact ⟨this.1, this.2.1, this.2.2.1, by simp [is_operand, this.2.2.2]⟩
  · intro old stack result h
    rcases postfixed_run_outcome S old with ⟨tokens, h1⟩ | h1 | ⟨left, h1⟩
    · rw [h1] at h
      simp only [Except.ok.injEq, Prod.mk.injEq] at h
      exact h.1.symm
    · rw [h1] at h
      cases h
    · rw [h1] at h
      cases h

theorem length_takeWhile_le (p : String → Bool) (stack : List String) :
    (stack.takeWhile p).length ≤ stack.length := by
  have := congrArg List.length (List.takeWhile_append_dropWhile p stack)
  rw [List.length_append] at this
  omega

/-- C35: on the operator stack as it is after every prefix of the token
sequence, the body of the loop of `postfixed()` for whatever token comes next,
and the statements after the loop, throw nothing but the two parenthesis
messages: no `pop_back` on an empty vector and no `at()` on a missing key. On
such a stack each of `unary_operators()`, `not_unary_operators()` and, for a
catalogue name, `hi_preced_operators()` returns, the `pop_multiple` of what it
returned removes no more elements than the stack holds, and so does the
`pop_multiple` of `left_bracket()`. -/
theorem converter_lookups (S : List String) :
    (∀ old, (∃ out, postfixed S old = .ok out) ∨
      postfixed S old = .error (.message "missing left parenthesis") ∨
      postfixed S old = .error (.message "missing right parenthesis")) ∧
    (∀ p, p <+: tokenized S → ∀ stack result, postfixed_loop p [] [] = .ok (stack, result) →
      (∀ token, (∃ r, postfixed_token token stack result = .ok r) ∨
        postfixed_token token stack result =
          .error (.message "missing left parenthesis", [])) ∧
      ((∃ r, postfixed_end stack result = .ok r) ∨
        ∃ left, postfixed_end stack result =
          .error (.message "missing right parenthesis", left)) ∧
      (∃ taken, unary_operators stack = .ok taken ∧ taken.length ≤ stack.length ∧
        ∃ left, pop_multiple taken stack = .ok left) ∧
      (∃ taken, not_unary_operators stack = .ok taken ∧ taken.length ≤ stack.length ∧
        ∃ left, pop_multiple taken stack = .ok left) ∧
      (∀ token, contains token = true →
        ∃ taken, hi_preced_operators token stack = .ok taken ∧
          taken.length ≤ stack.length ∧ ∃ left, pop_multiple taken stack = .ok left) ∧
      (left_bracket stack).length ≤ stack.length ∧
      ∃ left, pop_multiple (left_bracket stack) stack = .ok left) := by
  constructor
  · intro old
    unfold postfixed
    rcases postfixed_run_outcome S old with ⟨tokens, h⟩ | h | ⟨left, h⟩
    · exact Or.inl ⟨tokens, by rw [h]⟩
    · exact Or.inr (Or.inl (by rw [h]))
    · exact Or.inr (Or.inr (by rw [h]))
  · intro p _ stack result h
    have hv := postfixed_loop_valid p valid_nil h
    refine ⟨?_, ?_, ?_, ?_, ?_, ?_, ?_⟩
    · intro token
      rcases postfixed_token_cases token hv result with
        ⟨_, ht⟩ | ⟨_, ht⟩ | ⟨_, _, ht⟩ | ⟨_, _, ht⟩ | ⟨_, _, _, ht⟩
      · exact Or.inl ⟨_, ht⟩
      · exact Or.inl ⟨_, ht⟩
      · exact Or.inr ht
      · exact Or.inl ⟨_, ht⟩
      · exact Or.inl ⟨_, ht⟩
    · rw [postfixed_end_eq hv]
      by_cases hd : stack.dropWhile binary = []
      · rw [if_pos hd]
        exact Or.inl ⟨_, rfl⟩
      · rw [if_neg hd]
        exact Or.inr ⟨_, rfl⟩
    · exact ⟨_, unary_operators_eq hv, length_takeWhile_le _ _, _,
        pop_multiple_takeWhile unary stack⟩
    · exact ⟨_, not_unary_operators_eq hv, length_takeWhile_le _ _, _,
        pop_multiple_takeWhile binary stack⟩
    · intro token hc
      exact ⟨_, hi_preced_operators_eq hc hv, length_takeWhile_le _ _, _,
        pop_multiple_takeWhile (outranks token) stack⟩
    · cases stack with
      | nil => simp [left_bracket]
      | cons top below =>
        by_cases ht : top = "(" <;> simp [left_bracket, ht]
    · exact ⟨_, pop_multiple_left_bracket stack⟩

/-! ## The tokens and the order of the operands -/

theorem join_append (a b : List String) :
    String.join (a ++ b) = String.join a ++ String.join b := by
  induction a with
  | nil => simp [String.join]
  | cons x a ih => rw [List.cons_append, join_cons, join_cons, ih, String.append_assoc]

theorem join_flatten (groups : List (List String)) :
    String.join (groups.map String.join) = String.join groups.flatten := by
  induction groups with
  | nil => rfl
  | cons g groups ih =>
    rw [List.map_cons, join_cons, List.flatten_cons, join_append, ih]

/-- C36: the concatenation of the tokens `tokenized()` returns is the
concatenation of the atoms of the expression buffer. -/
theorem tokenized_concatenation (S : List String) :
    String.join (tokenized S) = String.join S := by
  obtain ⟨groups, hflat, -, -, htok, -⟩ := tokenized_groups S
  rw [htok, join_flatten, hflat]

theorem filter_operand_valid {l : List String} (h : Valid l) : l.filter is_operand = [] := by
  rw [List.filter_eq_nil_iff]
  intro t ht
  have := (valid_entry h ht).2.2.2
  simp [is_operand, this]

theorem valid_takeWhile (p : String → Bool) {stack : List String} (h : Valid stack) :
    Valid (stack.takeWhile p) :=
  fun s hs => h s ((List.takeWhile_sublist p).subset hs)

theorem postfixed_token_operands {token : String} {stack result stack' result' : List String}
    (hv : Valid stack) (h : postfixed_token token stack result = .ok (stack', result')) :
    result'.filter is_operand = result.filter is_operand ++ [token].filter is_operand := by
  rcases postfixed_token_cases token hv result with
    ⟨hc, ht⟩ | ⟨rfl, ht⟩ | ⟨rfl, _, ht⟩ | ⟨rfl, _, ht⟩ | ⟨hc, ho, hcl, ht⟩
  · rw [ht] at h
    simp only [Except.ok.injEq, Prod.mk.injEq] at h
    rw [← h.2, List.filter_append, filter_operand_valid (valid_takeWhile _ hv)]
    simp [is_operand, standalone_of_contains hc]
  · rw [ht] at h
    simp only [Except.ok.injEq, Prod.mk.injEq] at h
    rw [← h.2]
    simp [is_operand, show standalone "(" = true from by decide]
  · rw [ht] at h
    cases h
  · rw [ht] at h
    simp only [Except.ok.injEq, Prod.mk.injEq] at h
    rw [← h.2, List.filter_append, List.filter_append,
      filter_operand_valid (valid_takeWhile _ hv),
      filter_operand_valid (valid_takeWhile _
        (Valid.unbracket_valid (Valid.dropWhile_valid _ hv)))]
    simp [is_operand, show standalone ")" = true from by decide]
  · rw [ht] at h
    simp only [Except.ok.injEq, Prod.mk.injEq] at h
    rw [← h.2, List.filter_append, List.filter_append,
      filter_operand_valid (valid_takeWhile _ hv)]
    simp

theorem postfixed_loop_operands (tokens : List String) :
    ∀ {stack result stack' result' : List String}, Valid stack →
      postfixed_loop tokens stack result = .ok (stack', result') →
      result'.filter is_operand = result.filter is_operand ++ tokens.filter is_operand := by
  induction tokens with
  | nil =>
    intro stack result stack' result' _ h
    simp only [postfixed_loop, Except.ok.injEq, Prod.mk.injEq] at h
    rw [h.2]
    simp
  | cons token tokens ih =>
    intro stack result stack' result' hv h
    rw [postfixed_loop_cons] at h
    cases hs : postfixed_token token stack result with
    | error e => simp [hs] at h
    | ok sr =>
      obtain ⟨s1, r1⟩ := sr
      rw [hs] at h
      simp only at h
      rw [ih (postfixed_token_valid hv hs) h, postfixed_token_operands hv hs,
        List.append_assoc, ← List.filter_append]
      rfl

/-- C37: when `postfixed()` returns, the operand tokens, those that are neither
catalogue names nor brackets, stand in the returned sequence in the order in
which they stand in the token sequence. -/
theorem operands_keep_order (S old out : List String) (h : postfixed S old = .ok out) :
    out.filter is_operand = (tokenized S).filter is_operand := by
  have hrun := postfixed_run_of_ok h
  unfold postfixed_run at hrun
  cases hl : postfixed_loop (tokenized S) [] [] with
  | error e => simp [hl] at hrun
  | ok sr =>
    obtain ⟨s1, r1⟩ := sr
    rw [hl] at hrun
    simp only at hrun
    have hv := postfixed_loop_valid (tokenized S) valid_nil hl
    obtain ⟨-, -, hout⟩ := postfixed_end_ok hv hrun
    have hops := postfixed_loop_operands (tokenized S) valid_nil hl
    rw [hout, List.filter_append, filter_operand_valid (valid_takeWhile _ hv), hops]
    simp

/-- The expression of the test `PostfixStringExpression.test_14`. -/
theorem operands_keep_order_witness :
    postfixed ["3", "+", "4", "*", "2", "/", "(", "1", "-", "5", ")", "^", "2", "^", "3"] [] =
      .ok ["3", "4", "2", "*", "1", "5", "-", "2", "3", "^", "^", "/", "+"] ∧
    ["3", "4", "2", "*", "1", "5", "-", "2", "3", "^", "^", "/", "+"].filter is_operand =
      (tokenized
        ["3", "+", "4", "*", "2", "/", "(", "1", "-", "5", ")", "^", "2", "^", "3"]).filter
        is_operand :=
  ⟨rfl, operands_keep_order _ [] _ rfl⟩

/-! ## The outcome as a function of the atoms and the variable string -/

/-- C34: the outcome of `postfixed()` and the outcome of `solution()`, the
value or what is thrown, are the same in two sessions that agree on the
expression buffer and on the variable string, whatever their operator stacks,
value stacks and result strings hold; so a second `solution()` right after a
first one, returned or thrown, has the outcome of the first. -/
theorem outcome_of_inputs (L : Libm D) (s t : Session D)
    (he : s.expression = t.expression) (hx : s.X_str_var = t.X_str_var) :
    postfixed s.expression s.oper_stack = postfixed t.expression t.oper_stack ∧
    (ComputStrExpressionWithVariable.solution L s).1 =
      (ComputStrExpressionWithVariable.solution L t).1 ∧
    (ComputStrExpressionWithVariable.solution L
        (ComputStrExpressionWithVariable.solution L s).2).1 =
      (ComputStrExpressionWithVariable.solution L s).1 ∧
    (ComputStrExpressionWithVariable.solution L
        (ComputStrExpressionWithVariable.solution L t).2).1 =
      (ComputStrExpressionWithVariable.solution L s).1 := by
  have hpost : ∀ a b : List String, postfixed s.expression a = postfixed t.expression b := by
    intro a b
    rw [he]
    rfl
  have hsol : ∀ u v : Session D, u.expression = v.expression → u.X_str_var = v.X_str_var →
      (ComputStrExpressionWithVariable.solution L u).1 =
        (ComputStrExpressionWithVariable.solution L v).1 := by
    intro u v h1 h2
    unfold ComputStrExpressionWithVariable.solution ComputableStringExpression.solution
      postfixed_run
    rw [h1, h2]
  exact ⟨hpost _ _, hsol s t he hx, hsol _ s rfl rfl, hsol _ s he.symm hx.symm⟩

/-- The buffer `X ^ 2 -` with the variable string `1`, in a fresh session and
in the session as the failed evaluation leaves it. -/
theorem outcome_of_inputs_witness :
    (ComputStrExpressionWithVariable.solution integer_libm
        ⟨["X", "^", "2", "-"], [], [], "1", ""⟩).2 =
      ⟨["X", "^", "2", "-"], [], [], "1", ""⟩ ∧
    (ComputStrExpressionWithVariable.solution integer_libm
        ⟨["X", "^", "2", "-"], [], [], "1", ""⟩).1 =
      .error (.message "not enough arguments") ∧
    (ComputStrExpressionWithVariable.solution integer_libm
        ⟨["X", "^", "2", "-"], ["(", "sin"], [7, 8], "1", "8"⟩).1 =
      (ComputStrExpressionWithVariable.solution integer_libm
        ⟨["X", "^", "2", "-"], [], [], "1", ""⟩).1 :=
  ⟨rfl, rfl,
    (outcome_of_inputs integer_libm ⟨["X", "^", "2", "-"], ["(", "sin"], [7, 8], "1", "8"⟩
      ⟨["X", "^", "2", "-"], [], [], "1", ""⟩ rfl rfl).2.1⟩

theorem postfixed_error_run {expression stack : List String} {e : Thrown}
    (h : postfixed expression stack = .error e) :
    ∃ left, postfixed_run expression stack = .error (e, left) := by
  unfold postfixed at h
  cases hr : postfixed_run expression stack with
  | error p =>
    obtain ⟨e1, left⟩ := p
    rw [hr] at h
    simp only [Except.error.injEq] at h
    subst h
    exact ⟨left, rfl⟩
  | ok r =>
    rw [hr] at h
    cases h

/-- C38: when `postfixed()` throws on the expression buffer, what it throws is
one of the two parenthesis messages, `solution()` throws the same, whatever
the `push` of the calculating stack would do with a token, and leaves the
value stack empty, and `modify("=")` stores that message. -/
theorem conversion_failure_first (P : Fpu D) (s : Session D) (e : Thrown)
    (h : postfixed s.expression s.oper_stack = .error e) :
    (e = .message "missing left parenthesis" ∨ e = .message "missing right parenthesis") ∧
    (∀ (push : String → List D → Except (Thrown × List D) (List D)) (zero : D),
      (ComputableStringExpression.solution push zero s.expression s.oper_stack
          s.stack_simple).outcome = .error e ∧
      (ComputableStringExpression.solution push zero s.expression s.oper_stack
          s.stack_simple).calc_stack = []) ∧
    (ComputStrExpressionWithVariable.solution P.toLibm s).1 = .error e ∧
    (ComputStrExpressionWithVariable.solution P.toLibm s).2.stack_simple = [] ∧
    ∃ s' m, e = .message m ∧ CalculatorModel.modify P "=" s = .ok s' ∧
      CalculatorModel.some_result s' = m := by
  obtain ⟨left, hrun⟩ := postfixed_error_run h
  have hmsg : e = .message "missing left parenthesis" ∨
      e = .message "missing right parenthesis" := by
    rcases postfixed_run_outcome s.expression s.oper_stack with ⟨tokens, h1⟩ | h1 | ⟨l, h1⟩
    · rw [h1] at hrun
      cases hrun
    · rw [h1] at hrun
      simp only [Except.error.injEq, Prod.mk.injEq] at hrun
      exact Or.inl hrun.1.symm
    · rw [h1] at hrun
      simp only [Except.error.injEq, Prod.mk.injEq] at hrun
      exact Or.inr hrun.1.symm
  have hsol : ∀ (push : String → List D → Except (Thrown × List D) (List D)) (zero : D),
      ComputableStringExpression.solution push zero s.expression s.oper_stack s.stack_simple =
        ⟨.error e, left, []⟩ := by
    intro push zero
    unfold ComputableStringExpression.solution
    rw [hrun]
  have h1 : (ComputStrExpressionWithVariable.solution P.toLibm s).1 = .error e := by
    unfold ComputStrExpressionWithVariable.solution
    simp only [hsol]
  have h2 : (ComputStrExpressionWithVariable.solution P.toLibm s).2.stack_simple = [] := by
    unfold ComputStrExpressionWithVariable.solution
    simp only [hsol]
  refine ⟨hmsg, fun push zero => by rw [hsol]; exact ⟨rfl, rfl⟩, h1, h2, ?_⟩
  have hmod := modify_equals P s
  rcases hmsg with rfl | rfl
  · exact ⟨_, _, rfl, hmod, by simp only [CalculatorModel.some_result, h1, stored]⟩
  · exact ⟨_, _, rfl, hmod, by simp only [CalculatorModel.some_result, h1, stored]⟩

set_option maxRecDepth 100000 in
/-- The atoms `a (`: the literal `a` is unparsable, and the message is that of
the bracket. -/
theorem conversion_failure_first_witness :
    CalculatingDblStack.strToDbl integer_libm "a" =
      .error (.message "std::stod error: string <a> is unconvertable to number") ∧
    postfixed ["a", "("] [] = .error (.message "missing right parenthesis") ∧
    CalculatorModel.modify integer_fpu "=" ⟨["a", "("], [], [], "", ""⟩ =
      .ok ⟨["a", "("], ["("], [], "", "missing right parenthesis"⟩ ∧
    (ComputStrExpressionWithVariable.solution integer_fpu.toLibm
      ⟨["a", "("], [], [], "", ""⟩).1 = .error (.message "missing right parenthesis") :=
  ⟨rfl, rfl, rfl,
    (conversion_failure_first integer_fpu ⟨["a", "("], [], [], "", ""⟩
      (.message "missing right parenthesis") rfl).2.2.1⟩

/-! ## The precision of the readable rendering -/

set_option maxRecDepth 1000000 in
/-- With `DBL_DIG` at 15, its value for an IEEE-754 `double`, `=` on the
literal `1234567890123456` stores the rendering with 15 significant digits, and
not the 16 digits a precision of 17 gives. -/
theorem rendering_fifteen_digits :
    decimal_fpu.DBL_DIG = 15 ∧
    CalculatorModel.modify decimal_fpu "=" ⟨["1234567890123456"], [], [], "", ""⟩ =
      .ok ⟨["1234567890123456"], [], [1234567890123456], "", "1.23456789012346E+15"⟩ ∧
    CalculatorModel.readble_dblToStr decimal_fpu 1234567890123456 =
      .ok "1.23456789012346E+15" ∧
    render_G 15 1234567890123456 = "1.23456789012346E+15" ∧
    render_G 17 1234567890123456 = "1234567890123456" :=
  ⟨rfl, rfl, rfl, rfl, rfl⟩

/-- C32: when `solution()` returns `value`, `modify("=")` stores what
`snprintf` writes for `value` with the format `%.*G`, the precision `DBL_DIG`
and a buffer of `DBL_DIG * 2` bytes, or one of the two messages of
`readble_dblToStr` when the count `snprintf` returns is negative or does not
fit the buffer. -/
theorem rendering_precision (P : Fpu D) (s : Session D) (value : D)
    (h : (ComputStrExpressionWithVariable.solution P.toLibm s).1 = .ok value) :
    ∃ s', CalculatorModel.modify P "=" s = .ok s' ∧
      CalculatorModel.some_result s' =
        if (P.snprintf (P.DBL_DIG * 2) "%.*G" [(P.DBL_DIG : Int)] value).1 < 0 then
          "Error during convertion double to char buffer"
        else if (P.snprintf (P.DBL_DIG * 2) "%.*G" [(P.DBL_DIG : Int)] value).1 ≥
            ((P.DBL_DIG * 2 : Nat) : Int) then
          "Char buffer is too small for converted double"
        else (P.snprintf (P.DBL_DIG * 2) "%.*G" [(P.DBL_DIG : Int)] value).2 := by
  refine ⟨_, modify_equals P s, ?_⟩
  show stored P (ComputStrExpressionWithVariable.solution P.toLibm s).1 = _
  rw [h]
  unfold stored CalculatorModel.readble_dblToStr
  simp only
  by_cases h1 : (P.snprintf (P.DBL_DIG * 2) "%.*G" [(P.DBL_DIG : Int)] value).1 < 0
  · rw [if_pos h1, if_pos h1]
  · rw [if_neg h1, if_neg h1]
    by_cases h2 : (P.snprintf (P.DBL_DIG * 2) "%.*G" [(P.DBL_DIG : Int)] value).1 ≥
        ((P.DBL_DIG * 2 : Nat) : Int)
    · rw [if_pos h2, if_pos h2]
    · rw [if_neg h2, if_neg h2]

set_option maxRecDepth 1000000 in
/-- The value of `2 ^ 60` has 19 digits: `=` stores it with the 15 significant
digits of `DBL_DIG`. -/
theorem rendering_precision_witness :
    (ComputStrExpressionWithVariable.solution decimal_fpu.toLibm
      ⟨["2", "^", "60"], [], [], "", ""⟩).1 = .ok 1152921504606846976 ∧
    ∃ s', CalculatorModel.modify decimal_fpu "=" ⟨["2", "^", "60"], [], [], "", ""⟩ = .ok s' ∧
      CalculatorModel.some_result s' = "1.15292150460685E+18" :=
  ⟨rfl, by
    obtain ⟨s', h1, h2⟩ := rendering_precision decimal_fpu ⟨["2", "^", "60"], [], [], "", ""⟩
      1152921504606846976 rfl
    exact ⟨s', h1, h2.trans (by rfl)⟩⟩

/-! ## A refinement that does not end -/

theorem recursive_plot_lower_unfinished (P : Fpu D) (fuel : Nat)
    (x_min x_max delta_y y_min y_max y_lo y_hi y_mid : D) (s s1 : Session D)
    (hs : PlotableExpression.sample P (P.div (P.add x_min x_max) (P.of_int 2)) s =
      .returns y_mid s1)
    (hstop : PlotableExpression.stops P delta_y y_min y_max y_mid y_lo y_hi = false)
    (hl : PlotableExpression.recursive_plot P fuel x_min
      (P.div (P.add x_min x_max) (P.of_int 2)) delta_y y_min y_mid y_lo y_hi s1 =
        .unfinished) :
    PlotableExpression.recursive_plot P (fuel + 1) x_min x_max delta_y y_min y_max y_lo y_hi
      s = .unfinished := by
  rw [PlotableExpression.recursive_plot, hs]
  simp only [hstop, hl, Bool.false_eq_true, if_false]

theorem recursive_plot_upper_unfinished (P : Fpu D) (fuel : Nat)
    (x_min x_max delta_y y_min y_max y_lo y_hi y_mid : D) (s s1 s2 : Session D)
    (lower : Graph D)
    (hs : PlotableExpression.sample P (P.div (P.add x_min x_max) (P.of_int 2)) s =
      .returns y_mid s1)
    (hstop : PlotableExpression.stops P delta_y y_min y_max y_mid y_lo y_hi = false)
    (hl : PlotableExpression.recursive_plot P fuel x_min
      (P.div (P.add x_min x_max) (P.of_int 2)) delta_y y_min y_mid y_lo y_hi s1 =
        .returns lower s2)
    (hu : PlotableExpression.recursive_plot P fuel (P.div (P.add x_min x_max) (P.of_int 2))
      x_max delta_y y_mid y_max y_lo y_hi s2 = .unfinished) :
    PlotableExpression.recursive_plot P (fuel + 1) x_min x_max delta_y y_min y_max y_lo y_hi
      s = .unfinished := by
  rw [PlotableExpression.recursive_plot, hs]
  simp only [hstop, hl, hu, Bool.false_eq_true, if_false]

theorem recursive_plot_stop (P : Fpu D) (fuel : Nat)
    (x_min x_max delta_y y_min y_max y_lo y_hi y_mid : D) (s s1 : Session D)
    (hs : PlotableExpression.sample P (P.div (P.add x_min x_max) (P.of_int 2)) s =
      .returns y_mid s1)
    (hstop : PlotableExpression.stops P delta_y y_min y_max y_mid y_lo y_hi = true) :
    PlotableExpression.recursive_plot P (fuel + 1) x_min x_max delta_y y_min y_max y_lo y_hi
      s = .returns
        (PlotableExpression.map_assign P (P.div (P.add x_min x_max) (P.of_int 2)) y_mid [])
        s1 := by
  rw [PlotableExpression.recursive_plot, hs]
  simp only [hstop, if_true]

theorem graphs_loop_first (P : Fpu D) (fuel : Nat)
    (x_lo x_hi delta_x delta_y y_lo y_hi y : D) (previous : Option (D × D)) (graph : Graph D)
    (s s1 : Session D) (hle : P.le x_lo x_hi = true) (heq : P.eq x_lo x_lo = true)
    (hs : PlotableExpression.sample P x_lo s = .returns y s1) :
    PlotableExpression.graphs_loop P (fuel + 1) x_lo x_lo x_hi delta_x delta_y y_lo y_hi
      previous graph s =
    PlotableExpression.graphs_loop P fuel (P.add x_lo delta_x) x_lo x_hi delta_x delta_y y_lo
      y_hi (some (x_lo, y)) (PlotableExpression.map_assign P x_lo y graph) s1 := by
  rw [PlotableExpression.graphs_loop, if_pos hle, hs]
  simp only [heq, Bool.not_true, Bool.false_eq_true, if_false]

theorem graphs_loop_refine_unfinished (P : Fpu D) (fuel : Nat)
    (x x_lo x_hi delta_x delta_y y_lo y_hi y prev_x prev_y : D) (graph : Graph D)
    (s s1 : Session D) (hle : P.le x x_hi = true) (hne : P.eq x x_lo = false)
    (hs : PlotableExpression.sample P x s = .returns y s1)
    (hgt : P.lt delta_y (P.abs (P.sub y prev_y)) = true)
    (hr : PlotableExpression.recursive_plot P fuel prev_x x delta_y prev_y y y_lo y_hi s1 =
      .unfinished) :
    PlotableExpression.graphs_loop P (fuel + 1) x x_lo x_hi delta_x delta_y y_lo y_hi
      (some (prev_x, prev_y)) graph s = .unfinished := by
  rw [PlotableExpression.graphs_loop, if_pos hle, hs]
  simp only [hne, hgt, hr, Bool.not_false, if_true]

set_option maxRecDepth 100000 in
/-- The call on the interval from 1 to 1 with the two values NaN calls itself
on the same interval with the same values. -/
theorem punctured_fixed : ∀ fuel : Nat,
    PlotableExpression.recursive_plot eighths_fpu fuel (some 8) (some 8) (some 2) none none
      (some (-8)) (some 24) (punctured_at 8 none) = .unfinished
  | 0 => rfl
  | fuel + 1 =>
    recursive_plot_lower_unfinished eighths_fpu fuel (some 8) (some 8) (some 2) none none
      (some (-8)) (some 24) none (punctured_at 8 none) (punctured_at 8 none) (by rfl) (by rfl)
      (punctured_fixed fuel)

set_option maxRecDepth 100000 in
/-- The call on the interval from 1 to 9/8: the midpoint is cut to 1, where
the value is NaN. -/
theorem punctured_narrow : ∀ fuel : Nat,
    PlotableExpression.recursive_plot eighths_fpu fuel (some 8) (some 9) (some 2) none (some 9)
      (some (-8)) (some 24) (punctured_at 9 (some 9)) = .unfinished
  | 0 => rfl
  | fuel + 1 =>
    recursive_plot_lower_unfinished eighths_fpu fuel (some 8) (some 9) (some 2) none (some 9)
      (some (-8)) (some 24) none (punctured_at 9 (some 9)) (punctured_at 8 none) (by rfl)
      (by rfl) (punctured_fixed fuel)

set_option maxRecDepth 100000 in
/-- The call on the interval from 1 to 5/4, the left value NaN. -/
theorem punctured_right : ∀ fuel : Nat,
    PlotableExpression.recursive_plot eighths_fpu fuel (some 8) (some 10) (some 2) none
      (some 10) (some (-8)) (some 24) (punctured_at 7 (some 7)) = .unfinished
  | 0 => rfl
  | fuel + 1 =>
    recursive_plot_lower_unfinished eighths_fpu fuel (some 8) (some 10) (some 2) none
      (some 10) (some (-8)) (some 24) (some 9) (punctured_at 7 (some 7))
      (punctured_at 9 (some 9)) (by rfl) (by rfl) (punctured_narrow fuel)

set_option maxRecDepth 100000 in
/-- The call on the interval from 3/4 to 5/4: the midpoint is 1, the lower
call returns and the upper call does not. -/
theorem punctured_middle : ∀ fuel : Nat,
    PlotableExpression.recursive_plot eighths_fpu fuel (some 6) (some 10) (some 2) (some 6)
      (some 10) (some (-8)) (some 24) (punctured_at 10 (some 10)) = .unfinished
  | 0 => rfl
  | 1 =>
    recursive_plot_lower_unfinished eighths_fpu 0 (some 6) (some 10) (some 2) (some 6)
      (some 10) (some (-8)) (some 24) none (punctured_at 10 (some 10)) (punctured_at 8 none)
      (by rfl) (by rfl) rfl
  | fuel + 2 =>
    recursive_plot_upper_unfinished eighths_fpu (fuel + 1) (some 6) (some 10) (some 2) (some 6)
      (some 10) (some (-8)) (some 24) none (punctured_at 10 (some 10)) (punctured_at 8 none)
      (punctured_at 7 (some 7)) _ (by rfl) (by rfl)
      (recursive_plot_stop eighths_fpu fuel (some 6) (some 8) (some 2) (some 6) none
        (some (-8)) (some 24) (some 7) (punctured_at 8 none) (punctured_at 7 (some 7)) (by rfl)
        (by rfl))
      (punctured_right (fuel + 1))

set_option maxRecDepth 100000 in
/-- The call `graphs` makes between the samples at 3/4 and 7/4. -/
theorem punctured_refinement : ∀ fuel : Nat,
    PlotableExpression.recursive_plot eighths_fpu fuel (some 6) (some 14) (some 2) (some 6)
      (some 14) (some (-8)) (some 24) (punctured_at 14 (some 14)) = .unfinished
  | 0 => rfl
  | fuel + 1 =>
    recursive_plot_lower_unfinished eighths_fpu fuel (some 6) (some 14) (some 2) (some 6)
      (some 14) (some (-8)) (some 24) (some 10) (punctured_at 14 (some 14))
      (punctured_at 10 (some 10)) (by rfl) (by rfl) (punctured_middle fuel)

set_option maxRecDepth 100000 in
/-- C31: on the fixed-point instance, the plot of `( X - 1 ) / ( X - 1 ) * X`
from 3/4 to 7/4 with one sample a unit, over the range from -1 to 3 with
`delta_y` = 1/4, ends at no recursion depth: the refinement between the two
samples reaches the midpoint 1, where the value is NaN, no stopping condition
holds with a NaN for `y_min`, and the recursion arrives at the interval from 1
to 1, on which the call repeats itself. -/
theorem refinement_never_ends :
    PlotableExpression.sample eighths_fpu (some 8) ⟨punctured, [], [], "", ""⟩ =
      .returns none (punctured_at 8 none) ∧
    (∀ delta_y y_max y_mid y_lo y_hi : Option Int,
      PlotableExpression.stops eighths_fpu delta_y none y_max y_mid y_lo y_hi =
        (eighths_fpu.lt y_max y_mid && eighths_fpu.lt y_hi y_max ||
          eighths_fpu.lt y_mid y_max && eighths_fpu.lt y_max y_lo)) ∧
    ∀ fuel : Nat,
      PlotableExpression.graphs eighths_fpu fuel (some 6) (some 14) 1 (some (-8)) (some 24) 4
        ⟨punctured, [], [], "", ""⟩ = .unfinished := by
  refine ⟨by rfl, ?_, ?_⟩
  · intro delta_y y_max y_mid y_lo y_hi
    have hsub : eighths_fpu.sub y_mid none = none := by cases y_mid <;> rfl
    have habs : eighths_fpu.abs none = none := rfl
    have hleft : ∀ b, eighths_fpu.lt none b = false := fun b => rfl
    have hright : ∀ a, eighths_fpu.lt a none = false := fun a => by cases a <;> rfl
    unfold PlotableExpression.stops
    rw [hsub, habs, hleft, hleft, hright, hright]
    simp only [Bool.false_or, Bool.or_false, Bool.false_and, Bool.and_false]
  · intro fuel
    have hloop : PlotableExpression.graphs_loop eighths_fpu fuel (some 6) (some 6) (some 14)
        (some 8) (some 2) (some (-8)) (some 24) none [] ⟨punctured, [], [], "", ""⟩ =
        .unfinished := by
      cases fuel with
      | zero => rfl
      | succ fuel =>
        rw [graphs_loop_first eighths_fpu fuel (some 6) (some 14) (some 8) (some 2) (some (-8))
          (some 24) (some 6) none [] ⟨punctured, [], [], "", ""⟩ (punctured_at 6 (some 6))
          (by rfl) (by rfl) (by rfl)]
        cases fuel with
        | zero => rfl
        | succ fuel =>
          exact graphs_loop_refine_unfinished eighths_fpu fuel (some 14) (some 6) (some 14)
            (some 8) (some 2) (some (-8)) (some 24) (some 14) (some 6) (some 6) _
            (punctured_at 6 (some 6)) (punctured_at 14 (some 14)) (by rfl) (by rfl) (by rfl)
            (by rfl) (punctured_refinement fuel)
    have hdx : eighths_fpu.div (eighths_fpu.of_int 1) (eighths_fpu.of_int 1) = some 8 := by
      rfl
    have hdy : eighths_fpu.div (eighths_fpu.of_int 1) (eighths_fpu.of_int 4) = some 2 := by
      rfl
    unfold PlotableExpression.graphs
    rw [hdx, hdy, hloop]

/-! ## The `)` that finds nothing to close -/

theorem segments_not_unary {s : String} (h : unary s = false) (rest : List String)
    (covered : Bool) : segments (s :: rest) covered = segments (s :: rest) false := by
  unfold segments
  by_cases ho : s = "("
  · simp [ho]
  · simp [ho, h]

theorem segments_top (stack : List String) :
    segments stack false = segments stack true + (if top_unary stack then 1 else 0) := by
  cases stack with
  | nil => rfl
  | cons s rest =>
    cases hu : unary s with
    | false =>
      rw [segments_not_unary hu rest true]
      simp [top_unary, hu]
    | true =>
      have ho : s ≠ "(" := unary_ne_open hu
      simp [segments, top_unary, hu, ho]
      omega

theorem segments_dropWhile_binary (p : String → Bool) (hp : ∀ s, p s = true → binary s = true)
    (stack : List String) : segments (stack.dropWhile p) false = segments stack false := by
  induction stack with
  | nil => rfl
  | cons s rest ih =>
    by_cases h : p s = true
    · rw [List.dropWhile_cons_of_pos h, ih]
      have hb := hp s h
      have ho : s ≠ "(" := binary_ne_open hb
      have hu : unary s = false := binary_not_unary hb
      simp [segments, ho, hu]
    · rw [List.dropWhile_cons_of_neg h]

theorem segments_dropWhile_unary (stack : List String) :
    segments (stack.dropWhile unary) false = segments stack true := by
  induction stack with
  | nil => rfl
  | cons s rest ih =>
    cases hu : unary s with
    | true =>
      rw [List.dropWhile_cons_of_pos hu, ih]
      have ho : s ≠ "(" := unary_ne_open hu
      simp [segments, ho, hu]
    | false =>
      rw [List.dropWhile_cons_of_neg (by simp [hu]), segments_not_unary hu rest true]

theorem top_unary_dropWhile (stack : List String) :
    top_unary (stack.dropWhile unary) = false := by
  induction stack with
  | nil => rfl
  | cons s rest ih =>
    cases hu : unary s with
    | true => rw [List.dropWhile_cons_of_pos hu, ih]
    | false =>
      rw [List.dropWhile_cons_of_neg (by simp [hu])]
      simp [top_unary, hu]

theorem segments_binary_run {stack : List String} (h : stack.dropWhile binary = []) :
    segments stack false = 0 := by
  rw [← segments_dropWhile_binary binary (fun _ h => h) stack, h]
  rfl

theorem segments_close {stack : List String} (hv : Valid stack)
    (h : stack.dropWhile binary ≠ []) :
    segments stack false =
      1 + segments ((unbracket (stack.dropWhile binary)).dropWhile unary) false := by
  rw [← segments_dropWhile_binary binary (fun _ h => h) stack, segments_dropWhile_unary]
  have hv' := hv.dropWhile_valid binary
  cases hd : stack.dropWhile binary with
  | nil => exact absurd hd h
  | cons s rest =>
    rw [hd] at hv'
    have hnb : binary s = false := by
      have := List.head_dropWhile_not binary stack (by rw [hd]; simp)
      simpa [hd] using this
    by_cases ho : s = "("
    · simp [segments, unbracket, ho]
    · have hu : unary s = true := by
        rcases hv' s (by simp) with h1 | h1
        · exact absurd h1 ho
        · rcases contains_unary_or_binary h1 with h2 | h2
          · exact h2
          · rw [h2] at hnb
            cases hnb
      simp [segments, unbracket, ho, hu]

/-- The loop of `postfixed()` on a stack of brackets and catalogue names
throws exactly when a prefix of the tokens holds more `)` than the stack takes
together with the `(` and the absorbing unary operators of the prefix. -/
theorem postfixed_loop_unopened (tokens : List String) :
    ∀ {stack : List String} (result : List String), Valid stack →
      (postfixed_loop tokens stack result = .error (.message "missing left parenthesis", []) ↔
        ∃ p, p <+: tokens ∧
          p.count ")" > p.count "(" + absorbed (top_unary stack) p + segments stack true) := by
  induction tokens with
  | nil =>
    intro stack result hv
    constructor
    · intro h
      simp [postfixed_loop] at h
    · rintro ⟨p, hp, hc⟩
      have : p = [] := by simpa using hp
      subst this
      simp at hc
  | cons token tokens ih =>
    intro stack result hv
    have hprefix : ∀ (k : Nat),
        (∃ p, p <+: token :: tokens ∧
          p.count ")" > p.count "(" + absorbed (top_unary stack) p + k) ↔
        ∃ p, p <+: tokens ∧ (token :: p).count ")" >
          (token :: p).count "(" + absorbed (top_unary stack) (token :: p) + k := by
      intro k
      constructor
      · rintro ⟨p, hp, hc⟩
        cases p with
        | nil => simp at hc
        | cons t p =>
          obtain ⟨rfl, hp'⟩ := List.cons_prefix_cons.1 hp
          exact ⟨p, hp', hc⟩
      · rintro ⟨p, hp, hc⟩
        exact ⟨token :: p, List.cons_prefix_cons.2 ⟨rfl, hp⟩, hc⟩
    rw [postfixed_loop_cons, hprefix]
    have htop := segments_top stack
    rcases postfixed_token_cases token hv result with
      ⟨hct, e⟩ | ⟨rfl, e⟩ | ⟨rfl, he, e⟩ | ⟨rfl, he, e⟩ | ⟨hct, ho, hcl, e⟩
    · have h1 : token ≠ "(" := by
        rintro rfl
        simp [contains_open] at hct
      have h2 : token ≠ ")" := by
        rintro rfl
        simp [contains_close] at hct
      rw [e]
      simp only
      rw [ih _ (postfixed_token_valid hv e)]
      rcases contains_unary_or_binary hct with hun | hbin
      · have hb : binary token = false := unary_not_binary hun
        rw [dropWhile_outranks_unary hun]
        have hseg : segments (token :: stack) true = segments stack true := by
          simp [segments, h1, hun]
        have habs : ∀ p, absorbed (top_unary stack) (token :: p) = absorbed true p := by
          intro p
          simp [absorbed, hb, h2, hun]
        have hnew : top_unary (token :: stack) = true := hun
        simp only [hnew, hseg, habs, List.count_cons_of_ne h1.symm,
          List.count_cons_of_ne h2.symm]
      · have hu : unary token = false := binary_not_unary hbin
        have hseg : segments (token :: stack.dropWhile (outranks token)) true =
            segments stack false := by
          rw [segments_not_unary hu, ← segments_dropWhile_binary (outranks token)
            (fun _ h => outranks_binary h) stack]
          simp [segments, h1, hu]
        have habs : ∀ p, absorbed (top_unary stack) (token :: p) =
            (if top_unary stack then 1 else 0) + absorbed false p := by
          intro p
          simp [absorbed, hbin, hu]
        have hnew : top_unary (token :: stack.dropWhile (outranks token)) = false := hu
        simp only [hnew, hseg, habs, List.count_cons_of_ne h1.symm,
          List.count_cons_of_ne h2.symm]
        constructor <;> rintro ⟨p, hp, hc⟩ <;> exact ⟨p, hp, by omega⟩
    · rw [e]
      simp only
      rw [ih _ (postfixed_token_valid hv e)]
      have hseg : segments ("(" :: stack) true = 1 + segments stack true := by
        simp [segments]
      have habs : ∀ p, absorbed (top_unary stack) ("(" :: p) = absorbed false p := by
        intro p
        have h1 : binary "(" = false := by decide
        have h2 : unary "(" = false := by decide
        simp [absorbed, h1, h2]
      have hu : top_unary ("(" :: stack) = false := by
        show unary "(" = false
        decide
      simp only [hu, hseg, habs, List.count_cons_self,
        List.count_cons_of_ne (show (")" : String) ≠ "(" by decide)]
      constructor <;> rintro ⟨p, hp, hc⟩ <;> exact ⟨p, hp, by omega⟩
    · rw [e]
      simp only [true_iff]
      have h0 := segments_binary_run he
      refine ⟨[], List.nil_prefix, ?_⟩
      have habs : absorbed (top_unary stack) [")"] = if top_unary stack then 1 else 0 := by
        simp [absorbed]
      have hz : segments stack true = 0 := by omega
      have hi : (if top_unary stack = true then 1 else 0) = 0 := by omega
      rw [habs, hi, hz]
      decide
    · rw [e]
      simp only
      rw [ih _ (postfixed_token_valid hv e)]
      have hclose := segments_close hv he
      have htop' := segments_top ((unbracket (stack.dropWhile binary)).dropWhile unary)
      rw [top_unary_dropWhile] at htop'
      have habs : ∀ p, absorbed (top_unary stack) (")" :: p) =
          (if top_unary stack then 1 else 0) + absorbed false p := by
        intro p
        have h2 : unary ")" = false := by decide
        simp [absorbed, h2]
      simp only [top_unary_dropWhile, habs, List.count_cons_self,
        List.count_cons_of_ne (show ("(" : String) ≠ ")" by decide)]
      simp only [Bool.false_eq_true, if_false, Nat.add_zero] at htop'
      constructor <;> rintro ⟨p, hp, hc⟩ <;> exact ⟨p, hp, by omega⟩
    · rw [e]
      simp only
      rw [ih _ (postfixed_token_valid hv e)]
      have hb : binary token = false := by
        cases hb : binary token with
        | false => rfl
        | true => rw [binary_contains hb] at hct; cases hct
      have hu : unary token = false := by
        cases hu : unary token with
        | false => rfl
        | true => rw [unary_contains hu] at hct; cases hct
      have hseg := segments_dropWhile_unary stack
      have htop' := segments_top (stack.dropWhile unary)
      rw [top_unary_dropWhile] at htop'
      simp only [Bool.false_eq_true, if_false, Nat.add_zero] at htop'
      have habs : ∀ p, absorbed (top_unary stack) (token :: p) = absorbed false p := by
        intro p
        simp [absorbed, hb, hcl, hu]
      simp only [top_unary_dropWhile, habs, List.count_cons_of_ne ho.symm,
        List.count_cons_of_ne hcl.symm]
      constructor <;> rintro ⟨p, hp, hc⟩ <;> exact ⟨p, hp, by omega⟩

/-- C6, amended: `postfixed()` throws "missing left parenthesis" exactly when
some prefix of the token sequence holds more `)` than it holds `(` and unary
operators directly followed by a binary operator or by `)` together: a `)`
closes the last `(` or takes the last such unary operator, and the first `)`
that finds neither makes the call throw. -/
theorem unmatched_close_fails (S stack : List String) :
    postfixed S stack = .error (.message "missing left parenthesis") ↔
      ∃ p, p <+: tokenized S ∧ p.count ")" > p.count "(" + absorbed false p := by
  have hloop := @postfixed_loop_unopened (tokenized S) [] [] valid_nil
  have hzero : segments [] true = 0 := rfl
  have htop : top_unary [] = false := rfl
  rw [hzero, htop] at hloop
  simp only [Nat.add_zero] at hloop
  rw [← hloop]
  unfold postfixed postfixed_run
  cases hl : postfixed_loop (tokenized S) [] [] with
  | error e =>
    rw [postfixed_loop_error (tokenized S) valid_nil hl]
    simp
  | ok sr =>
    obtain ⟨stack', result'⟩ := sr
    have hv := postfixed_loop_valid (tokenized S) valid_nil hl
    simp only [postfixed_end_eq hv]
    by_cases hd : stack'.dropWhile binary = []
    · simp [hd]
    · simp [hd]

/-- The sequences `)`, `2 + 3 )` and `2 3 )` of the tests, the sequences
`) sin +`, `1 ) sin )` and `sin ) )`, in which a `)` comes with nothing to
close, and the sequences `sin )` and `sin + 1 )`, in which the `)` takes the
unary operator. -/
theorem unmatched_close_fails_witness :
    postfixed [")"] [] = .error (.message "missing left parenthesis") ∧
    postfixed ["2", "+", "3", ")"] [] = .error (.message "missing left parenthesis") ∧
    postfixed ["2", "3", ")"] [] = .error (.message "missing left parenthesis") ∧
    postfixed [")", "sin", "+"] [] = .error (.message "missing left parenthesis") ∧
    postfixed ["1", ")", "sin", ")"] [] = .error (.message "missing left parenthesis") ∧
    postfixed ["sin", ")", ")"] [] = .error (.message "missing left parenthesis") ∧
    postfixed ["sin", ")"] [] ≠ .error (.message "missing left parenthesis") ∧
    postfixed ["sin", "+", "1", ")"] [] ≠ .error (.message "missing left parenthesis") :=
  ⟨(unmatched_close_fails [")"] []).2 ⟨[")"], by decide, by decide⟩,
    (unmatched_close_fails ["2", "+", "3", ")"] []).2
      ⟨["2", "+", "3", ")"], by decide, by decide⟩,
    (unmatched_close_fails ["2", "3", ")"] []).2 ⟨["23", ")"], by decide, by decide⟩,
    (unmatched_close_fails [")", "sin", "+"] []).2 ⟨[")"], by decide, by decide⟩,
    (unmatched_close_fails ["1", ")", "sin", ")"] []).2 ⟨["1", ")"], by decide, by decide⟩,
    (unmatched_close_fails ["sin", ")", ")"] []).2
      ⟨["sin", ")", ")"], by decide, by decide⟩,
    (by rw [show postfixed ["sin", ")"] [] = .ok ["sin"] from rfl]; exact fun h => nomatch h),
    (by rw [show postfixed ["sin", "+", "1", ")"] [] = .ok ["1", "+", "sin"] from rfl]
        exact fun h => nomatch h)⟩

/-! ## The abscissas a plot evaluates and the session it leaves -/

theorem evaluatedAt_expression (P : Fpu D) {expression : List String} {x : D}
    {s' : Session D} (h : EvaluatedAt P expression x s') : s'.expression = expression := by
  obtain ⟨text, s0, -, h0, rfl⟩ := h
  exact h0

theorem leaves_expression (P : Fpu D) {trace : List D} {s s' : Session D}
    (h : Leaves P trace s s') : s'.expression = s.expression := by
  rcases h with ⟨-, rfl⟩ | ⟨x, -, h⟩
  · rfl
  · exact evaluatedAt_expression P h

theorem leaves_nil (P : Fpu D) (s : Session D) : Leaves P [] s s :=
  Or.inl ⟨rfl, rfl⟩

theorem leaves_append (P : Fpu D) {t1 t2 : List D} {s s1 s' : Session D}
    (h1 : Leaves P t1 s s1) (h2 : Leaves P t2 s1 s') : Leaves P (t1 ++ t2) s s' := by
  have hexp := leaves_expression P h1
  rcases h2 with ⟨rfl, rfl⟩ | ⟨x, hx, h⟩
  · rw [List.append_nil]
    exact h1
  · right
    rw [hexp] at h
    refine ⟨x, ?_, h⟩
    rw [List.getLast?_append, hx]
    rfl

theorem sample_leaves (P : Fpu D) (x : D) (s s' : Session D)
    (h : (PlotableExpression.sample P x s).final = some s') :
    Leaves P (sample_trace P x) s s' := by
  unfold PlotableExpression.sample at h
  unfold sample_trace
  cases hp : PlotableExpression.precise_dblToStr P x with
  | error e =>
    rw [hp] at h
    simp only [Outcome.final, Option.some.injEq] at h
    exact Or.inl ⟨rfl, h.symm⟩
  | ok text =>
    rw [hp] at h
    simp only at h
    right
    refine ⟨x, rfl, text, s, hp, rfl, ?_⟩
    generalize ComputStrExpressionWithVariable.solution P.toLibm
      (ComputStrExpressionWithVariable.edit_variable text s) = r at h
    obtain ⟨outcome, s1⟩ := r
    cases outcome with
    | error e => simpa [Outcome.final] using h.symm
    | ok y => simpa [Outcome.final] using h.symm

theorem recursive_plot_leaves (P : Fpu D) (fuel : Nat) :
    ∀ (x_min x_max delta_y y_min y_max y_lo y_hi : D) (s s' : Session D),
      (PlotableExpression.recursive_plot P fuel x_min x_max delta_y y_min y_max y_lo y_hi
        s).final = some s' →
      Leaves P (recursive_plot_trace P fuel x_min x_max delta_y y_min y_max y_lo y_hi s) s
        s' := by
  induction fuel with
  | zero =>
    intro x_min x_max delta_y y_min y_max y_lo y_hi s s' h
    simp [PlotableExpression.recursive_plot, Outcome.final] at h
  | succ fuel ih =>
    intro x_min x_max delta_y y_min y_max y_lo y_hi s s' h
    unfold PlotableExpression.recursive_plot at h
    unfold recursive_plot_trace
    have hsample := sample_leaves P (P.div (P.add x_min x_max) (P.of_int 2)) s
    cases hs : PlotableExpression.sample P (P.div (P.add x_min x_max) (P.of_int 2)) s with
    | unfinished =>
      rw [hs] at h
      simp [Outcome.final] at h
    | throws e s1 =>
      rw [hs] at h hsample
      simp only [Outcome.final, Option.some.injEq] at h
      subst h
      simp only [List.append_nil]
      exact hsample _ rfl
    | returns y_mid s1 =>
      rw [hs] at h hsample
      have h1 := hsample s1 rfl
      simp only at h ⊢
      by_cases hstop : PlotableExpression.stops P delta_y y_min y_max y_mid y_lo y_hi = true
      · rw [if_pos hstop] at h ⊢
        simp only [Outcome.final, Option.some.injEq] at h
        subst h
        simp only [List.append_nil]
        exact h1
      · rw [if_neg hstop] at h ⊢
        have ihl := ih x_min (P.div (P.add x_min x_max) (P.of_int 2)) delta_y y_min y_mid
          y_lo y_hi s1
        cases hl : PlotableExpression.recursive_plot P fuel x_min
            (P.div (P.add x_min x_max) (P.of_int 2)) delta_y y_min y_mid y_lo y_hi s1 with
        | unfinished =>
          rw [hl] at h
          simp [Outcome.final] at h
        | throws e s2 =>
          rw [hl] at h ihl
          simp only [Outcome.final, Option.some.injEq] at h
          subst h
          simp only [List.append_nil]
          exact leaves_append P h1 (ihl _ rfl)
        | returns lower s2 =>
          rw [hl] at h ihl
          have h2 := leaves_append P h1 (ihl _ rfl)
          simp only at h ⊢
          rw [← List.append_assoc]
          refine leaves_append P h2 ?_
          apply ih
          cases hu : PlotableExpression.recursive_plot P fuel
              (P.div (P.add x_min x_max) (P.of_int 2)) x_max delta_y y_mid y_max y_lo y_hi
              s2 with
          | unfinished =>
            rw [hu] at h
            simp [Outcome.final] at h
          | throws e s3 =>
            rw [hu] at h
            exact h
          | returns upper s3 =>
            rw [hu] at h
            exact h

theorem graphs_loop_leaves (P : Fpu D) (fuel : Nat) :
    ∀ (x x_lo x_hi delta_x delta_y y_lo y_hi : D) (previous : Option (D × D))
      (graph : Graph D) (s s' : Session D),
      (PlotableExpression.graphs_loop P fuel x x_lo x_hi delta_x delta_y y_lo y_hi previous
        graph s).final = some s' →
      Leaves P (graphs_loop_trace P fuel x x_lo x_hi delta_x delta_y y_lo y_hi previous s) s
        s' := by
  induction fuel with
  | zero =>
    intro x x_lo x_hi delta_x delta_y y_lo y_hi previous graph s s' h
    simp [PlotableExpression.graphs_loop, Outcome.final] at h
  | succ fuel ih =>
    intro x x_lo x_hi delta_x delta_y y_lo y_hi previous graph s s' h
    unfold PlotableExpression.graphs_loop at h
    unfold graphs_loop_trace
    by_cases hle : P.le x x_hi = true
    · rw [if_pos hle] at h ⊢
      have hsample := sample_leaves P x s
      cases hs : PlotableExpression.sample P x s with
      | unfinished =>
        rw [hs] at h
        simp [Outcome.final] at h
      | throws e s1 =>
        rw [hs] at h hsample
        simp only [Outcome.final, Option.some.injEq] at h
        subst h
        simp only [List.append_nil]
        exact hsample _ rfl
      | returns y s1 =>
        rw [hs] at h hsample
        have h1 := hsample s1 rfl
        simp only at h ⊢
        by_cases hne : (!P.eq x x_lo) = true
        · rw [if_pos hne] at h ⊢
          cases previous with
          | none =>
            simp only [Outcome.final, Option.some.injEq] at h
            subst h
            simp only [List.append_nil]
            exact h1
          | some prev =>
            obtain ⟨prev_x, prev_y⟩ := prev
            simp only at h ⊢
            by_cases hgt : P.lt delta_y (P.abs (P.sub y prev_y)) = true
            · rw [if_pos hgt] at h ⊢
              have hrec := recursive_plot_leaves P fuel prev_x x delta_y prev_y y y_lo y_hi s1
              cases hr : PlotableExpression.recursive_plot P fuel prev_x x delta_y prev_y y
                  y_lo y_hi s1 with
              | unfinished =>
                rw [hr] at h
                simp [Outcome.final] at h
              | throws e s2 =>
                rw [hr] at h hrec
                simp only [Outcome.final, Option.some.injEq] at h
                subst h
                simp only [List.append_nil]
                exact leaves_append P h1 (hrec _ rfl)
              | returns refined s2 =>
                rw [hr] at h hrec
                simp only at h ⊢
                rw [← List.append_assoc]
                exact leaves_append P (leaves_append P h1 (hrec _ rfl))
                  (ih _ _ _ _ _ _ _ _ _ _ _ h)
            · rw [if_neg hgt] at h ⊢
              exact leaves_append P h1 (ih _ _ _ _ _ _ _ _ _ _ _ h)
        · rw [if_neg hne] at h ⊢
          exact leaves_append P h1 (ih _ _ _ _ _ _ _ _ _ _ _ h)
    · rw [if_neg hle] at h ⊢
      simp only [Outcome.final, Option.some.injEq] at h
      exact Or.inl ⟨rfl, h.symm⟩

theorem graphs_loop_trace_first (P : Fpu D) (fuel : Nat)
    (x x_lo x_hi delta_x delta_y y_lo y_hi : D) (previous : Option (D × D)) (s : Session D)
    (text : String) (hle : P.le x x_hi = true)
    (hx : PlotableExpression.precise_dblToStr P x = .ok text) :
    ∃ rest, graphs_loop_trace P (fuel + 1) x x_lo x_hi delta_x delta_y y_lo y_hi previous s =
      x :: rest := by
  unfold graphs_loop_trace
  rw [if_pos hle]
  unfold sample_trace
  rw [hx]
  exact ⟨_, rfl⟩

theorem graphs_leaves (P : Fpu D) (fuel : Nat) (x_lo x_hi : D) (x_pix : Int)
    (y_lo y_hi : D) (y_pix : Int) (s s' : Session D)
    (h : (PlotableExpression.graphs P fuel x_lo x_hi x_pix y_lo y_hi y_pix s).final =
      some s') :
    Leaves P (graphs_trace P fuel x_lo x_hi x_pix y_lo y_hi y_pix s) s s' := by
  apply graphs_loop_leaves P fuel _ _ _ _ _ _ _ none []
  unfold PlotableExpression.graphs at h
  cases hl : PlotableExpression.graphs_loop P fuel x_lo x_lo x_hi
      (P.div (P.of_int 1) (P.of_int x_pix)) (P.div (P.of_int 1) (P.of_int y_pix)) y_lo y_hi
      none [] s with
  | unfinished =>
    rw [hl] at h
    simp [Outcome.final] at h
  | throws e s1 =>
    rw [hl] at h
    exact h
  | returns graph s1 =>
    rw [hl] at h
    exact h

/-- C39: after a call of `PlotableExpression::graphs` with `x_lo <= x_hi` that
ends, by a return or by a throw, the first encoding having succeeded, the call
has evaluated the expression at one abscissa at least, and the session is as
the evaluation at the last of them, `x`, left it: the variable string is the
encoding `precise_dblToStr` returned for `x`, whatever it was before the call,
and `solution()`, and so `modify("=")` with whatever result string the entry
point has stored, evaluates the expression with that encoding for `X`. -/
theorem plot_leaves_sample (P : Fpu D) (fuel : Nat) (x_lo x_hi : D) (x_pix : Int)
    (y_lo y_hi : D) (y_pix : Int) (s s' : Session D) (text : String)
    (hle : P.le x_lo x_hi = true)
    (hx : PlotableExpression.precise_dblToStr P x_lo = .ok text)
    (h : (PlotableExpression.graphs P fuel x_lo x_hi x_pix y_lo y_hi y_pix s).final =
      some s') :
    ∃ (x : D) (t : String) (s0 : Session D),
      (graphs_trace P fuel x_lo x_hi x_pix y_lo y_hi y_pix s).head? = some x_lo ∧
      (graphs_trace P fuel x_lo x_hi x_pix y_lo y_hi y_pix s).getLast? = some x ∧
      PlotableExpression.precise_dblToStr P x = .ok t ∧ s0.expression = s.expression ∧
      s' = (ComputStrExpressionWithVariable.solution P.toLibm
        (ComputStrExpressionWithVariable.edit_variable t s0)).2 ∧
      s'.expression = s.expression ∧ s'.X_str_var = t ∧
      (ComputStrExpressionWithVariable.solution P.toLibm s').1 =
        (ComputStrExpressionWithVariable.solution P.toLibm
          (ComputStrExpressionWithVariable.edit_variable t s0)).1 ∧
      ∀ r : String, ∃ s'', CalculatorModel.modify P "=" { s' with result := r } = .ok s'' ∧
        CalculatorModel.some_result s'' =
          stored P (ComputStrExpressionWithVariable.solution P.toLibm
            (ComputStrExpressionWithVariable.edit_variable t s0)).1 := by
  have hfirst : ∃ rest, graphs_trace P fuel x_lo x_hi x_pix y_lo y_hi y_pix s =
      x_lo :: rest := by
    cases fuel with
    | zero =>
      simp [PlotableExpression.graphs, PlotableExpression.graphs_loop, Outcome.final] at h
    | succ fuel => exact graphs_loop_trace_first P fuel _ _ _ _ _ _ _ none s text hle hx
  obtain ⟨rest, hrest⟩ := hfirst
  rcases graphs_leaves P fuel x_lo x_hi x_pix y_lo y_hi y_pix s s' h with
    ⟨hnil, -⟩ | ⟨x, hlast, t, s0, hp, h0, rfl⟩
  · rw [hrest] at hnil
    cases hnil
  · refine ⟨x, t, s0, by rw [hrest]; rfl, hlast, hp, h0, rfl, h0, rfl, rfl, ?_⟩
    intro r
    exact ⟨_, modify_equals P _, rfl⟩

set_option maxRecDepth 1000000 in
unseal Rat.add Rat.mul Rat.inv Rat.sub in
/-- The call `graphs(-2, 2, 2, -2, 4, 1)` of the tests for the atoms `X ^ 2`,
on the rationals, with the variable string `3` before the call: the last
abscissa evaluated is 7/4, the midpoint of the refinement between the last two
samples 3/2 and 2; the variable string is its encoding afterwards, and `=`
then stores the square of 7/4 and not the square of 3. -/
theorem plot_leaves_sample_witness :
    PlotableExpression.graphs rational_fpu 10 (-2) 2 2 (-2) 4 1
        ⟨["X", "^", "2"], [], [], "3", ""⟩ =
      .returns square_plot ⟨["X", "^", "2"], [], [49 / 16], "7/4", ""⟩ ∧
    graphs_trace rational_fpu 10 (-2) 2 2 (-2) 4 1 ⟨["X", "^", "2"], [], [], "3", ""⟩ =
      [-2, -3 / 2, -7 / 4, -1, -5 / 4, -1 / 2, 0, 1 / 2, 1, 3 / 2, 5 / 4, 2, 7 / 4] ∧
    PlotableExpression.precise_dblToStr rational_fpu (7 / 4) = .ok "7/4" ∧
    CalculatorModel.modify rational_fpu "=" ⟨["X", "^", "2"], [], [49 / 16], "7/4", ""⟩ =
      .ok ⟨["X", "^", "2"], [], [49 / 16], "7/4", "49/16"⟩ ∧
    CalculatorModel.modify rational_fpu "=" ⟨["X", "^", "2"], [], [], "3", ""⟩ =
      .ok ⟨["X", "^", "2"], [], [9], "3", "9"⟩ ∧
    ∃ (x : Rat) (t : String),
      (graphs_trace rational_fpu 10 (-2) 2 2 (-2) 4 1
        ⟨["X", "^", "2"], [], [], "3", ""⟩).getLast? = some x ∧
      PlotableExpression.precise_dblToStr rational_fpu x = .ok t ∧
      (⟨["X", "^", "2"], [], [49 / 16], "7/4", ""⟩ : Session Rat).X_str_var = t :=
  ⟨by rfl, by rfl, by rfl, by rfl, by rfl, by
    obtain ⟨x, t, s0, -, h1, h2, -, -, -, h3, -⟩ := plot_leaves_sample rational_fpu 10 (-2) 2 2
      (-2) 4 1 ⟨["X", "^", "2"], [], [], "3", ""⟩ ⟨["X", "^", "2"], [], [49 / 16], "7/4", ""⟩
      "-2" (by decide) (by rfl) (by rfl)
    exact ⟨x, t, h1, h2, h3⟩⟩

/-! ## The uniform samples in the polylines -/

theorem map_assign_mem (P : Fpu D) (key value : D) (graph : Graph D)
    (hlt : ∀ e ∈ graph, P.lt key e.1 = false → P.lt e.1 key = false → key = e.1) :
    (key, value) ∈ PlotableExpression.map_assign P key value graph := by
  induction graph with
  | nil => simp [PlotableExpression.map_assign]
  | cons e graph ih =>
    obtain ⟨k, v⟩ := e
    unfold PlotableExpression.map_assign
    cases h1 : P.lt key k with
    | true => simp
    | false =>
      cases h2 : P.lt k key with
      | true => simp [ih (fun e he => hlt e (List.mem_cons_of_mem _ he))]
      | false =>
        have := hlt (k, v) (by simp) h1 h2
        simp only at this
        subst this
        simp

theorem map_assign_subset (P : Fpu D) (key value : D) (graph : Graph D)
    (hlt : ∀ e ∈ graph, P.lt key e.1 = false → P.lt e.1 key = false → key = e.1) :
    ∀ e ∈ PlotableExpression.map_assign P key value graph, e = (key, value) ∨ e ∈ graph := by
  induction graph with
  | nil =>
    intro e he
    simp [PlotableExpression.map_assign] at he
    exact Or.inl he
  | cons f graph ih =>
    obtain ⟨k, v⟩ := f
    intro e he
    unfold PlotableExpression.map_assign at he
    cases h1 : P.lt key k with
    | true =>
      simp only [h1, if_true, List.mem_cons] at he
      rcases he with h | h | h
      · exact Or.inl h
      · exact Or.inr (by simp [h])
      · exact Or.inr (by simp [h])
    | false =>
      cases h2 : P.lt k key with
      | true =>
        simp only [h1, h2, Bool.false_eq_true, if_false, if_true, List.mem_cons] at he
        rcases he with h | h
        · exact Or.inr (by simp [h])
        · rcases ih (fun e he => hlt e (List.mem_cons_of_mem _ he)) e h with h | h
          · exact Or.inl h
          · exact Or.inr (by simp [h])
      | false =>
        simp only [h1, h2, Bool.false_eq_true, if_false, List.mem_cons] at he
        have := hlt (k, v) (by simp) h1 h2
        simp only at this
        subst this
        rcases he with h | h
        · exact Or.inl h
        · exact Or.inr (by simp [h])

theorem map_assign_keeps (P : Fpu D) (key value : D) (graph : Graph D)
    (hlt : ∀ e ∈ graph, P.lt key e.1 = false → P.lt e.1 key = false → key = e.1)
    (e : D × D) (he : e ∈ graph) (hsame : e.1 = key → e.2 = value) :
    e ∈ PlotableExpression.map_assign P key value graph := by
  induction graph with
  | nil => cases he
  | cons f graph ih =>
    obtain ⟨k, v⟩ := f
    unfold PlotableExpression.map_assign
    cases h1 : P.lt key k with
    | true =>
      simp only [if_true]
      exact List.mem_cons_of_mem _ he
    | false =>
      cases h2 : P.lt k key with
      | true =>
        simp only [Bool.false_eq_true, if_false, if_true]
        rcases List.mem_cons.1 he with h | h
        · simp [h]
        · exact List.mem_cons_of_mem _ (ih (fun e he => hlt e (List.mem_cons_of_mem _ he)) h)
      | false =>
        simp only [Bool.false_eq_true, if_false]
        have := hlt (k, v) (by simp) h1 h2
        simp only at this
        subst this
        rcases List.mem_cons.1 he with h | h
        · subst h
          have : v = value := hsame rfl
          simp [this]
        · exact List.mem_cons_of_mem _ h

theorem exact_assign (P : Fpu D) {expression : List String} {key value : D} {graph : Graph D}
    (hlt : ∀ e ∈ graph, P.lt key e.1 = false → P.lt e.1 key = false → key = e.1)
    (hv : value_at P expression key = some value) (hg : Exact P expression graph) :
    Exact P expression (PlotableExpression.map_assign P key value graph) ∧
    (key, value) ∈ PlotableExpression.map_assign P key value graph ∧
    (∀ e ∈ graph, e ∈ PlotableExpression.map_assign P key value graph) ∧
    ∀ e ∈ PlotableExpression.map_assign P key value graph, e.1 = key ∨ e ∈ graph := by
  refine ⟨?_, map_assign_mem P key value graph hlt, ?_, ?_⟩
  · intro e he
    rcases map_assign_subset P key value graph hlt e he with h | h
    · subst h
      exact hv
    · exact hg e h
  · intro e he
    apply map_assign_keeps P key value graph hlt e he
    intro hkey
    have := hg e he
    rw [hkey, hv] at this
    exact (Option.some.inj this).symm
  · intro e he
    rcases map_assign_subset P key value graph hlt e he with h | h
    · exact Or.inl (by rw [h])
    · exact Or.inr h

theorem sample_trace_returns (P : Fpu D) (x : D) (s : Session D) {y : D} {s1 : Session D}
    (h : PlotableExpression.sample P x s = .returns y s1) : sample_trace P x = [x] := by
  unfold sample_trace
  unfold PlotableExpression.sample at h
  cases hp : PlotableExpression.precise_dblToStr P x with
  | error e => simp [hp] at h
  | ok text => rfl

theorem recursive_plot_exact (P : Fpu D) (expression : List String) (fuel : Nat) :
    ∀ (x_min x_max delta_y y_min y_max y_lo y_hi : D) (s s' : Session D) (graph : Graph D),
      s.expression = expression →
      PlotableExpression.recursive_plot P fuel x_min x_max delta_y y_min y_max y_lo y_hi s =
        .returns graph s' →
      Exact P expression graph ∧ s'.expression = expression ∧
      ∀ e ∈ graph,
        e.1 ∈ recursive_plot_trace P fuel x_min x_max delta_y y_min y_max y_lo y_hi s := by
  induction fuel with
  | zero =>
    intro x_min x_max delta_y y_min y_max y_lo y_hi s s' graph _ h
    simp [PlotableExpression.recursive_plot] at h
  | succ fuel ih =>
    intro x_min x_max delta_y y_min y_max y_lo y_hi s s' graph hs h
    unfold PlotableExpression.recursive_plot at h
    unfold recursive_plot_trace
    cases hsample : PlotableExpression.sample P (P.div (P.add x_min x_max) (P.of_int 2)) s with
    | unfinished => simp [hsample] at h
    | throws e s1 => simp [hsample] at h
    | returns y_mid s1 =>
      rw [hsample] at h
      rw [sample_trace_returns P _ s hsample]
      simp only at h ⊢
      have hval := sample_value P _ s hsample
      rw [hs] at hval
      have hs1 : s1.expression = expression := (sample_expression P _ s hsample).trans hs
      obtain ⟨hmid, -, -, hkeys⟩ := @exact_assign D P expression
        (P.div (P.add x_min x_max) (P.of_int 2)) y_mid []
        (fun e he => by cases he) hval (fun e he => by cases he)
      have hmidkey : ∀ e ∈ PlotableExpression.map_assign P
          (P.div (P.add x_min x_max) (P.of_int 2)) y_mid [],
          e.1 = P.div (P.add x_min x_max) (P.of_int 2) := by
        intro e he
        rcases hkeys e he with h | h
        · exact h
        · cases h
      by_cases hstop : PlotableExpression.stops P delta_y y_min y_max y_mid y_lo y_hi = true
      · rw [if_pos hstop] at h ⊢
        simp only [Outcome.returns.injEq] at h
        obtain ⟨rfl, rfl⟩ := h
        refine ⟨hmid, hs1, ?_⟩
        intro e he
        simp [hmidkey e he]
      · rw [if_neg hstop] at h ⊢
        cases hl : PlotableExpression.recursive_plot P fuel x_min
            (P.div (P.add x_min x_max) (P.of_int 2)) delta_y y_min y_mid y_lo y_hi s1 with
        | unfinished => simp [hl] at h
        | throws e s2 => simp [hl] at h
        | returns lower s2 =>
          rw [hl] at h
          simp only at h ⊢
          obtain ⟨hlower, hs2, hlk⟩ := ih _ _ _ _ _ _ _ s1 s2 lower hs1 hl
          cases hu : PlotableExpression.recursive_plot P fuel
              (P.div (P.add x_min x_max) (P.of_int 2)) x_max delta_y y_mid y_max y_lo y_hi
              s2 with
          | unfinished => simp [hu] at h
          | throws e s3 => simp [hu] at h
          | returns upper s3 =>
            rw [hu] at h
            simp only [Outcome.returns.injEq] at h
            obtain ⟨rfl, rfl⟩ := h
            obtain ⟨hupper, hs3, huk⟩ := ih _ _ _ _ _ _ _ s2 s3 upper hs2 hu
            refine ⟨exact_merge P (exact_merge P hmid hlower) hupper, hs3, ?_⟩
            intro e he
            rcases map_merge_subset P upper _ e he with h | h
            · rcases map_merge_subset P lower _ e h with h | h
              · simp [hmidkey e h]
              · exact List.mem_append_right _ (List.mem_append_left _ (hlk e h))
            · exact List.mem_append_right _ (List.mem_append_right _ (huk e h))

theorem graphs_loop_samples (P : Fpu D) (K : D → Prop)
    (hK : ∀ a b : D, K a → K b → P.lt a b = false → P.lt b a = false → a = b)
    (expression : List String) (fuel : Nat) :
    ∀ (x x_lo x_hi delta_x delta_y y_lo y_hi : D) (previous : Option (D × D))
      (graph : Graph D) (s s' : Session D) (final : Graph D),
      s.expression = expression → Exact P expression graph → (∀ e ∈ graph, K e.1) →
      (∀ a ∈ graphs_loop_trace P fuel x x_lo x_hi delta_x delta_y y_lo y_hi previous s, K a) →
      PlotableExpression.graphs_loop P fuel x x_lo x_hi delta_x delta_y y_lo y_hi previous
        graph s = .returns final s' →
      Exact P expression final ∧ (∀ e ∈ graph, e ∈ final) ∧ (∀ e ∈ final, K e.1) ∧
      ∀ k, (∀ j ≤ k, P.le (abscissa P x delta_x j) x_hi = true) →
        ∃ y, value_at P expression (abscissa P x delta_x k) = some y ∧
          (abscissa P x delta_x k, y) ∈ final := by
  induction fuel with
  | zero =>
    intro x x_lo x_hi delta_x delta_y y_lo y_hi previous graph s s' final _ _ _ _ h
    simp [PlotableExpression.graphs_loop] at h
  | succ fuel ih =>
    intro x x_lo x_hi delta_x delta_y y_lo y_hi previous graph s s' final hs hg hgk htr h
    unfold PlotableExpression.graphs_loop at h
    unfold graphs_loop_trace at htr
    by_cases hle : P.le x x_hi = true
    · rw [if_pos hle] at h htr
      cases hsample : PlotableExpression.sample P x s with
      | unfinished => simp [hsample] at h
      | throws e s1 => simp [hsample] at h
      | returns y s1 =>
        rw [hsample] at h htr
        rw [sample_trace_returns P x s hsample] at htr
        simp only at h htr
        have hKx : K x := htr x (by simp)
        have hval := sample_value P x s hsample
        rw [hs] at hval
        have hs1 : s1.expression = expression := (sample_expression P x s hsample).trans hs
        obtain ⟨hg1, hmem1, hkeep1, hkeys1⟩ := exact_assign P
          (fun e he => hK x e.1 hKx (hgk e he)) hval hg
        have hgk1 : ∀ e ∈ PlotableExpression.map_assign P x y graph, K e.1 := by
          intro e he
          rcases hkeys1 e he with h | h
          · rw [h]
            exact hKx
          · exact hgk e h
        have key : ∀ (G : Graph D) (t : Session D), Exact P expression G →
            (∀ e ∈ PlotableExpression.map_assign P x y graph, e ∈ G) →
            (∀ e ∈ G, K e.1) →
            t.expression = expression →
            (∀ a ∈ graphs_loop_trace P fuel (P.add x delta_x) x_lo x_hi delta_x delta_y y_lo
              y_hi (some (x, y)) t, K a) →
            PlotableExpression.graphs_loop P fuel (P.add x delta_x) x_lo x_hi delta_x delta_y
              y_lo y_hi (some (x, y)) G t = .returns final s' →
            Exact P expression final ∧ (∀ e ∈ graph, e ∈ final) ∧ (∀ e ∈ final, K e.1) ∧
            ∀ k, (∀ j ≤ k, P.le (abscissa P x delta_x j) x_hi = true) →
              ∃ y, value_at P expression (abscissa P x delta_x k) = some y ∧
                (abscissa P x delta_x k, y) ∈ final := by
          intro G t hG hsub hGk ht htrace hloop
          obtain ⟨hfinal, hin, hfk, hnext⟩ :=
            ih _ _ _ _ _ _ _ _ G t s' final ht hG hGk htrace hloop
          refine ⟨hfinal, fun e he => hin e (hsub e (hkeep1 e he)), hfk, ?_⟩
          intro k hk
          cases k with
          | zero => exact ⟨y, hval, hin _ (hsub _ hmem1)⟩
          | succ k =>
            have := hnext k (by
              intro j hj
              rw [abscissa_shift]
              exact hk (j + 1) (Nat.succ_le_succ hj))
            rw [abscissa_shift] at this
            exact this
        by_cases hne : (!P.eq x x_lo) = true
        · rw [if_pos hne] at h htr
          cases previous with
          | none => simp at h
          | some prev =>
            obtain ⟨prev_x, prev_y⟩ := prev
            simp only at h htr
            by_cases hgt : P.lt delta_y (P.abs (P.sub y prev_y)) = true
            · rw [if_pos hgt] at h htr
              cases hr : PlotableExpression.recursive_plot P fuel prev_x x delta_y prev_y y
                  y_lo y_hi s1 with
              | unfinished => simp [hr] at h
              | throws e s2 => simp [hr] at h
              | returns refined s2 =>
                rw [hr] at h htr
                simp only at h htr
                obtain ⟨href, hs2, hrk⟩ := recursive_plot_exact P expression fuel _ _ _ _ _ _ _
                  s1 s2 refined hs1 hr
                refine key _ s2 (exact_merge P hg1 href)
                  (fun e he => map_merge_keeps P refined _ e he) ?_ hs2 ?_ h
                · intro e he
                  rcases map_merge_subset P refined _ e he with h | h
                  · exact hgk1 e h
                  · exact htr _ (List.mem_append_right _
                      (List.mem_append_left _ (hrk e h)))
                · intro a ha
                  exact htr a (List.mem_append_right _ (List.mem_append_right _ ha))
            · rw [if_neg hgt] at h htr
              exact key _ s1 hg1 (fun e he => he) hgk1 hs1
                (fun a ha => htr a (List.mem_append_right _ ha)) h
        · rw [if_neg hne] at h htr
          exact key _ s1 hg1 (fun e he => he) hgk1 hs1
            (fun a ha => htr a (List.mem_append_right _ ha)) h
    · rw [if_neg hle] at h
      simp only [Outcome.returns.injEq] at h
      obtain ⟨rfl, rfl⟩ := h
      refine ⟨hg, fun e he => he, hgk, ?_⟩
      intro k hk
      exact absurd (hk 0 (Nat.zero_le _)) hle

theorem cut_loop_covers (P : Fpu D) (K : D → Prop)
    (hK : ∀ a b : D, K a → K b → P.lt a b = false → P.lt b a = false → a = b)
    (expression : List String) (y_lo y_hi : D) (rest : Graph D) :
    ∀ (temp : Graph D) (graphs : List (Graph D)), Exact P expression (temp ++ rest) →
      (∀ e ∈ temp ++ rest, K e.1) →
      ∀ e : D × D,
        (e ∈ temp ∨ (∃ g ∈ graphs, e ∈ g) ∨ (e ∈ rest ∧ inside P y_lo y_hi e = true)) →
        ∃ g ∈ PlotableExpression.cut_loop P y_lo y_hi rest temp graphs, e ∈ g := by
  induction rest with
  | nil =>
    intro temp graphs _ _ e he
    unfold PlotableExpression.cut_loop
    rcases he with h | ⟨g, hg, h⟩ | ⟨h, _⟩
    · cases temp with
      | nil => cases h
      | cons t temp => exact ⟨t :: temp, by simp, h⟩
    · cases temp with
      | nil => exact ⟨g, by simpa using hg, h⟩
      | cons t temp => exact ⟨g, by simp [hg], h⟩
    · cases h
  | cons f rest ih =>
    intro temp graphs hex hkeys e he
    obtain ⟨key, value⟩ := f
    unfold PlotableExpression.cut_loop
    have hin : (P.le y_lo value && P.le value y_hi) = inside P y_lo y_hi (key, value) := rfl
    rw [hin]
    have hval : value_at P expression key = some value := hex (key, value) (by simp)
    have hKkey : K key := hkeys (key, value) (by simp)
    have htemp : Exact P expression temp := fun a ha => hex a (List.mem_append_left _ ha)
    have htempk : ∀ a ∈ temp, K a.1 := fun a ha => hkeys a (List.mem_append_left _ ha)
    have hrest : Exact P expression ([] ++ rest) := fun a ha =>
      hex a (List.mem_append_right _ (List.mem_cons_of_mem _ ha))
    have hrestk : ∀ a ∈ [] ++ rest, K a.1 := fun a ha =>
      hkeys a (List.mem_append_right _ (List.mem_cons_of_mem _ ha))
    by_cases hi : inside P y_lo y_hi (key, value) = true
    · rw [if_pos hi]
      obtain ⟨hnew, hmem, hkeep, hnewk⟩ := exact_assign P
        (fun a ha => hK key a.1 hKkey (htempk a ha)) hval htemp
      apply ih
      · intro a ha
        rcases List.mem_append.1 ha with h | h
        · exact hnew a h
        · exact hex a (List.mem_append_right _ (List.mem_cons_of_mem _ h))
      · intro a ha
        rcases List.mem_append.1 ha with h | h
        · rcases hnewk a h with h | h
          · rw [h]
            exact hKkey
          · exact htempk a h
        · exact hkeys a (List.mem_append_right _ (List.mem_cons_of_mem _ h))
      · rcases he with h | h | ⟨h, hie⟩
        · exact Or.inl (hkeep e h)
        · exact Or.inr (Or.inl h)
        · rcases List.mem_cons.1 h with h | h
          · subst h
            exact Or.inl hmem
          · exact Or.inr (Or.inr ⟨h, hie⟩)
    · rw [if_neg hi]
      have hlater : e ∈ (key, value) :: rest → inside P y_lo y_hi e = true → e ∈ rest := by
        intro h hie
        rcases List.mem_cons.1 h with h | h
        · subst h
          exact absurd hie hi
        · exact h
      cases temp with
      | nil =>
        simp only [List.isEmpty_nil, Bool.not_true, Bool.false_eq_true, if_false]
        apply ih _ _ hrest hrestk
        rcases he with h | h | ⟨h, hie⟩
        · cases h
        · exact Or.inr (Or.inl h)
        · exact Or.inr (Or.inr ⟨hlater h hie, hie⟩)
      | cons t temp =>
        simp only [List.isEmpty_cons, Bool.not_false, if_true]
        apply ih _ _ hrest hrestk
        rcases he with h | ⟨g, hg, h⟩ | ⟨h, hie⟩
        · exact Or.inr (Or.inl ⟨t :: temp, by simp, h⟩)
        · exact Or.inr (Or.inl ⟨g, by simp [hg], h⟩)
        · exact Or.inr (Or.inr ⟨hlater h hie, hie⟩)

/-- C24: when `graphs` returns and every two abscissas at which the call
evaluated the expression are the same or one is below the other, as numbers
are, whatever the values of the expression, a NaN among them, the abscissa of
every pass `k` of its loop, `x_lo` after `k` additions of `1 / x_pix`, all of
them up to that pass being at most `x_hi`, has a value under the expression,
and when that value lies in the range from `y_lo` to `y_hi` the abscissa paired
with the value is a point of a returned polyline. A larger bound on the passes
and the recursion depth gives the same polylines, and `CalculatorModel::graphs`
returns them when the display string is not empty. -/
theorem uniform_samples_plotted (P : Fpu D) (fuel : Nat) (x_lo x_hi : D) (x_pix : Int)
    (y_lo y_hi : D) (y_pix : Int) (s s' : Session D) (polylines : List (Graph D))
    (hkeys : ∀ a ∈ graphs_trace P fuel x_lo x_hi x_pix y_lo y_hi y_pix s,
      ∀ b ∈ graphs_trace P fuel x_lo x_hi x_pix y_lo y_hi y_pix s,
        P.lt a b = false → P.lt b a = false → a = b)
    (h : PlotableExpression.graphs P fuel x_lo x_hi x_pix y_lo y_hi y_pix s =
      .returns polylines s')
    (k : Nat)
    (hk : ∀ j ≤ k,
      P.le (abscissa P x_lo (P.div (P.of_int 1) (P.of_int x_pix)) j) x_hi = true) :
    (∃ y, value_at P s.expression
        (abscissa P x_lo (P.div (P.of_int 1) (P.of_int x_pix)) k) = some y ∧
      (P.le y_lo y = true → P.le y y_hi = true →
        ∃ g ∈ polylines, (abscissa P x_lo (P.div (P.of_int 1) (P.of_int x_pix)) k, y) ∈ g)) ∧
    (∀ n, PlotableExpression.graphs P (fuel + n) x_lo x_hi x_pix y_lo y_hi y_pix s =
      .returns polylines s') ∧
    (CalculatorModel.expression s ≠ "" →
      CalculatorModel.graphs P fuel x_lo x_hi x_pix y_lo y_hi y_pix s =
        .returns polylines s') := by
  refine ⟨?_, graphs_fuel P fuel x_lo x_hi x_pix y_lo y_hi y_pix s s' polylines h, ?_⟩
  · unfold PlotableExpression.graphs at h
    cases hl : PlotableExpression.graphs_loop P fuel x_lo x_lo x_hi
        (P.div (P.of_int 1) (P.of_int x_pix)) (P.div (P.of_int 1) (P.of_int y_pix)) y_lo y_hi
        none [] s with
    | unfinished => simp [hl] at h
    | throws e s1 => simp [hl] at h
    | returns graph s1 =>
      rw [hl] at h
      simp only [Outcome.returns.injEq] at h
      obtain ⟨rfl, rfl⟩ := h
      have hK : ∀ a b : D, a ∈ graphs_trace P fuel x_lo x_hi x_pix y_lo y_hi y_pix s →
          b ∈ graphs_trace P fuel x_lo x_hi x_pix y_lo y_hi y_pix s →
          P.lt a b = false → P.lt b a = false → a = b := fun a b ha hb => hkeys a ha b hb
      obtain ⟨hfinal, -, hfk, hsamples⟩ := graphs_loop_samples P _ hK s.expression fuel _ _ _ _
        _ _ _ none [] s s1 graph rfl (fun e he => by cases he) (fun e he => by cases he)
        (fun a ha => ha) hl
      obtain ⟨y, hy, hmem⟩ := hsamples k hk
      refine ⟨y, hy, fun h1 h2 => ?_⟩
      apply cut_loop_covers P _ hK s.expression y_lo y_hi graph [] []
        (by simpa using hfinal) (by simpa using hfk)
      refine Or.inr (Or.inr ⟨hmem, ?_⟩)
      simp [inside, h1, h2]
  · intro hne
    have hempty : (!(CalculatorModel.expression s).isEmpty) = true := by
      cases hb : (CalculatorModel.expression s).isEmpty with
      | false => rfl
      | true => exact absurd ((String.isEmpty_iff _).mp hb) hne
    unfold CalculatorModel.graphs
    rw [if_pos hempty, h]

set_option maxRecDepth 1000000 in
unseal Rat.add Rat.mul Rat.inv Rat.sub in
/-- The call `graphs(-2, 2, 2, -2, 4, 1)` for the atoms `X ^ 2`, of the tests
`GraphVarCalculator.test_4` and `CalculatorModel.test_4`, on the rationals:
the pass `k = 2` of the loop has the abscissa -1, and the one polyline
returned maps -2 to 4, -1 to 1, 0 to 0, 1 to 1 and 2 to 4. And a call on the
fixed-point instance with a NaN, for the atoms `( X - 1 ) / ( X - 1 ) * X` from
0 to 2 with one sample a unit: the value at 1 is the NaN, which is in no
polyline, and the sample of the pass `k = 2`, the abscissa 2 with the value 2,
is a point of the second polyline. -/
theorem uniform_samples_plotted_witness :
    (PlotableExpression.graphs rational_fpu 10 (-2) 2 2 (-2) 4 1
        ⟨["X", "^", "2"], [], [], "", ""⟩ =
      .returns square_plot ⟨["X", "^", "2"], [], [49 / 16], "7/4", ""⟩ ∧
    abscissa rational_fpu (-2) (rational_fpu.div (rational_fpu.of_int 1) (rational_fpu.of_int 2))
      2 = -1 ∧
    ∃ y, value_at rational_fpu ["X", "^", "2"]
        (abscissa rational_fpu (-2)
          (rational_fpu.div (rational_fpu.of_int 1) (rational_fpu.of_int 2)) 2) = some y ∧
      (rational_fpu.le (-2) y = true → rational_fpu.le y 4 = true →
        ∃ g ∈ square_plot,
          (abscissa rational_fpu (-2)
            (rational_fpu.div (rational_fpu.of_int 1) (rational_fpu.of_int 2)) 2, y) ∈ g)) ∧
    (PlotableExpression.graphs eighths_fpu 10 (some 0) (some 16) 1 (some (-8)) (some 24) 4
        ⟨punctured, [], [], "", ""⟩ =
      .returns [[(some 0, some 0)], [(some 16, some 16)]] (punctured_at 16 (some 16)) ∧
    graphs_trace eighths_fpu 10 (some 0) (some 16) 1 (some (-8)) (some 24) 4
        ⟨punctured, [], [], "", ""⟩ = [some 0, some 8, some 16] ∧
    value_at eighths_fpu punctured (some 8) = some none ∧
    ∃ y, value_at eighths_fpu punctured
        (abscissa eighths_fpu (some 0)
          (eighths_fpu.div (eighths_fpu.of_int 1) (eighths_fpu.of_int 1)) 2) = some y ∧
      (eighths_fpu.le (some (-8)) y = true → eighths_fpu.le y (some 24) = true →
        ∃ g ∈ [[(some 0, some 0)], [(some 16, some 16)]],
          (abscissa eighths_fpu (some 0)
            (eighths_fpu.div (eighths_fpu.of_int 1) (eighths_fpu.of_int 1)) 2, y) ∈ g)) :=
  ⟨⟨by rfl, by decide,
    (uniform_samples_plotted rational_fpu 10 (-2) 2 2 (-2) 4 1
      ⟨["X", "^", "2"], [], [], "", ""⟩ ⟨["X", "^", "2"], [], [49 / 16], "7/4", ""⟩ square_plot
      (fun a _ b _ => rational_order a b) (by rfl) 2 (by decide)).1⟩,
    ⟨by rfl, by rfl, by rfl,
    (uniform_samples_plotted eighths_fpu 10 (some 0) (some 16) 1 (some (-8)) (some 24) 4
      ⟨punctured, [], [], "", ""⟩ (punctured_at 16 (some 16))
      [[(some 0, some 0)], [(some 16, some 16)]]
      (by
        rw [show graphs_trace eighths_fpu 10 (some 0) (some 16) 1 (some (-8)) (some 24) 4
          ⟨punctured, [], [], "", ""⟩ = [some 0, some 8, some 16] from by rfl]
        decide)
      (by rfl) 2 (by decide)).1⟩⟩

end scn
